import Mathlib

/-!
Consistent-hash ring

A shallow embedding of the Go package `consistentHash`: the ring
(`consistentHash.go`), the default hash function with its accumulator pool
(`hash.go`) and the `Cache` fixture of `consistentHash_test.go`, with the
properties proved about them.

Modelling conventions

* `uint32` values are natural numbers reduced modulo `2 ^ 32` at every place
  where the Go code can wrap (`nodeID + uint32(i)`, the result of a `HashFunc`).
* `int` values and slice lengths are natural numbers; a slice is shorter than
  `2 ^ 32`, so the conversions `uint32(len(..))` and `int(..)` are the identity.
* A byte is a natural number below 256, a `[]byte` is a `List Nat`.
* The field `h` of the ring is never written after construction; every
  operation takes the hash function as its first argument `hf` (`New` sets it
  to `Fnv1a`).
* A Go `map[uint32]T` is an association list (`mapGet`, `mapSet`, `mapDel`);
  ranging over it is never needed.
* A runtime panic is an explicit result value.
* The dynamic type of a node is a field (`dynType`), with the flag that tells
  whether Go can compare its values; the comparison `v != node` of `RemoveNode`
  panics on two values of one uncomparable dynamic type.
* The mutex is not modelled: the operations are the sequential semantics.
* The method `Key()` of a node is a field: a node always reports the same key.
-/

namespace ConsistentHashRing

/-! ## Bytes, hashes -/

/-- Applying a `HashFunc`: the Go result type is `uint32`. -/
def hash32 (hf : List Nat → Nat) (data : List Nat) : Nat :=
  hf data % 4294967296

/-- The call `binary.LittleEndian.AppendUint32(make([]byte, 0, 4), val)`. -/
def leBytes32 (val : Nat) : List Nat :=
  [val % 256, val / 256 % 256, val / 65536 % 256, val / 16777216 % 256]

/-- The call `binary.LittleEndian.AppendUint64(make([]byte, 0, 8), val)`. -/
def leBytes64 (val : Nat) : List Nat :=
  [val % 256, val / 256 % 256, val / 65536 % 256, val / 16777216 % 256,
   val / 4294967296 % 256, val / 1099511627776 % 256,
   val / 281474976710656 % 256, val / 72057594037927936 % 256]

/-- The method `u32Hash`: hash of the little-endian encoding of a `uint32`. -/
def u32Hash (hf : List Nat → Nat) (val : Nat) : Nat :=
  hash32 hf (leBytes32 val)

/-- The slot expression `s.u32Hash(nodeID + uint32(i))`, with `uint32` wrap-around. -/
def vNodeSlot (hf : List Nat → Nat) (nodeID i : Nat) : Nat :=
  u32Hash hf ((nodeID + i % 4294967296) % 4294967296)

/-! ## Nodes -/

/-- A dynamic type of Go values: its identity and whether Go can compare its
values with `==` (pointer types are comparable; a struct type with a slice
field is not). -/
structure DynType where
  name : Nat
  comparable : Bool
deriving DecidableEq

/-- A value of interface type `Node`. `ident` stands for the identity of the
dynamic value (the address behind a pointer receiver), `Key` for the result of
the method `Key()`, `rehash` tells whether the dynamic type also implements
`RehashNode`, `dynType` is the dynamic type. -/
structure Node where
  ident : Nat
  Key : List Nat
  rehash : Bool
  dynType : DynType
deriving DecidableEq

/-! ## Go maps with `uint32` keys -/

/-- A Go map with `uint32` keys. -/
abbrev GoMap (α : Type) := List (Nat × α)

/-- The lookup `v, exist := m[k]`. -/
def mapGet {α : Type} : GoMap α → Nat → Option α
  | [], _ => none
  | (k', v) :: rest, k => if k' = k then some v else mapGet rest k

/-- The statement `delete(m, k)`. -/
def mapDel {α : Type} (m : GoMap α) (k : Nat) : GoMap α :=
  m.filter (fun p => decide (p.1 ≠ k))

/-- The statement `m[k] = v`. -/
def mapSet {α : Type} (m : GoMap α) (k : Nat) (v : α) : GoMap α :=
  (k, v) :: mapDel m k

/-- The expression `len(m)`. -/
def mapLen {α : Type} (m : GoMap α) : Nat := m.length

/-! ## `sort.Search` and `sort.Slice` -/

/-- The loop of Go's `sort.Search`:
`for i < j { h := int(uint(i+j) >> 1); if !f(h) { i = h + 1 } else { j = h } }; return i`.
The first argument bounds the number of iterations. -/
def searchLoop (f : Nat → Bool) : Nat → Nat → Nat → Nat
  | 0, i, _ => i
  | fuel + 1, i, j =>
    if i < j then
      if !f ((i + j) / 2) then searchLoop f fuel ((i + j) / 2 + 1) j
      else searchLoop f fuel i ((i + j) / 2)
    else i

/-- Go's `sort.Search(n, f)`; `n` iterations always suffice. -/
def sortSearch (n : Nat) (f : Nat → Bool) : Nat :=
  searchLoop f n 0 n

/-- The call `sort.Slice(xs, func(i, j int) bool { return xs[i] < xs[j] })` on a
slice of `uint32`: the ascending rearrangement of the values. -/
def sortSlice (xs : List Nat) : List Nat :=
  List.insertionSort (fun a b => a ≤ b) xs

/-! ## The ring -/

/-- The struct `ConsistentHash` without its hash function and mutex. -/
structure ConsistentHash where
  virtualNodeCount : Nat
  vnodes : List Nat
  vNodeMapActNodes : GoMap (List Node)
  nodeIDMapNode : GoMap Node
deriving DecidableEq

/-- The constructor `New`. -/
def New : ConsistentHash :=
  { virtualNodeCount := 10, vnodes := [], vNodeMapActNodes := [], nodeIDMapNode := [] }

/-- Runtime panics of the Go program. -/
inductive RuntimeError where
  | indexOutOfRange
  | divideByZero
  | typeAssertion
  | uncomparable
deriving DecidableEq

/-- What a call of `GetNode` does: return a node, return `nil`, or panic. -/
inductive Lookup where
  | found (n : Node)
  | absent
  | panics (e : RuntimeError)
deriving DecidableEq

/-- The index computed by `GetNode` before the table is read:
`sort.Search` for the first slot `>= hashIdx`, replaced by 0 when there is none. -/
def lookupIdx (vnodes : List Nat) (hashIdx : Nat) : Nat :=
  let vNodeCount := vnodes.length
  let vNodeIdx := sortSearch vNodeCount (fun i => decide (vnodes.getD i 0 ≥ hashIdx))
  if vNodeIdx = vNodeCount then 0 else vNodeIdx

/-- The tail of `GetNode`: the choice among the owners of the slot found,
`if len(nodes) == 1 { return nodes[0] }; return nodes[hashIdx%uint32(len(nodes))]`. -/
def pickOwner (nodes : List Node) (hashIdx : Nat) : Lookup :=
  if nodes.length = 1 then
    match nodes.get? 0 with
    | some n => Lookup.found n
    | none => Lookup.panics RuntimeError.indexOutOfRange
  else if nodes.length = 0 then Lookup.panics RuntimeError.divideByZero
  else
    match nodes.get? (hashIdx % nodes.length) with
    | some n => Lookup.found n
    | none => Lookup.panics RuntimeError.indexOutOfRange

/-- The method `GetNode`. -/
def GetNode (hf : List Nat → Nat) (s : ConsistentHash) (nodeKey : List Nat) : Lookup :=
  let hashIdx := hash32 hf nodeKey
  match s.vnodes.get? (lookupIdx s.vnodes hashIdx) with
  | none => Lookup.panics RuntimeError.indexOutOfRange
  | some slot =>
    match mapGet s.vNodeMapActNodes slot with
    | none => Lookup.absent
    | some nodes => pickOwner nodes hashIdx

/-- The method `Hash`. -/
def Hash (hf : List Nat → Nat) (data : List Nat) : Nat :=
  hash32 hf data

/-! ## AddNode -/

/-- The loop variables of the first loop of `AddNode`: the slot table, the
ownership index and `vNodeSlotIDArr` (whose elements are also the members of
`currVNodeSlotIDSet`). -/
structure AddAcc where
  vnodes : List Nat
  index : GoMap (List Node)
  slotArr : List Nat
deriving DecidableEq

/-- One iteration of the first loop of `AddNode` (the body for index `i`). -/
def addVNode (hf : List Nat → Nat) (node : Node) (nodeID : Nat) (acc : AddAcc) (i : Nat) :
    AddAcc :=
  let vNodeSlotID := vNodeSlot hf nodeID i
  match mapGet acc.index vNodeSlotID with
  | some nodes =>
    { vnodes := acc.vnodes
      index := mapSet acc.index vNodeSlotID (nodes ++ [node])
      slotArr := acc.slotArr ++ [vNodeSlotID] }
  | none =>
    { vnodes := acc.vnodes ++ [vNodeSlotID]
      index := mapSet acc.index vNodeSlotID [node]
      slotArr := acc.slotArr ++ [vNodeSlotID] }

/-- The first loop of `AddNode`, `for i := 0; i < s.virtualNodeCount; i++`. -/
def addVNodes (hf : List Nat → Nat) (node : Node) (nodeID : Nat) (s : ConsistentHash) : AddAcc :=
  (List.range s.virtualNodeCount).foldl (addVNode hf node nodeID)
    { vnodes := s.vnodes, index := s.vNodeMapActNodes, slotArr := [] }

/-- The ring after the mutation part of `AddNode` (registration, the slot loop
and the sort) for a node whose identity is not registered. -/
def addNodeState (hf : List Nat → Nat) (s : ConsistentHash) (node : Node) : ConsistentHash :=
  let nodeID := hash32 hf node.Key
  let acc := addVNodes hf node nodeID s
  { virtualNodeCount := s.virtualNodeCount
    vnodes := sortSlice acc.vnodes
    vNodeMapActNodes := acc.index
    nodeIDMapNode := mapSet s.nodeIDMapNode nodeID node }

/-- One recorded call `owner.Migrate(s, sepVNodeSlotID, dstNode)`. -/
structure MigrateCall where
  owner : Node
  sepVNodeSlotID : Nat
  dstNode : Node
deriving DecidableEq

/-- The value of `nextVNodeSlotID` for one new slot: the result of `sort.Search`
with the predicate `s.vnodes[i] > vNodeSlotID && !exist`, replaced by
`s.vnodes[0]` when the search returns `len(s.vnodes)`. -/
def nextVNodeSlotID (vnodes slotArr : List Nat) (vNodeSlotID : Nat) : Except RuntimeError Nat :=
  let vNodeCount := vnodes.length
  let found := sortSearch vNodeCount
    (fun i => decide (vnodes.getD i 0 > vNodeSlotID) && !(decide (vnodes.getD i 0 ∈ slotArr)))
  if found = vNodeCount then
    match vnodes.get? 0 with
    | some v => Except.ok v
    | none => Except.error RuntimeError.indexOutOfRange
  else Except.ok found

/-- The inner loop `for _, nextNode := range ...` of the migration: the type
assertion `nextNode.(RehashNode)` panics on a plain node. -/
def migrateOwners (vNodeSlotID : Nat) (dst : Node) :
    List Node → List MigrateCall → List MigrateCall × Option RuntimeError
  | [], calls => (calls, none)
  | nextNode :: rest, calls =>
    if nextNode.rehash then
      migrateOwners vNodeSlotID dst rest (calls ++ [⟨nextNode, vNodeSlotID, dst⟩])
    else (calls, some RuntimeError.typeAssertion)

/-- The second loop of `AddNode` over the sorted `vNodeSlotIDArr` (which has
`virtualNodeCount` elements): the calls of `Migrate` made, and the panic that ended
the loop, if any. -/
def migrateSlots (s : ConsistentHash) (slotArr : List Nat) (dst : Node) :
    List Nat → List MigrateCall → List MigrateCall × Option RuntimeError
  | [], calls => (calls, none)
  | vNodeSlotID :: rest, calls =>
    match nextVNodeSlotID s.vnodes slotArr vNodeSlotID with
    | Except.error e => (calls, some e)
    | Except.ok next =>
      match migrateOwners vNodeSlotID dst ((mapGet s.vNodeMapActNodes next).getD []) calls with
      | (calls1, none) => migrateSlots s slotArr dst rest calls1
      | (calls1, some e) => (calls1, some e)

/-- How a call of `AddNode` ends. -/
inductive AddOutcome where
  | ok
  | errNodeExist
  | panic (e : RuntimeError)
deriving DecidableEq

/-- The effect of a call of `AddNode`: the ring afterwards, how the call ended,
and the calls of `Migrate` it made, in order. -/
structure AddResult where
  state : ConsistentHash
  ret : AddOutcome
  migrations : List MigrateCall
deriving DecidableEq

/-- The method `AddNode`. -/
def AddNode (hf : List Nat → Nat) (s : ConsistentHash) (node : Node) : AddResult :=
  let nodeID := hash32 hf node.Key
  match mapGet s.nodeIDMapNode nodeID with
  | some _ => { state := s, ret := AddOutcome.errNodeExist, migrations := [] }
  | none =>
    let s1 := addNodeState hf s node
    if !node.rehash then { state := s1, ret := AddOutcome.ok, migrations := [] }
    else if mapLen s1.nodeIDMapNode = 1 then { state := s1, ret := AddOutcome.ok, migrations := [] }
    else
      let slotArr := (addVNodes hf node nodeID s).slotArr
      match migrateSlots s1 slotArr node (sortSlice slotArr) [] with
      | (calls, none) => { state := s1, ret := AddOutcome.ok, migrations := calls }
      | (calls, some e) => { state := s1, ret := AddOutcome.panic e, migrations := calls }

/-! ## RemoveNode -/

/-- The loop variables of the loop of `RemoveNode`. -/
structure RemoveAcc where
  vnodes : List Nat
  index : GoMap (List Node)
deriving DecidableEq

/-- The comparison `v != node` of two interface values: values of different
dynamic types are unequal; values of one dynamic type are compared, and the
comparison panics when that type is not comparable. -/
def nodeNe (v node : Node) : Except RuntimeError Bool :=
  if v.dynType = node.dynType then
    if node.dynType.comparable then Except.ok (decide (v ≠ node))
    else Except.error RuntimeError.uncomparable
  else Except.ok true

/-- The inner loop of `RemoveNode`,
`for _, v := range nodes { if v != node { newNodes = append(newNodes, v) } }`:
the owners kept, or the panic of a comparison. -/
def filterOwners (node : Node) : List Node → Except RuntimeError (List Node)
  | [] => Except.ok []
  | v :: rest =>
    match nodeNe v node with
    | Except.error e => Except.error e
    | Except.ok keep =>
      match filterOwners node rest with
      | Except.error e => Except.error e
      | Except.ok newNodes => Except.ok (if keep then v :: newNodes else newNodes)

/-- One iteration of the loop of `RemoveNode` (the body for index `i`). The
filtered slice is stored back only when it is non-empty; otherwise the slot is
searched in the table and the element at the index found is cut out whenever
that index is in range. When a comparison panics the ring is as it was before
the iteration: the owners scanned before the panic have another dynamic type,
so all of them were kept and the in-place filter rewrote each onto itself. -/
def removeVNode (hf : List Nat → Nat) (node : Node) (nodeID : Nat) (acc : RemoveAcc) (i : Nat) :
    Except RuntimeError RemoveAcc :=
  let vNodeSlotID := vNodeSlot hf nodeID i
  let nodes := (mapGet acc.index vNodeSlotID).getD []
  if nodes.length > 1 then
    match filterOwners node nodes with
    | Except.error e => Except.error e
    | Except.ok newNodes =>
      if newNodes.length > 0 then
        Except.ok { vnodes := acc.vnodes, index := mapSet acc.index vNodeSlotID newNodes }
      else Except.ok acc
  else
    let vNodeIdx := sortSearch acc.vnodes.length
      (fun j => decide (acc.vnodes.getD j 0 ≥ vNodeSlotID))
    if vNodeIdx < acc.vnodes.length then
      Except.ok { vnodes := acc.vnodes.eraseIdx vNodeIdx, index := mapDel acc.index vNodeSlotID }
    else Except.ok { vnodes := acc.vnodes, index := mapDel acc.index vNodeSlotID }

/-- The loop of `RemoveNode` over a list of indices: the loop variables when the
loop ends, and the panic that ended it, if any. -/
def removeVNodesFrom (hf : List Nat → Nat) (node : Node) (nodeID : Nat) :
    List Nat → RemoveAcc → RemoveAcc × Option RuntimeError
  | [], acc => (acc, none)
  | i :: rest, acc =>
    match removeVNode hf node nodeID acc i with
    | Except.ok acc1 => removeVNodesFrom hf node nodeID rest acc1
    | Except.error e => (acc, some e)

/-- The loop of `RemoveNode`, `for i := 0; i < s.virtualNodeCount; i++`. -/
def removeVNodes (hf : List Nat → Nat) (node : Node) (nodeID : Nat) (s : ConsistentHash) :
    RemoveAcc × Option RuntimeError :=
  removeVNodesFrom hf node nodeID (List.range s.virtualNodeCount)
    { vnodes := s.vnodes, index := s.vNodeMapActNodes }

/-- The effect of a call of `RemoveNode`: the ring afterwards, the node whose
`Transfer` hook is invoked (on that ring), if any, and the panic that ended the
call, if any. -/
structure RemoveResult where
  state : ConsistentHash
  transfer : Option Node
  panic : Option RuntimeError
deriving DecidableEq

/-- The method `RemoveNode`. A panic in the slot loop leaves the ring as the
loop had it: the registry entry is deleted, the table is not sorted again and no
hook runs. -/
def RemoveNode (hf : List Nat → Nat) (s : ConsistentHash) (nodeKey : List Nat) : RemoveResult :=
  let nodeID := hash32 hf nodeKey
  match mapGet s.nodeIDMapNode nodeID with
  | none => { state := s, transfer := none, panic := none }
  | some node =>
    match removeVNodes hf node nodeID s with
    | (acc, some e) =>
      { state :=
          { virtualNodeCount := s.virtualNodeCount
            vnodes := acc.vnodes
            vNodeMapActNodes := acc.index
            nodeIDMapNode := mapDel s.nodeIDMapNode nodeID }
        transfer := none
        panic := some e }
    | (acc, none) =>
      let s1 : ConsistentHash :=
        { virtualNodeCount := s.virtualNodeCount
          vnodes := sortSlice acc.vnodes
          vNodeMapActNodes := acc.index
          nodeIDMapNode := mapDel s.nodeIDMapNode nodeID }
      if !node.rehash then { state := s1, transfer := none, panic := none }
      else if mapLen s1.nodeIDMapNode = 0 then { state := s1, transfer := none, panic := none }
      else { state := s1, transfer := some node, panic := none }

/-- One iteration of the loop of `RemoveNode` when no comparison panics: the
filter is then the list filter. -/
def removeVNodeOk (hf : List Nat → Nat) (node : Node) (nodeID : Nat) (acc : RemoveAcc) (i : Nat) :
    RemoveAcc :=
  let vNodeSlotID := vNodeSlot hf nodeID i
  let nodes := (mapGet acc.index vNodeSlotID).getD []
  if nodes.length > 1 then
    let newNodes := nodes.filter (fun v => decide (v ≠ node))
    if newNodes.length > 0 then
      { vnodes := acc.vnodes, index := mapSet acc.index vNodeSlotID newNodes }
    else acc
  else
    let vNodeIdx := sortSearch acc.vnodes.length
      (fun j => decide (acc.vnodes.getD j 0 ≥ vNodeSlotID))
    if vNodeIdx < acc.vnodes.length then
      { vnodes := acc.vnodes.eraseIdx vNodeIdx, index := mapDel acc.index vNodeSlotID }
    else { vnodes := acc.vnodes, index := mapDel acc.index vNodeSlotID }

/-- The loop variables after the whole loop of `RemoveNode` when no comparison
panics. -/
def removeVNodesOk (hf : List Nat → Nat) (node : Node) (nodeID : Nat) (s : ConsistentHash) :
    RemoveAcc :=
  (List.range s.virtualNodeCount).foldl (removeVNodeOk hf node nodeID)
    { vnodes := s.vnodes, index := s.vNodeMapActNodes }

/-! ## Reachable rings -/

/-- The rings reachable from `New` by calls of `AddNode` and `RemoveNode`. The
ring a call of `AddNode` leaves behind is the same whether the migration loop
runs to its end or panics: the mutation is complete before the loop starts. -/
inductive Reachable (hf : List Nat → Nat) : ConsistentHash → Prop where
  | new : Reachable hf New
  | add (s : ConsistentHash) (node : Node) :
      Reachable hf s → Reachable hf (AddNode hf s node).state
  | remove (s : ConsistentHash) (nodeKey : List Nat) :
      Reachable hf s → Reachable hf (RemoveNode hf s nodeKey).state

/-! ## The `Cache` fixture of the test file -/

/-- The contents of the `sync.Map` of one `Cache`: entries from an `int` key to
a value (the test stores integers). -/
abbrev CacheStore := List (Int × Int)

/-- The stores of all the `Cache` values, by node. -/
abbrev Caches := Node → CacheStore

/-- The helper `int2Bytes`: the little-endian bytes of `uint64(i)`. -/
def int2Bytes (i : Int) : List Nat :=
  leBytes64 (i % 18446744073709551616).toNat

/-- The method `get` of `Cache` (`ce.m.Load(key)`). -/
def storeGet : CacheStore → Int → Option Int
  | [], _ => none
  | (k', v) :: rest, k => if k' = k then some v else storeGet rest k

/-- The store after `ce.m.Delete(key)`. -/
def storeDel (st : CacheStore) (k : Int) : CacheStore :=
  st.filter (fun p => decide (p.1 ≠ k))

/-- The store after `ce.m.Store(key, value)`. -/
def storeSet (st : CacheStore) (k v : Int) : CacheStore :=
  (k, v) :: storeDel st k

/-- The method `set` of the `Cache` behind node `ce`. -/
def cacheSet (caches : Caches) (ce : Node) (k v : Int) : Caches :=
  fun n => if n = ce then storeSet (caches n) k v else caches n

/-- The method `del` of the `Cache` behind node `ce`. -/
def cacheDel (caches : Caches) (ce : Node) (k : Int) : Caches :=
  fun n => if n = ce then storeDel (caches n) k else caches n

/-- The callback of `Range` in `Cache.Transfer` for one entry: look the key up
on the ring, assert the owner to be a `*Cache` (in the fixture, the nodes that
implement `RehashNode` are the caches; a `nil` result fails the assertion),
store the entry there and delete it locally. -/
def transferEntry (hf : List Nat → Nat) (s : ConsistentHash) (ce : Node) (caches : Caches)
    (kv : Int × Int) : Except RuntimeError Caches :=
  match GetNode hf s (int2Bytes kv.1) with
  | Lookup.found node =>
    if node.rehash then Except.ok (cacheDel (cacheSet caches node kv.1 kv.2) ce kv.1)
    else Except.error RuntimeError.typeAssertion
  | Lookup.absent => Except.error RuntimeError.typeAssertion
  | Lookup.panics e => Except.error e

/-- The iteration `ce.m.Range(..)` of `Cache.Transfer` over the entries the
store held when the call began (each key is visited once; the callback only
touches the key it is visiting). -/
def transferLoop (hf : List Nat → Nat) (s : ConsistentHash) (ce : Node) :
    List (Int × Int) → Caches → Except RuntimeError Caches
  | [], caches => Except.ok caches
  | kv :: rest, caches =>
    match transferEntry hf s ce caches kv with
    | Except.ok caches1 => transferLoop hf s ce rest caches1
    | Except.error e => Except.error e

/-- The method `Cache.Transfer`. -/
def cacheTransfer (hf : List Nat → Nat) (s : ConsistentHash) (ce : Node) (caches : Caches) :
    Except RuntimeError Caches :=
  transferLoop hf s ce (caches ce) caches

/-- The call `RemoveNode` on a ring of `Cache` nodes: the ring mutation followed
by the `Transfer` hook of the removed cache, when it is invoked. -/
def removeNodeCaches (hf : List Nat → Nat) (s : ConsistentHash) (caches : Caches)
    (nodeKey : List Nat) : Except RuntimeError (ConsistentHash × Caches) :=
  match (RemoveNode hf s nodeKey).panic with
  | some e => Except.error e
  | none =>
    match (RemoveNode hf s nodeKey).transfer with
    | none => Except.ok ((RemoveNode hf s nodeKey).state, caches)
    | some ce =>
      match cacheTransfer hf (RemoveNode hf s nodeKey).state ce caches with
      | Except.ok caches1 => Except.ok ((RemoveNode hf s nodeKey).state, caches1)
      | Except.error e => Except.error e

/-! ## The default hash function (`hash.go`) -/

/-- The constant `offset32`. -/
def offset32 : Nat := 2166136261

/-- The constant `prime32`. -/
def prime32 : Nat := 16777619

/-- The method `newFnv1a`: a fresh accumulator, holding `offset32`. -/
def newFnv1a : Nat := offset32

/-- The method `Write` of an accumulator holding `s`: the value it holds after
`for _, c := range data { h ^= fnv1a(c); h *= prime32 }`, in `uint32`. -/
def fnv1aWrite (s : Nat) (data : List Nat) : Nat :=
  data.foldl (fun h c => Nat.xor h c * prime32 % 4294967296) s

/-- The method `Sum32` of an accumulator holding `s`. -/
def fnv1aSum32 (s : Nat) : Nat := s

/-- The method `Reset`: the value the accumulator holds afterwards. -/
def fnv1aReset : Nat := offset32

/-- The contents of `hPool`: the values held by the pooled accumulators. -/
abbrev Pool := List Nat

/-- The call `hPool.Get()`: the pool hands out one of its accumulators (`pick`
is the position the runtime chooses) or, when it has none there, the result of
its `New` function, `newFnv1a()`. -/
def poolGet (pool : Pool) (pick : Nat) : Nat × Pool :=
  match pool.get? pick with
  | some h => (h, pool.eraseIdx pick)
  | none => (newFnv1a, pool)

/-- One call of `Fnv1a` on a given pool: the value returned and the pool
afterwards (`Get`, `Write`, `Sum32`, `Reset`, `Put`). -/
def fnv1aCall (pool : Pool) (pick : Nat) (data : List Nat) : Nat × Pool :=
  let h := (poolGet pool pick).1
  let h1 := fnv1aWrite h data
  let v := fnv1aSum32 h1
  let h2 := fnv1aReset
  (v, h2 :: (poolGet pool pick).2)

/-- The pools that can arise: the pool is empty at program start, it changes by
calls of `Fnv1a` (nothing else touches `hPool`), and the runtime may drop a
pooled accumulator at any time. -/
inductive PoolReachable : Pool → Prop where
  | init : PoolReachable []
  | call (pool : Pool) (pick : Nat) (data : List Nat) :
      PoolReachable pool → PoolReachable (fnv1aCall pool pick data).2
  | drop (pool : Pool) (i : Nat) : PoolReachable pool → PoolReachable (pool.eraseIdx i)

/-- The function `Fnv1a` as a hash function of the ring: the value a call
returns on the pool of program start. -/
def Fnv1a (data : List Nat) : Nat :=
  (fnv1aCall [] 0 data).1

/-- The 32-bit FNV-1a hash as the specification words it: from a current value
`h`, for each byte in order, `h := ((h XOR byte) * 16777619) mod 2 ^ 32`. -/
def fnvSpecFrom (h : Nat) : List Nat → Nat
  | [] => h
  | b :: rest => fnvSpecFrom (Nat.xor h b * 16777619 % 4294967296) rest

/-- The 32-bit FNV-1a hash as the specification words it, started from the
offset basis 2166136261. -/
def fnvSpec (data : List Nat) : Nat :=
  fnvSpecFrom 2166136261 data

/-! ## Specification predicates -/

/-- The slot a key with hash `h` belongs to on a ring with slot values `l`: the
smallest value `>= h`, or the smallest value of all when no value is `>= h`. -/
def IsRingSlot (l : List Nat) (h v : Nat) : Prop :=
  v ∈ l ∧ ((h ≤ v ∧ ∀ w ∈ l, h ≤ w → v ≤ w) ∨ ((∀ w ∈ l, w < h) ∧ ∀ w ∈ l, v ≤ w))

/-- The virtual slot values of a node with identity `nodeID` on a ring with
replication factor `V`: `u32Hash(nodeID + i)` for `i` in `[0, V)`, in this order. -/
def nodeSlots (hf : List Nat → Nat) (nodeID V : Nat) : List Nat :=
  (List.range V).map (vNodeSlot hf nodeID)

/-- The slot value `slot_i` as the specification writes it: the hash of the
4-byte little-endian encoding of `(nodeID + i) mod 2 ^ 32`. -/
def specSlot (hf : List Nat → Nat) (nodeID i : Nat) : Nat :=
  hash32 hf (leBytes32 ((nodeID + i) % 4294967296))

/-- The expression `s.vNodeMapActNodes[v]`: the owner list of slot `v`, `nil`
when the index has no entry for `v`. -/
def ownersOf (s : ConsistentHash) (v : Nat) : List Node :=
  (mapGet s.vNodeMapActNodes v).getD []

/-- The ring invariants the lookup relies on: the slot table is strictly
ascending and every table value has a non-empty owner list in the index. -/
def RingInv (s : ConsistentHash) : Prop :=
  List.Sorted (fun a b => a < b) s.vnodes ∧ ∀ v ∈ s.vnodes, ownersOf s v ≠ []

instance (s : ConsistentHash) : Decidable (RingInv s) := by
  unfold RingInv
  infer_instance

/-- A node is registered: the registry maps its identity to it. -/
def Registered (hf : List Nat → Nat) (s : ConsistentHash) (n : Node) : Prop :=
  mapGet s.nodeIDMapNode (hash32 hf n.Key) = some n

instance (hf : List Nat → Nat) (s : ConsistentHash) (n : Node) :
    Decidable (Registered hf s n) := by
  unfold Registered
  infer_instance

/-- A ring without slot collisions: the table is strictly ascending, every
registered node is the sole owner of each of its slot values, which are in the
table and pairwise distinct, and every table value is a slot of a registered
node. -/
def CollisionFree (hf : List Nat → Nat) (s : ConsistentHash) : Prop :=
  List.Sorted (fun a b => a < b) s.vnodes ∧
    (∀ n, Registered hf s n →
      ∀ v ∈ nodeSlots hf (hash32 hf n.Key) s.virtualNodeCount,
        v ∈ s.vnodes ∧ ownersOf s v = [n]) ∧
    (∀ n, Registered hf s n →
      (nodeSlots hf (hash32 hf n.Key) s.virtualNodeCount).Nodup) ∧
    (∀ v ∈ s.vnodes, ∃ n, Registered hf s n ∧
      v ∈ nodeSlots hf (hash32 hf n.Key) s.virtualNodeCount)

/-- The ring built from `s` by calling `AddNode` for the nodes of a list, in
order. -/
def addNodes (hf : List Nat → Nat) (s : ConsistentHash) (nodes : List Node) : ConsistentHash :=
  nodes.foldl (fun r n => (AddNode hf r n).state) s

/-- Every key of the ownership index is a value of the slot table. -/
def KeysInTable (s : ConsistentHash) : Prop :=
  ∀ k, mapGet s.vNodeMapActNodes k ≠ none → k ∈ s.vnodes

/-- The rings reachable from `New` by calls of `RemoveNode` and by calls of
`AddNode` for nodes that satisfy `P` (the nodes ever added to the ring). -/
inductive ReachableWith (hf : List Nat → Nat) (P : Node → Prop) : ConsistentHash → Prop where
  | new : ReachableWith hf P New
  | add (s : ConsistentHash) (node : Node) :
      P node → ReachableWith hf P s → ReachableWith hf P (AddNode hf s node).state
  | remove (s : ConsistentHash) (nodeKey : List Nat) :
      ReachableWith hf P s → ReachableWith hf P (RemoveNode hf s nodeKey).state

/-- The hash function gives pairwise distinct slot values to all the virtual
replicas of all the nodes that satisfy `P`: two replicas with the same slot
value are the same replica (same identity, same index). -/
def DistinctReplicas (hf : List Nat → Nat) (P : Node → Prop) : Prop :=
  ∀ n m, P n → P m → ∀ i < 10, ∀ j < 10,
    vNodeSlot hf (hash32 hf n.Key) i = vNodeSlot hf (hash32 hf m.Key) j →
      hash32 hf n.Key = hash32 hf m.Key ∧ i = j

/-- Every registry entry is filed under the identity of its node. -/
def RegistryConsistent (hf : List Nat → Nat) (s : ConsistentHash) : Prop :=
  ∀ id n, mapGet s.nodeIDMapNode id = some n → hash32 hf n.Key = id

/-- No entry of the ownership index holds an empty owner list. -/
def NonEmptyLists (s : ConsistentHash) : Prop :=
  ∀ k nodes, mapGet s.vNodeMapActNodes k = some nodes → nodes ≠ []

/-- A node is listed only at its own slot values. -/
def OwnersHaveSlot (hf : List Nat → Nat) (s : ConsistentHash) : Prop :=
  ∀ k m, m ∈ ownersOf s k → k ∈ nodeSlots hf (hash32 hf m.Key) 10

/-- A node of a comparable dynamic type whose ten slot values are pairwise
distinct is listed at most once per slot, and not at all while it is not
registered. -/
def CleanOwners (hf : List Nat → Nat) (s : ConsistentHash) : Prop :=
  ∀ m, m.dynType.comparable = true → (nodeSlots hf (hash32 hf m.Key) 10).Nodup →
    (∀ k, List.count m (ownersOf s k) ≤ 1) ∧
      (¬ Registered hf s m → ∀ k, m ∉ ownersOf s k)

/-- The hash function gives every node identity ten pairwise distinct slot
values. -/
def DistinctOwnReplicas (hf : List Nat → Nat) : Prop :=
  ∀ nodeID, nodeID < 4294967296 → (nodeSlots hf nodeID 10).Nodup

/-- The ten slot values of the node are pairwise distinct. -/
def OwnReplicasDistinct (hf : List Nat → Nat) (n : Node) : Prop :=
  (nodeSlots hf (hash32 hf n.Key) 10).Nodup

/-- Every registered node is listed at each of its ten slot values. -/
def OwnsSlots (hf : List Nat → Nat) (s : ConsistentHash) : Prop :=
  ∀ n, Registered hf s n → ∀ v ∈ nodeSlots hf (hash32 hf n.Key) 10, n ∈ ownersOf s v

/-- The invariant of the loop of `RemoveNode` for a node with pairwise distinct
slot values, before the pass for the first index of `is`: the table is strictly
ascending, every key of the index is in the table, the node is still listed at
the slots of the indices to come, these slots are pairwise distinct, and every
other owner that `owners0` lists is still listed. -/
def RemoveLoopInv (hf : List Nat → Nat) (node : Node) (nodeID : Nat)
    (owners0 : Nat → List Node) (is : List Nat) (acc : RemoveAcc) : Prop :=
  List.Sorted (fun a b => a < b) acc.vnodes ∧
    (∀ k, mapGet acc.index k ≠ none → k ∈ acc.vnodes) ∧
    (∀ j ∈ is, node ∈ (mapGet acc.index (vNodeSlot hf nodeID j)).getD []) ∧
    (is.map (vNodeSlot hf nodeID)).Nodup ∧
    (∀ m v, m ≠ node → m ∈ owners0 v → m ∈ (mapGet acc.index v).getD [])

/-! ## Sample rings -/

/-- A synthetic hash function: the little-endian value of the bytes. With it a
node whose key is the single byte `b` has identity `b` and slots `b, .., b + 9`. -/
def leValue : List Nat → Nat
  | [] => 0
  | b :: rest => b + 256 * leValue rest

/-- The dynamic type `*Cache` of the test fixture: a pointer type, comparable,
with the methods of `RehashNode`. -/
def cacheType : DynType := { name := 0, comparable := true }

/-- A pointer type that has the method `Key` only. -/
def plainType : DynType := { name := 1, comparable := true }

/-- A struct type with a field of slice type and value receivers for the
methods of `RehashNode`: its values cannot be compared. -/
def sliceNodeType : DynType := { name := 2, comparable := false }

/-- A cache with key `[100]`. -/
def cacheA : Node := { ident := 1, Key := [100], rehash := true, dynType := cacheType }

/-- A cache with key `[101]`. -/
def cacheB : Node := { ident := 2, Key := [101], rehash := true, dynType := cacheType }

/-- A cache with key `[102]`. -/
def cacheC : Node := { ident := 3, Key := [102], rehash := true, dynType := cacheType }

/-- The ring `New` after `AddNode(cacheA)`, under `leValue`. -/
def ringA : ConsistentHash := (AddNode leValue New cacheA).state

/-- The ring `ringA` after `AddNode(cacheB)`. -/
def ringAB : ConsistentHash := (AddNode leValue ringA cacheB).state

/-- The ring `ringAB` after `AddNode(cacheC)`. -/
def ringABC : ConsistentHash := (AddNode leValue ringAB cacheC).state

/-- A synthetic hash function under which replicas collide: on the
little-endian value `d` of the input it returns 0 for `d < 10` and for `d = 20`,
28 for `21 <= d <= 29`, 20 for `d = 50`, and `d` otherwise. -/
def dupHash (data : List Nat) : Nat :=
  if leValue data < 10 then 0
  else if leValue data = 20 then 0
  else if 21 ≤ leValue data ∧ leValue data ≤ 29 then 28
  else if leValue data = 50 then 20
  else leValue data

/-- A cache with key `[0]`: under `dupHash` its identity is 0 and its ten
replicas all have slot value 0. -/
def nodeX : Node := { ident := 1, Key := [0], rehash := true, dynType := cacheType }

/-- A cache with key `[50]`: under `dupHash` its identity is 20 and its replicas
have the slot values 0 (once) and 28 (nine times). -/
def nodeY : Node := { ident := 2, Key := [50], rehash := true, dynType := cacheType }

/-- The ring `New` after `AddNode(nodeX)`, under `dupHash`. -/
def dupRingX : ConsistentHash := (AddNode dupHash New nodeX).state

/-- The ring `dupRingX` after `AddNode(nodeY)`. -/
def dupRingXY : ConsistentHash := (AddNode dupHash dupRingX nodeY).state

/-- A cache with key `[120]`. -/
def cacheD : Node := { ident := 4, Key := [120], rehash := true, dynType := cacheType }

/-- The ring `ringA` after `AddNode(cacheD)`: under `leValue` the slots
`100, .., 109` belong to `cacheA` and `120, .., 129` to `cacheD`. -/
def ringAD : ConsistentHash := (AddNode leValue ringA cacheD).state

/-- A plain node (it does not implement `RehashNode`) with key `[100]`. -/
def plainP : Node := { ident := 5, Key := [100], rehash := false, dynType := plainType }

/-- The ring `New` after `AddNode(plainP)`, under `leValue`. -/
def ringP : ConsistentHash := (AddNode leValue New plainP).state

/-- The ring `New` after `AddNode(cacheD)`, under `leValue`. -/
def ringD : ConsistentHash := (AddNode leValue New cacheD).state

/-- The ring `New` after `AddNode(cacheB)` and then `AddNode(cacheA)`, under
`leValue`: the nodes of `ringAB`, added in the other order. -/
def ringBA : ConsistentHash :=
  (AddNode leValue (AddNode leValue New cacheB).state cacheA).state

/-- The nodes `cacheA` and `cacheD`. -/
def IsCacheAOrD (n : Node) : Prop := n = cacheA ∨ n = cacheD

/-- A cache with key `"446500"`: under `Fnv1a` its identity is 1192034724. -/
def cacheF1 : Node :=
  { ident := 11, Key := [52, 52, 54, 53, 48, 48], rehash := true, dynType := cacheType }

/-- A cache with key `"2021659"`: under `Fnv1a` its identity is 1192034726. -/
def cacheF2 : Node :=
  { ident := 12, Key := [50, 48, 50, 49, 54, 53, 57], rehash := true, dynType := cacheType }

/-- A cache with key `"1382757"`: under `Fnv1a` its identity is 1192034728. -/
def cacheF3 : Node :=
  { ident := 13, Key := [49, 51, 56, 50, 55, 53, 55], rehash := true, dynType := cacheType }

/-- The ring `New` after `AddNode` of `cacheF1`, `cacheF2` and `cacheF3`, with
the default hash function. -/
def ringF : ConsistentHash := addNodes Fnv1a New [cacheF1, cacheF2, cacheF3]

/-- Stores for `ringF`: `cacheF1` holds the entry `0 -> 0`, the other caches are
empty. -/
def storesF : Caches :=
  fun n => if n = cacheF1 then [(0, 0)] else []

/-- A node of the uncomparable type `sliceNodeType` with key `"2021659"`; it
implements `RehashNode`. -/
def sliceF2 : Node :=
  { ident := 14, Key := [50, 48, 50, 49, 54, 53, 57], rehash := true, dynType := sliceNodeType }

/-- The ring `New` after `AddNode(cacheF1)`, with the default hash function. -/
def ringF1 : ConsistentHash := (AddNode Fnv1a New cacheF1).state

/-- The ring `ringF1` after `AddNode(sliceF2)`: the two nodes share the slots of
the identities 1192034726 to 1192034733. -/
def ringFU : ConsistentHash := (AddNode Fnv1a ringF1 sliceF2).state
/-! ## Go maps -/


theorem mapGet_mapDel {α : Type} (m : GoMap α) (k k' : Nat) :
    mapGet (mapDel m k) k' = if k' = k then none else mapGet m k' := by
  induction m with
  | nil => simp [mapDel, mapGet]
  | cons p rest ih =>
    obtain ⟨a, v⟩ := p
    unfold mapDel at ih ⊢
    by_cases ha : a = k
    · subst ha
      simp only [List.filter, ne_eq, not_true_eq_false, decide_False]
      rw [ih]
      by_cases hk : k' = a
      · simp [hk]
      · have : ¬ a = k' := fun h => hk h.symm
        simp [hk, mapGet, this]
    · simp only [List.filter, ne_eq, ha, not_false_eq_true, decide_True, mapGet]
      rw [ih]
      by_cases hk : k' = k
      · subst hk
        simp [ha]
      · simp [hk]

theorem mapGet_mapSet {α : Type} (m : GoMap α) (k k' : Nat) (v : α) :
    mapGet (mapSet m k v) k' = if k' = k then some v else mapGet m k' := by
  unfold mapSet
  simp only [mapGet, mapGet_mapDel]
  by_cases hk : k' = k
  · simp [hk]
  · have : ¬ k = k' := fun h => hk h.symm
    simp [hk, this]

theorem searchLoop_spec (f : Nat → Bool) (n : Nat)
    (hmono : ∀ a b, a ≤ b → b < n → f a = true → f b = true) :
    ∀ fuel i j, i ≤ j → j ≤ n → j - i ≤ fuel → (∀ k, k < i → f k = false) →
      (j < n → f j = true) →
      i ≤ searchLoop f fuel i j ∧ searchLoop f fuel i j ≤ j ∧
        (∀ k, k < searchLoop f fuel i j → f k = false) ∧
        (searchLoop f fuel i j < n → f (searchLoop f fuel i j) = true) := by
  intro fuel
  induction fuel with
  | zero =>
    intro i j hij hjn hfuel hlo hhi
    have : i = j := by omega
    subst this
    simp only [searchLoop]
    exact ⟨le_refl _, le_refl _, hlo, hhi⟩
  | succ fuel ih =>
    intro i j hij hjn hfuel hlo hhi
    simp only [searchLoop]
    by_cases hlt : i < j
    · simp only [hlt, if_true]
      have hm1 : i ≤ (i + j) / 2 := by omega
      have hm2 : (i + j) / 2 < j := by omega
      by_cases hf : f ((i + j) / 2) = true
      · simp only [hf, Bool.not_true, Bool.false_eq_true, if_false]
        have := ih i ((i + j) / 2) hm1 (by omega) (by omega) hlo (fun _ => hf)
        exact ⟨this.1, by omega, this.2.2.1, this.2.2.2⟩
      · have hf' : f ((i + j) / 2) = false := by simpa using hf
        simp only [hf', Bool.not_false, if_true]
        have hlo' : ∀ k, k < (i + j) / 2 + 1 → f k = false := by
          intro k hk
          by_contra hc
          have hkt : f k = true := by simpa using hc
          have := hmono k ((i + j) / 2) (by omega) (by omega) hkt
          rw [hf'] at this
          exact Bool.false_ne_true this
        have := ih ((i + j) / 2 + 1) j (by omega) hjn (by omega) hlo' hhi
        exact ⟨by omega, this.2.1, this.2.2.1, this.2.2.2⟩
    · simp only [hlt, if_false]
      have : i = j := by omega
      subst this
      exact ⟨le_refl _, le_refl _, hlo, hhi⟩

/-- More fuel than the width of the interval does not change the result. -/
theorem searchLoop_fuel (f : Nat → Bool) :
    ∀ fuel i j, j - i ≤ fuel → searchLoop f fuel i j = searchLoop f (j - i) i j := by
  intro fuel
  induction fuel using Nat.strong_induction_on with
  | _ fuel ih =>
    intro i j hfuel
    by_cases hlt : i < j
    · obtain ⟨fuel', rfl⟩ : ∃ m, fuel = m + 1 := ⟨fuel - 1, by omega⟩
      obtain ⟨w, hw⟩ : ∃ w, j - i = w + 1 := ⟨j - i - 1, by omega⟩
      rw [hw]
      simp only [searchLoop, hlt, if_true]
      by_cases hf : f ((i + j) / 2) = true
      · simp only [hf, Bool.not_true, Bool.false_eq_true, if_false]
        rw [ih fuel' (by omega) i ((i + j) / 2) (by omega)]
        rw [ih w (by omega) i ((i + j) / 2) (by omega)]
      · have hf' : f ((i + j) / 2) = false := by simpa using hf
        simp only [hf', Bool.not_false, if_true]
        rw [ih fuel' (by omega) ((i + j) / 2 + 1) j (by omega)]
        rw [ih w (by omega) ((i + j) / 2 + 1) j (by omega)]
    · have h0 : j - i = 0 := by omega
      rw [h0]
      cases fuel with
      | zero => rfl
      | succ m => simp [searchLoop, hlt]

/-! ## Lookup -/

theorem sorted_getD_le {l : List Nat} (hs : List.Sorted (fun a b => a < b) l) {a b : Nat}
    (hab : a ≤ b) (hb : b < l.length) : l.getD a 0 ≤ l.getD b 0 := by
  have ha : a < l.length := by omega
  rw [List.getD_eq_getElem l 0 ha, List.getD_eq_getElem l 0 hb]
  rcases Nat.eq_or_lt_of_le hab with h | h
  · subst h
    exact le_refl _
  · exact Nat.le_of_lt ((List.pairwise_iff_getElem.mp hs) a b ha hb h)

theorem sortSearch_ge_spec {l : List Nat} (hs : List.Sorted (fun a b => a < b) l) (h : Nat) :
    sortSearch l.length (fun i => decide (l.getD i 0 ≥ h)) ≤ l.length ∧
      (∀ k, k < sortSearch l.length (fun i => decide (l.getD i 0 ≥ h)) → l.getD k 0 < h) ∧
      (sortSearch l.length (fun i => decide (l.getD i 0 ≥ h)) < l.length →
        h ≤ l.getD (sortSearch l.length (fun i => decide (l.getD i 0 ≥ h))) 0) := by
  have hmono : ∀ a b, a ≤ b → b < l.length →
      (fun i => decide (l.getD i 0 ≥ h)) a = true → (fun i => decide (l.getD i 0 ≥ h)) b = true := by
    intro a b hab hb ha
    simp only [ge_iff_le, decide_eq_true_eq] at ha ⊢
    exact le_trans ha (sorted_getD_le hs hab hb)
  have := searchLoop_spec (fun i => decide (l.getD i 0 ≥ h)) l.length hmono l.length 0 l.length
    (Nat.zero_le _) (le_refl _) (by omega) (fun k hk => absurd hk (Nat.not_lt_zero k))
    (fun hlt => absurd hlt (Nat.lt_irrefl _))
  unfold sortSearch
  refine ⟨this.2.1, ?_, ?_⟩
  · intro k hk
    have := this.2.2.1 k hk
    simpa using this
  · intro hlt
    have := this.2.2.2 hlt
    simpa using this

theorem lookupIdx_spec {l : List Nat} (hs : List.Sorted (fun a b => a < b) l) (hne : l ≠ [])
    (h : Nat) : ∃ v, l.get? (lookupIdx l h) = some v ∧ IsRingSlot l h v := by
  obtain ⟨hle, hlo, hhi⟩ := sortSearch_ge_spec hs h
  have hpos : 0 < l.length := List.length_pos.mpr hne
  unfold lookupIdx
  simp only
  by_cases hr : sortSearch l.length (fun i => decide (l.getD i 0 ≥ h)) = l.length
  · rw [if_pos hr]
    refine ⟨l.getD 0 0, ?_, ?_⟩
    · rw [List.getD_eq_getElem l 0 hpos]
      simp [hpos]
    · refine ⟨?_, Or.inr ⟨?_, ?_⟩⟩
      · rw [List.getD_eq_getElem l 0 hpos]
        exact List.getElem_mem hpos
      · intro w hw
        obtain ⟨k, hk, rfl⟩ := List.mem_iff_getElem.mp hw
        have := hlo k (by omega)
        rwa [List.getD_eq_getElem l 0 hk] at this
      · intro w hw
        obtain ⟨k, hk, rfl⟩ := List.mem_iff_getElem.mp hw
        have := sorted_getD_le hs (Nat.zero_le k) hk
        rwa [List.getD_eq_getElem l 0 hk] at this
  · rw [if_neg hr]
    have hlt : sortSearch l.length (fun i => decide (l.getD i 0 ≥ h)) < l.length := by omega
    refine ⟨l.getD (sortSearch l.length (fun i => decide (l.getD i 0 ≥ h))) 0, ?_, ?_⟩
    · rw [List.getD_eq_getElem l 0 hlt]
      simp [hlt]
    · refine ⟨?_, Or.inl ⟨hhi hlt, ?_⟩⟩
      · rw [List.getD_eq_getElem l 0 hlt]
        exact List.getElem_mem hlt
      · intro w hw hhw
        obtain ⟨k, hk, rfl⟩ := List.mem_iff_getElem.mp hw
        have hkr : sortSearch l.length (fun i => decide (l.getD i 0 ≥ h)) ≤ k := by
          by_contra hc
          have := hlo k (by omega)
          rw [List.getD_eq_getElem l 0 hk] at this
          omega
        have := sorted_getD_le hs hkr hk
        rwa [List.getD_eq_getElem l 0 hk] at this

theorem isRingSlot_unique {l : List Nat} {h v w : Nat} (hv : IsRingSlot l h v)
    (hw : IsRingSlot l h w) : v = w := by
  obtain ⟨hvl, hv⟩ := hv
  obtain ⟨hwl, hw⟩ := hw
  rcases hv with ⟨hv1, hv2⟩ | ⟨hv1, hv2⟩ <;> rcases hw with ⟨hw1, hw2⟩ | ⟨hw1, hw2⟩
  · exact le_antisymm (hv2 w hwl hw1) (hw2 v hvl hv1)
  · have := hw1 v hvl
    omega
  · have := hv1 w hwl
    omega
  · exact le_antisymm (hv2 w hwl) (hw2 v hvl)

theorem pickOwner_found {nodes : List Node} (hne : nodes ≠ []) (h : Nat) :
    ∃ n, pickOwner nodes h = Lookup.found n ∧ n ∈ nodes ∧
      nodes.get? (h % nodes.length) = some n := by
  have hpos : 0 < nodes.length := List.length_pos.mpr hne
  have hmod : h % nodes.length < nodes.length := Nat.mod_lt _ hpos
  unfold pickOwner
  by_cases h1 : nodes.length = 1
  · rw [if_pos h1]
    have h0 : h % nodes.length = 0 := by rw [h1]; exact Nat.mod_one h
    refine ⟨nodes[0], ?_, List.getElem_mem hpos, ?_⟩
    · simp [hpos]
    · rw [h0]
      simp [hpos]
  · rw [if_neg h1, if_neg (by omega)]
    refine ⟨nodes[h % nodes.length], ?_, List.getElem_mem hmod, ?_⟩
    · simp [hmod]
    · simp [hmod]

/-- Under the ring invariants, `GetNode` on a non-empty table reads the owner list of
the ring slot of the key's hash and picks among its owners. -/
theorem getNode_eq_pickOwner (hf : List Nat → Nat) (s : ConsistentHash) (nodeKey : List Nat)
    (hinv : RingInv s) (hne : s.vnodes ≠ []) :
    ∃ v, IsRingSlot s.vnodes (hash32 hf nodeKey) v ∧ ownersOf s v ≠ [] ∧
      GetNode hf s nodeKey = pickOwner (ownersOf s v) (hash32 hf nodeKey) := by
  obtain ⟨v, hv, hslot⟩ := lookupIdx_spec hinv.1 hne (hash32 hf nodeKey)
  have hown := hinv.2 v hslot.1
  refine ⟨v, hslot, hown, ?_⟩
  unfold GetNode
  simp only [hv]
  unfold ownersOf at hown ⊢
  cases hm : mapGet s.vNodeMapActNodes v with
  | none => simp [hm] at hown
  | some nodes => simp

/-- C1: under the ring invariants, when some table value is at least the hash `h` of the
key, `GetNode` returns an owner of the smallest table value `v >= h`: the element at
index `h mod len` of its owner list, which is the sole owner when the list has one
element. -/
theorem getNode_successor (hf : List Nat → Nat) (s : ConsistentHash) (nodeKey : List Nat)
    (hinv : RingInv s) (hsome : ∃ v ∈ s.vnodes, hash32 hf nodeKey ≤ v) :
    ∃ v n, v ∈ s.vnodes ∧ hash32 hf nodeKey ≤ v ∧
      (∀ w ∈ s.vnodes, hash32 hf nodeKey ≤ w → v ≤ w) ∧
      GetNode hf s nodeKey = Lookup.found n ∧
      ((ownersOf s v).length = 1 → ownersOf s v = [n]) ∧
      ((ownersOf s v).length ≠ 1 →
        (ownersOf s v).get? (hash32 hf nodeKey % (ownersOf s v).length) = some n) := by
  obtain ⟨u, hu, hhu⟩ := hsome
  have hne : s.vnodes ≠ [] := List.ne_nil_of_mem hu
  obtain ⟨v, hslot, hown, hget⟩ := getNode_eq_pickOwner hf s nodeKey hinv hne
  obtain ⟨n, hpick, _, hidx⟩ := pickOwner_found hown (hash32 hf nodeKey)
  obtain ⟨hvl, hcase⟩ := hslot
  rcases hcase with ⟨h1, h2⟩ | ⟨h1, _⟩
  · refine ⟨v, n, hvl, h1, h2, by rw [hget, hpick], ?_, fun _ => hidx⟩
    intro hlen
    rw [hlen, Nat.mod_one] at hidx
    match hl : ownersOf s v, hlen, hidx with
    | [a], _, hidx =>
      simp at hidx
      rw [hidx]
  · have := h1 u hu
    omega

/-- C2: under the ring invariants, a key whose hash `h` is greater than every value of a
non-empty table is given to an owner of the smallest table value: the element at index
`h mod len` of that slot's owner list. -/
theorem getNode_wraparound (hf : List Nat → Nat) (s : ConsistentHash) (nodeKey : List Nat)
    (hinv : RingInv s) (hne : s.vnodes ≠ [])
    (hmax : ∀ v ∈ s.vnodes, v < hash32 hf nodeKey) :
    ∃ v n, v ∈ s.vnodes ∧ (∀ w ∈ s.vnodes, v ≤ w) ∧
      GetNode hf s nodeKey = Lookup.found n ∧
      (ownersOf s v).get? (hash32 hf nodeKey % (ownersOf s v).length) = some n := by
  obtain ⟨v, hslot, hown, hget⟩ := getNode_eq_pickOwner hf s nodeKey hinv hne
  obtain ⟨n, hpick, _, hidx⟩ := pickOwner_found hown (hash32 hf nodeKey)
  obtain ⟨hvl, hcase⟩ := hslot
  rcases hcase with ⟨h1, _⟩ | ⟨_, h2⟩
  · have := hmax v hvl
    omega
  · exact ⟨v, n, hvl, h2, by rw [hget, hpick], hidx⟩

/-- The hypotheses of `getNode_successor` hold on `ringAB` for the key `[105]`, whose slot
105 is co-owned. -/
theorem getNode_successor_witness :
    RingInv ringAB ∧ (∃ v ∈ ringAB.vnodes, hash32 leValue [105] ≤ v) ∧
      ∃ v n, v ∈ ringAB.vnodes ∧ hash32 leValue [105] ≤ v ∧
        (∀ w ∈ ringAB.vnodes, hash32 leValue [105] ≤ w → v ≤ w) ∧
        GetNode leValue ringAB [105] = Lookup.found n ∧
        ((ownersOf ringAB v).length = 1 → ownersOf ringAB v = [n]) ∧
        ((ownersOf ringAB v).length ≠ 1 →
          (ownersOf ringAB v).get? (hash32 leValue [105] % (ownersOf ringAB v).length) = some n) :=
  ⟨by decide, by decide, getNode_successor leValue ringAB [105] (by decide) (by decide)⟩

/-- The hypotheses of `getNode_wraparound` hold on `ringAB` for the key `[200]`, whose hash
is above every table value. -/
theorem getNode_wraparound_witness :
    RingInv ringAB ∧ ringAB.vnodes ≠ [] ∧ (∀ v ∈ ringAB.vnodes, v < hash32 leValue [200]) ∧
      ∃ v n, v ∈ ringAB.vnodes ∧ (∀ w ∈ ringAB.vnodes, v ≤ w) ∧
        GetNode leValue ringAB [200] = Lookup.found n ∧
        (ownersOf ringAB v).get? (hash32 leValue [200] % (ownersOf ringAB v).length) = some n :=
  ⟨by decide, by decide, by decide,
    getNode_wraparound leValue ringAB [200] (by decide) (by decide) (by decide)⟩

/-! ## AddNode: registration and rejection -/

theorem addNode_of_registered (hf : List Nat → Nat) (s : ConsistentHash) (node : Node)
    (h : (mapGet s.nodeIDMapNode (hash32 hf node.Key)).isSome = true) :
    AddNode hf s node = { state := s, ret := AddOutcome.errNodeExist, migrations := [] } := by
  unfold AddNode
  cases hm : mapGet s.nodeIDMapNode (hash32 hf node.Key) with
  | none => simp [hm] at h
  | some n => simp only [hm]

theorem addNode_of_fresh (hf : List Nat → Nat) (s : ConsistentHash) (node : Node)
    (h : mapGet s.nodeIDMapNode (hash32 hf node.Key) = none) :
    (AddNode hf s node).state = addNodeState hf s node ∧
      (AddNode hf s node).ret ≠ AddOutcome.errNodeExist := by
  unfold AddNode
  simp only [h]
  by_cases hr : node.rehash = true
  · simp only [hr, Bool.not_true, Bool.false_eq_true, if_false]
    by_cases hl : mapLen (addNodeState hf s node).nodeIDMapNode = 1
    · simp [hl]
    · simp only [hl, if_false]
      rcases hms : migrateSlots (addNodeState hf s node)
        (addVNodes hf node (hash32 hf node.Key) s).slotArr node
        (sortSlice (addVNodes hf node (hash32 hf node.Key) s).slotArr) [] with ⟨calls, _ | e⟩
      · simp
      · simp
  · have hr' : node.rehash = false := by simpa using hr
    simp [hr']

theorem addNode_registers (hf : List Nat → Nat) (s : ConsistentHash) (node : Node) :
    (mapGet (AddNode hf s node).state.nodeIDMapNode (hash32 hf node.Key)).isSome = true := by
  cases hm : mapGet s.nodeIDMapNode (hash32 hf node.Key) with
  | some n =>
    rw [addNode_of_registered hf s node (by simp [hm])]
    simp [hm]
  | none =>
    rw [(addNode_of_fresh hf s node hm).1]
    simp [addNodeState, mapGet_mapSet]

/-- C9: `AddNode` returns the `NodeExists` error exactly when the identity
`hash(node.Key())` is a key of the registry; in that case the ring is returned unchanged
and no `Migrate` call is made; adding the same node a second time is rejected and leaves the
ring as the first call left it. -/
theorem addNode_duplicate_rejected (hf : List Nat → Nat) (s : ConsistentHash) (node : Node) :
    ((AddNode hf s node).ret = AddOutcome.errNodeExist ↔
        (mapGet s.nodeIDMapNode (hash32 hf node.Key)).isSome = true) ∧
      ((mapGet s.nodeIDMapNode (hash32 hf node.Key)).isSome = true →
        (AddNode hf s node).state = s ∧ (AddNode hf s node).migrations = []) ∧
      (AddNode hf (AddNode hf s node).state node).ret = AddOutcome.errNodeExist ∧
      (AddNode hf (AddNode hf s node).state node).state = (AddNode hf s node).state ∧
      (AddNode hf (AddNode hf s node).state node).migrations = [] := by
  refine ⟨⟨?_, ?_⟩, ?_, ?_⟩
  · intro hret
    cases hm : mapGet s.nodeIDMapNode (hash32 hf node.Key) with
    | some n => simp
    | none => exact absurd hret (addNode_of_fresh hf s node hm).2
  · intro h
    rw [addNode_of_registered hf s node h]
  · intro h
    rw [addNode_of_registered hf s node h]
    exact ⟨rfl, rfl⟩
  · rw [addNode_of_registered hf (AddNode hf s node).state node (addNode_registers hf s node)]
    exact ⟨rfl, rfl, rfl⟩

/-- C4 (the code at the failing input): on the ring returned by `New`, and on a ring
emptied again by `RemoveNode`, `GetNode` does not return `nil`: it panics with an index out
of range, for every key. -/
theorem getNode_empty_ring_panics (hf : List Nat → Nat) (nodeKey : List Nat) :
    GetNode hf New nodeKey = Lookup.panics RuntimeError.indexOutOfRange ∧
      (RemoveNode leValue ringA [100]).state.nodeIDMapNode = [] ∧
      GetNode leValue (RemoveNode leValue ringA [100]).state nodeKey =
        Lookup.panics RuntimeError.indexOutOfRange := by
  refine ⟨rfl, by decide, ?_⟩
  have hv : (RemoveNode leValue ringA [100]).state.vnodes = [] := by decide
  unfold GetNode
  rw [hv]
  rfl

/-! ## The slot loop of AddNode -/

theorem addVNode_index (hf : List Nat → Nat) (node : Node) (nodeID : Nat) (acc : AddAcc)
    (i k : Nat) :
    mapGet (addVNode hf node nodeID acc i).index k =
      if k = vNodeSlot hf nodeID i then some ((mapGet acc.index k).getD [] ++ [node])
      else mapGet acc.index k := by
  cases hm : mapGet acc.index (vNodeSlot hf nodeID i) with
  | none =>
    simp only [addVNode, hm, mapGet_mapSet]
    by_cases hk : k = vNodeSlot hf nodeID i
    · subst hk
      simp [hm]
    · simp [hk]
  | some nodes =>
    simp only [addVNode, hm, mapGet_mapSet]
    by_cases hk : k = vNodeSlot hf nodeID i
    · subst hk
      simp [hm]
    · simp [hk]

theorem addVNode_vnodes (hf : List Nat → Nat) (node : Node) (nodeID : Nat) (acc : AddAcc)
    (i : Nat) :
    (addVNode hf node nodeID acc i).vnodes =
      if mapGet acc.index (vNodeSlot hf nodeID i) = none then
        acc.vnodes ++ [vNodeSlot hf nodeID i]
      else acc.vnodes := by
  cases hm : mapGet acc.index (vNodeSlot hf nodeID i) with
  | none => simp [addVNode, hm]
  | some nodes => simp [addVNode, hm]

theorem addVNode_slotArr (hf : List Nat → Nat) (node : Node) (nodeID : Nat) (acc : AddAcc)
    (i : Nat) :
    (addVNode hf node nodeID acc i).slotArr = acc.slotArr ++ [vNodeSlot hf nodeID i] := by
  cases hm : mapGet acc.index (vNodeSlot hf nodeID i) with
  | none => simp [addVNode, hm]
  | some nodes => simp [addVNode, hm]

theorem foldl_addVNode_slotArr (hf : List Nat → Nat) (node : Node) (nodeID : Nat) :
    ∀ (is : List Nat) (acc : AddAcc),
      (is.foldl (addVNode hf node nodeID) acc).slotArr =
        acc.slotArr ++ is.map (vNodeSlot hf nodeID) := by
  intro is
  induction is with
  | nil => intro acc; simp
  | cons i rest ih =>
    intro acc
    simp only [List.foldl_cons, List.map_cons]
    rw [ih, addVNode_slotArr]
    simp

theorem foldl_addVNode_index (hf : List Nat → Nat) (node : Node) (nodeID : Nat) :
    ∀ (is : List Nat) (acc : AddAcc) (k : Nat),
      mapGet (is.foldl (addVNode hf node nodeID) acc).index k =
        if List.count k (is.map (vNodeSlot hf nodeID)) = 0 then mapGet acc.index k
        else some ((mapGet acc.index k).getD [] ++
          List.replicate (List.count k (is.map (vNodeSlot hf nodeID))) node) := by
  intro is
  induction is with
  | nil => intro acc k; simp
  | cons i rest ih =>
    intro acc k
    simp only [List.foldl_cons, List.map_cons]
    rw [ih, addVNode_index]
    by_cases hk : k = vNodeSlot hf nodeID i
    · subst hk
      simp only [if_true, List.count_cons_self, Option.getD_some]
      by_cases hc : List.count (vNodeSlot hf nodeID i) (List.map (vNodeSlot hf nodeID) rest) = 0
      · simp [hc]
      · simp only [hc, if_false, Nat.add_one_ne_zero]
        rw [List.replicate_succ, List.append_assoc]
        simp
    · simp only [hk, if_false]
      rw [List.count_cons_of_ne hk]

theorem foldl_addVNode_mem_vnodes (hf : List Nat → Nat) (node : Node) (nodeID : Nat) :
    ∀ (is : List Nat) (acc : AddAcc) (k : Nat),
      k ∈ (is.foldl (addVNode hf node nodeID) acc).vnodes ↔
        k ∈ acc.vnodes ∨ (k ∈ is.map (vNodeSlot hf nodeID) ∧ mapGet acc.index k = none) := by
  intro is
  induction is with
  | nil => intro acc k; simp
  | cons i rest ih =>
    intro acc k
    simp only [List.foldl_cons, List.map_cons, List.mem_cons]
    rw [ih, addVNode_vnodes, addVNode_index]
    by_cases hk : k = vNodeSlot hf nodeID i
    · subst hk
      by_cases hm : mapGet acc.index (vNodeSlot hf nodeID i) = none
      · simp [hm]
      · simp [hm]
    · by_cases hm : mapGet acc.index (vNodeSlot hf nodeID i) = none
      · simp [hm, hk]
      · simp [hm, hk]

/-- The invariant of the slot loops: no value twice in the table, and every table
value has a non-empty owner list. -/
theorem foldl_addVNode_inv (hf : List Nat → Nat) (node : Node) (nodeID : Nat) :
    ∀ (is : List Nat) (acc : AddAcc),
      acc.vnodes.Nodup → (∀ k ∈ acc.vnodes, (mapGet acc.index k).getD [] ≠ []) →
      (is.foldl (addVNode hf node nodeID) acc).vnodes.Nodup ∧
        ∀ k ∈ (is.foldl (addVNode hf node nodeID) acc).vnodes,
          (mapGet (is.foldl (addVNode hf node nodeID) acc).index k).getD [] ≠ [] := by
  intro is
  induction is with
  | nil => intro acc h1 h2; exact ⟨h1, h2⟩
  | cons i rest ih =>
    intro acc h1 h2
    simp only [List.foldl_cons]
    apply ih
    · rw [addVNode_vnodes]
      by_cases hm : mapGet acc.index (vNodeSlot hf nodeID i) = none
      · rw [if_pos hm]
        have hnot : vNodeSlot hf nodeID i ∉ acc.vnodes := by
          intro hmem
          have := h2 _ hmem
          rw [hm] at this
          simp at this
        exact List.Nodup.append h1 (List.nodup_singleton _) (by simpa using hnot)
      · rw [if_neg hm]
        exact h1
    · intro k hk
      rw [addVNode_index]
      by_cases hks : k = vNodeSlot hf nodeID i
      · simp [hks]
      · rw [if_neg hks]
        apply h2
        rw [addVNode_vnodes] at hk
        by_cases hm : mapGet acc.index (vNodeSlot hf nodeID i) = none
        · rw [if_pos hm] at hk
          simp only [List.mem_append, List.mem_singleton] at hk
          rcases hk with hk | hk
          · exact hk
          · exact absurd hk hks
        · rw [if_neg hm] at hk
          exact hk

theorem sortSlice_sorted {l : List Nat} (h : l.Nodup) :
    List.Sorted (fun a b => a < b) (sortSlice l) := by
  have h1 : List.Sorted (fun a b : Nat => a ≤ b) (sortSlice l) :=
    List.sorted_insertionSort (fun a b : Nat => a ≤ b) l
  have h2 : (sortSlice l).Nodup :=
    (List.Perm.nodup_iff (List.perm_insertionSort (fun a b : Nat => a ≤ b) l)).mpr h
  exact List.Sorted.lt_of_le h1 h2

theorem mem_sortSlice {l : List Nat} {k : Nat} : k ∈ sortSlice l ↔ k ∈ l :=
  List.mem_insertionSort (fun a b : Nat => a ≤ b)

theorem sortSlice_of_sorted {l : List Nat} (h : List.Sorted (fun a b => a < b) l) :
    sortSlice l = l :=
  List.Sorted.insertionSort_eq (List.Sorted.le_of_lt h)

theorem addNodeState_ringInv (hf : List Nat → Nat) (s : ConsistentHash) (node : Node)
    (hinv : RingInv s) : RingInv (addNodeState hf s node) := by
  have h := foldl_addVNode_inv hf node (hash32 hf node.Key) (List.range s.virtualNodeCount)
    { vnodes := s.vnodes, index := s.vNodeMapActNodes, slotArr := [] }
    (List.Sorted.nodup hinv.1) hinv.2
  refine ⟨sortSlice_sorted h.1, ?_⟩
  intro v hv
  exact h.2 v (mem_sortSlice.mp hv)

/-! ## The slot loop of RemoveNode -/

/-- On a strictly ascending table the search of `RemoveNode` finds the position of a
slot value that is in the table. -/
theorem sortSearch_ge_of_mem {l : List Nat} (hs : List.Sorted (fun a b => a < b) l) {v : Nat}
    (hv : v ∈ l) :
    sortSearch l.length (fun j => decide (l.getD j 0 ≥ v)) < l.length ∧
      l.getD (sortSearch l.length (fun j => decide (l.getD j 0 ≥ v))) 0 = v := by
  obtain ⟨_, hlo, hhi⟩ := sortSearch_ge_spec hs v
  obtain ⟨p, hp, hpv⟩ := List.mem_iff_getElem.mp hv
  have hpD : l.getD p 0 = v := by rw [List.getD_eq_getElem l 0 hp]; exact hpv
  have hrp : sortSearch l.length (fun j => decide (l.getD j 0 ≥ v)) ≤ p := by
    by_contra hc
    have := hlo p (by omega)
    omega
  have hlt : sortSearch l.length (fun j => decide (l.getD j 0 ≥ v)) < l.length := by omega
  refine ⟨hlt, ?_⟩
  have h1 := hhi hlt
  have h2 := sorted_getD_le hs hrp hp
  omega

theorem mem_eraseIdx_of_nodup {l : List Nat} (hl : l.Nodup) {i : Nat} (hi : i < l.length)
    {k : Nat} : k ∈ l.eraseIdx i ↔ k ≠ l.getD i 0 ∧ k ∈ l := by
  rw [List.getD_eq_getElem l 0 hi, ← List.Nodup.erase_getElem hl i hi]
  exact List.Nodup.mem_erase_iff hl

theorem removeVNode_inv (hf : List Nat → Nat) (node : Node) (nodeID : Nat) (acc : RemoveAcc)
    (i : Nat) (h1 : List.Sorted (fun a b => a < b) acc.vnodes)
    (h2 : ∀ k ∈ acc.vnodes, (mapGet acc.index k).getD [] ≠ []) :
    List.Sorted (fun a b => a < b) (removeVNodeOk hf node nodeID acc i).vnodes ∧
      ∀ k ∈ (removeVNodeOk hf node nodeID acc i).vnodes,
        (mapGet (removeVNodeOk hf node nodeID acc i).index k).getD [] ≠ [] := by
  unfold removeVNodeOk
  simp only
  split
  · split
    · rename_i hlen hnew
      refine ⟨h1, ?_⟩
      intro k hk
      simp only [mapGet_mapSet]
      by_cases hks : k = vNodeSlot hf nodeID i
      · simp only [hks, if_true, Option.getD_some]
        exact List.ne_nil_of_length_pos hnew
      · simp only [hks, if_false]
        exact h2 k hk
    · exact ⟨h1, h2⟩
  · split
    · rename_i hlen hidx
      refine ⟨List.Pairwise.sublist (List.eraseIdx_sublist _ _) h1, ?_⟩
      intro k hk
      rw [mem_eraseIdx_of_nodup (List.Sorted.nodup h1) hidx] at hk
      simp only [mapGet_mapDel]
      by_cases hks : k = vNodeSlot hf nodeID i
      · exfalso
        subst hks
        exact hk.1 (sortSearch_ge_of_mem h1 hk.2).2.symm
      · simp only [hks, if_false]
        exact h2 k hk.2
    · rename_i hlen hidx
      refine ⟨h1, ?_⟩
      intro k hk
      simp only [mapGet_mapDel]
      by_cases hks : k = vNodeSlot hf nodeID i
      · exfalso
        subst hks
        exact hidx (sortSearch_ge_of_mem h1 hk).1
      · simp only [hks, if_false]
        exact h2 k hk

/-! ## Panics of the interface comparison in RemoveNode -/

theorem nodeNe_of_comparable (v node : Node) (h : node.dynType.comparable = true) :
    nodeNe v node = Except.ok (decide (v ≠ node)) := by
  unfold nodeNe
  by_cases hd : v.dynType = node.dynType
  · rw [if_pos hd, if_pos h]
  · rw [if_neg hd]
    have hne : v ≠ node := fun he => hd (by rw [he])
    simp [hne]

theorem nodeNe_ok (v node : Node) (b : Bool) (h : nodeNe v node = Except.ok b) :
    b = decide (v ≠ node) := by
  unfold nodeNe at h
  by_cases hd : v.dynType = node.dynType
  · rw [if_pos hd] at h
    by_cases hc : node.dynType.comparable = true
    · rw [if_pos hc] at h
      injection h with h
      exact h.symm
    · rw [if_neg hc] at h
      cases h
  · rw [if_neg hd] at h
    have hne : v ≠ node := fun he => hd (by rw [he])
    injection h with h
    simp [← h, hne]

theorem nodeNe_self (node : Node) (h : node.dynType.comparable = false) :
    nodeNe node node = Except.error RuntimeError.uncomparable := by
  unfold nodeNe
  simp [h]

theorem filterOwners_of_comparable (node : Node) (h : node.dynType.comparable = true) :
    ∀ nodes : List Node,
      filterOwners node nodes = Except.ok (nodes.filter (fun v => decide (v ≠ node))) := by
  intro nodes
  induction nodes with
  | nil => rfl
  | cons v rest ih =>
    simp only [filterOwners, nodeNe_of_comparable v node h, ih, List.filter_cons]

theorem filterOwners_ok (node : Node) :
    ∀ (nodes r : List Node), filterOwners node nodes = Except.ok r →
      r = nodes.filter (fun v => decide (v ≠ node)) := by
  intro nodes
  induction nodes with
  | nil =>
    intro r h
    simp only [filterOwners] at h
    injection h with h
    simp [← h]
  | cons v rest ih =>
    intro r h
    simp only [filterOwners] at h
    cases hn : nodeNe v node with
    | error e => simp [hn] at h
    | ok keep =>
      cases hr : filterOwners node rest with
      | error e => simp [hn, hr] at h
      | ok newNodes =>
        simp only [hn, hr] at h
        injection h with h
        have hk := nodeNe_ok v node keep hn
        have hrest := ih newNodes hr
        rw [← h, hrest, List.filter_cons, ← hk]

/-- The filter of `RemoveNode` panics on an owner list that holds the node itself
when the dynamic type of the node is not comparable. -/
theorem filterOwners_panics (node : Node) (h : node.dynType.comparable = false) :
    ∀ nodes : List Node, node ∈ nodes →
      filterOwners node nodes = Except.error RuntimeError.uncomparable := by
  intro nodes
  induction nodes with
  | nil => intro hm; simp at hm
  | cons v rest ih =>
    intro hm
    simp only [filterOwners]
    cases hn : nodeNe v node with
    | error e =>
      unfold nodeNe at hn
      by_cases hd : v.dynType = node.dynType
      · simp [hd, h] at hn
        simp [← hn]
      · simp [hd] at hn
    | ok keep =>
      have hvn : v ≠ node := by
        intro he
        rw [he, nodeNe_self node h] at hn
        cases hn
      rcases List.mem_cons.mp hm with he | hr
      · exact absurd he.symm hvn
      · simp [ih hr]

/-- A pass of the loop of `RemoveNode` that does not panic is the pass with the
list filter. -/
theorem removeVNode_ok (hf : List Nat → Nat) (node : Node) (nodeID : Nat) (acc acc1 : RemoveAcc)
    (i : Nat) (h : removeVNode hf node nodeID acc i = Except.ok acc1) :
    acc1 = removeVNodeOk hf node nodeID acc i := by
  unfold removeVNode at h
  unfold removeVNodeOk
  simp only at h ⊢
  split at h
  · rename_i hlen
    rw [if_pos hlen]
    cases hfo : filterOwners node ((mapGet acc.index (vNodeSlot hf nodeID i)).getD []) with
    | error e => simp [hfo] at h
    | ok newNodes =>
      simp only [hfo] at h
      rw [← filterOwners_ok node _ newNodes hfo]
      split at h <;> rename_i hnew
      · rw [if_pos hnew]
        injection h with h
        exact h.symm
      · rw [if_neg hnew]
        injection h with h
        exact h.symm
  · rename_i hlen
    rw [if_neg hlen]
    split at h <;> rename_i hidx
    · rw [if_pos hidx]
      injection h with h
      exact h.symm
    · rw [if_neg hidx]
      injection h with h
      exact h.symm

/-- No pass panics when the dynamic type of the node is comparable. -/
theorem removeVNode_of_comparable (hf : List Nat → Nat) (node : Node) (nodeID : Nat)
    (acc : RemoveAcc) (i : Nat) (h : node.dynType.comparable = true) :
    removeVNode hf node nodeID acc i = Except.ok (removeVNodeOk hf node nodeID acc i) := by
  unfold removeVNode removeVNodeOk
  simp only [filterOwners_of_comparable node h]
  split
  · split <;> rfl
  · split <;> rfl

/-- No pass panics at a slot with at most one owner: the entry of the slot is
deleted without any comparison. -/
theorem removeVNode_of_short (hf : List Nat → Nat) (node : Node) (nodeID : Nat)
    (acc : RemoveAcc) (i : Nat)
    (h : ((mapGet acc.index (vNodeSlot hf nodeID i)).getD []).length ≤ 1) :
    removeVNode hf node nodeID acc i = Except.ok (removeVNodeOk hf node nodeID acc i) ∧
      (removeVNodeOk hf node nodeID acc i).index = mapDel acc.index (vNodeSlot hf nodeID i) := by
  have hlen : ¬ ((mapGet acc.index (vNodeSlot hf nodeID i)).getD []).length > 1 := by omega
  unfold removeVNode removeVNodeOk
  simp only [if_neg hlen]
  refine ⟨?_, ?_⟩
  · split <;> rfl
  · split <;> rfl

/-- A pass panics at a shared slot that lists the node when the dynamic type of
the node is not comparable. -/
theorem removeVNode_panics (hf : List Nat → Nat) (node : Node) (nodeID : Nat)
    (acc : RemoveAcc) (i : Nat) (h : node.dynType.comparable = false)
    (hlen : ((mapGet acc.index (vNodeSlot hf nodeID i)).getD []).length > 1)
    (hmem : node ∈ (mapGet acc.index (vNodeSlot hf nodeID i)).getD []) :
    removeVNode hf node nodeID acc i = Except.error RuntimeError.uncomparable := by
  unfold removeVNode
  simp only [if_pos hlen, filterOwners_panics node h _ hmem]

/-- Induction over the loop of `RemoveNode`: a property of the indices still to
visit and the loop variables that every pass which does not panic carries over
holds when the loop ends; after a loop without panic no index is left. -/
theorem removeVNodesFrom_induct (hf : List Nat → Nat) (node : Node) (nodeID : Nat)
    (P : List Nat → RemoveAcc → Prop)
    (hstep : ∀ i rest acc, P (i :: rest) acc →
      removeVNode hf node nodeID acc i = Except.ok (removeVNodeOk hf node nodeID acc i) →
        P rest (removeVNodeOk hf node nodeID acc i)) :
    ∀ (is : List Nat) (acc : RemoveAcc), P is acc →
      ∃ rest, P rest (removeVNodesFrom hf node nodeID is acc).1 ∧
        ((removeVNodesFrom hf node nodeID is acc).2 = none → rest = []) := by
  intro is
  induction is with
  | nil =>
    intro acc h
    exact ⟨[], h, fun _ => rfl⟩
  | cons i rest ih =>
    intro acc h
    simp only [removeVNodesFrom]
    cases hr : removeVNode hf node nodeID acc i with
    | error e =>
      refine ⟨i :: rest, h, ?_⟩
      intro hnone
      simp at hnone
    | ok acc1 =>
      have he := removeVNode_ok hf node nodeID acc acc1 i hr
      subst he
      exact ih _ (hstep i rest acc h hr)

/-- The loop of `RemoveNode` when no pass panics. -/
theorem removeVNodesFrom_of_ok (hf : List Nat → Nat) (node : Node) (nodeID : Nat) :
    ∀ (is : List Nat) (acc : RemoveAcc),
      (∀ (pre : List Nat) (i : Nat) (post : List Nat), is = pre ++ i :: post →
        removeVNode hf node nodeID (pre.foldl (removeVNodeOk hf node nodeID) acc) i =
          Except.ok (removeVNodeOk hf node nodeID (pre.foldl (removeVNodeOk hf node nodeID) acc) i)) →
      removeVNodesFrom hf node nodeID is acc =
        (is.foldl (removeVNodeOk hf node nodeID) acc, none) := by
  intro is
  induction is with
  | nil => intro acc _; rfl
  | cons i rest ih =>
    intro acc h
    have h0 := h [] i rest rfl
    simp only [List.foldl_nil] at h0
    simp only [removeVNodesFrom, h0, List.foldl_cons]
    apply ih
    intro pre j post he
    have := h (i :: pre) j post (by rw [he]; rfl)
    simpa using this

theorem removeVNodes_of_comparable (hf : List Nat → Nat) (node : Node) (nodeID : Nat)
    (s : ConsistentHash) (h : node.dynType.comparable = true) :
    removeVNodes hf node nodeID s = (removeVNodesOk hf node nodeID s, none) := by
  unfold removeVNodes removeVNodesOk
  apply removeVNodesFrom_of_ok
  intro pre i post _
  exact removeVNode_of_comparable hf node nodeID _ i h

theorem foldl_removeVNode_short (hf : List Nat → Nat) (node : Node) (nodeID : Nat) :
    ∀ (is : List Nat) (acc : RemoveAcc),
      (∀ k, ((mapGet acc.index k).getD []).length ≤ 1 ∨ k ∉ is.map (vNodeSlot hf nodeID)) →
      removeVNodesFrom hf node nodeID is acc =
        (is.foldl (removeVNodeOk hf node nodeID) acc, none) := by
  intro is
  induction is with
  | nil => intro acc _; rfl
  | cons i rest ih =>
    intro acc h
    have hi : ((mapGet acc.index (vNodeSlot hf nodeID i)).getD []).length ≤ 1 := by
      rcases h (vNodeSlot hf nodeID i) with h1 | h1
      · exact h1
      · exact absurd (List.mem_map_of_mem _ (List.mem_cons_self i rest)) h1
    obtain ⟨hok, hidx⟩ := removeVNode_of_short hf node nodeID acc i hi
    simp only [removeVNodesFrom, hok, List.foldl_cons]
    apply ih
    intro k
    rw [hidx, mapGet_mapDel]
    by_cases hk : k = vNodeSlot hf nodeID i
    · left
      simp [hk]
    · rw [if_neg hk]
      rcases h k with h1 | h1
      · exact Or.inl h1
      · right
        intro hm
        exact h1 (by simp only [List.map_cons, List.mem_cons]; exact Or.inr hm)

/-- No pass panics when each slot of the node has at most one owner. -/
theorem removeVNodes_of_short (hf : List Nat → Nat) (node : Node) (nodeID : Nat)
    (s : ConsistentHash)
    (h : ∀ k ∈ nodeSlots hf nodeID s.virtualNodeCount, (ownersOf s k).length ≤ 1) :
    removeVNodes hf node nodeID s = (removeVNodesOk hf node nodeID s, none) := by
  unfold removeVNodes removeVNodesOk
  apply foldl_removeVNode_short
  intro k
  by_cases hk : k ∈ List.map (vNodeSlot hf nodeID) (List.range s.virtualNodeCount)
  · exact Or.inl (h k hk)
  · exact Or.inr hk

/-- The parts of the ring after `RemoveNode` for a registered identity: the loop
variables when the loop ended, the table sorted again unless the loop panicked. -/
theorem removeNode_state_parts (hf : List Nat → Nat) (s : ConsistentHash) (nodeKey : List Nat)
    (node : Node) (h : mapGet s.nodeIDMapNode (hash32 hf nodeKey) = some node) :
    (RemoveNode hf s nodeKey).state.virtualNodeCount = s.virtualNodeCount ∧
      ((RemoveNode hf s nodeKey).state.vnodes =
          (removeVNodes hf node (hash32 hf nodeKey) s).1.vnodes ∨
        (RemoveNode hf s nodeKey).state.vnodes =
          sortSlice (removeVNodes hf node (hash32 hf nodeKey) s).1.vnodes) ∧
      (RemoveNode hf s nodeKey).state.vNodeMapActNodes =
        (removeVNodes hf node (hash32 hf nodeKey) s).1.index ∧
      (RemoveNode hf s nodeKey).state.nodeIDMapNode =
        mapDel s.nodeIDMapNode (hash32 hf nodeKey) ∧
      (RemoveNode hf s nodeKey).panic = (removeVNodes hf node (hash32 hf nodeKey) s).2 := by
  unfold RemoveNode
  simp only [h]
  rcases hr : removeVNodes hf node (hash32 hf nodeKey) s with ⟨acc, _ | e⟩
  · simp only
    split
    · exact ⟨rfl, Or.inr rfl, rfl, rfl, rfl⟩
    · split <;> exact ⟨rfl, Or.inr rfl, rfl, rfl, rfl⟩
  · exact ⟨rfl, Or.inl rfl, rfl, rfl, rfl⟩

/-- The result of `RemoveNode` for a registered identity when the loop does not
panic. -/
theorem removeNode_state (hf : List Nat → Nat) (s : ConsistentHash) (nodeKey : List Nat)
    (node : Node) (h : mapGet s.nodeIDMapNode (hash32 hf nodeKey) = some node)
    (hok : removeVNodes hf node (hash32 hf nodeKey) s =
      (removeVNodesOk hf node (hash32 hf nodeKey) s, none)) :
    (RemoveNode hf s nodeKey).state =
      { virtualNodeCount := s.virtualNodeCount
        vnodes := sortSlice (removeVNodesOk hf node (hash32 hf nodeKey) s).vnodes
        vNodeMapActNodes := (removeVNodesOk hf node (hash32 hf nodeKey) s).index
        nodeIDMapNode := mapDel s.nodeIDMapNode (hash32 hf nodeKey) } := by
  unfold RemoveNode
  simp only [h, hok]
  split
  · rfl
  · split <;> rfl

theorem removeNode_panic_none (hf : List Nat → Nat) (s : ConsistentHash) (nodeKey : List Nat)
    (node : Node) (h : mapGet s.nodeIDMapNode (hash32 hf nodeKey) = some node)
    (hok : removeVNodes hf node (hash32 hf nodeKey) s =
      (removeVNodesOk hf node (hash32 hf nodeKey) s, none)) :
    (RemoveNode hf s nodeKey).panic = none := by
  rw [(removeNode_state_parts hf s nodeKey node h).2.2.2.2, hok]

theorem removeNode_of_unregistered (hf : List Nat → Nat) (s : ConsistentHash)
    (nodeKey : List Nat) (h : mapGet s.nodeIDMapNode (hash32 hf nodeKey) = none) :
    RemoveNode hf s nodeKey = { state := s, transfer := none, panic := none } := by
  unfold RemoveNode
  simp only [h]

theorem removeNode_ringInv (hf : List Nat → Nat) (s : ConsistentHash) (nodeKey : List Nat)
    (hinv : RingInv s) : RingInv (RemoveNode hf s nodeKey).state := by
  cases hm : mapGet s.nodeIDMapNode (hash32 hf nodeKey) with
  | none =>
    rw [removeNode_of_unregistered hf s nodeKey hm]
    exact hinv
  | some node =>
    obtain ⟨_, hvn, hidx, _, _⟩ := removeNode_state_parts hf s nodeKey node hm
    obtain ⟨_, h, _⟩ := removeVNodesFrom_induct hf node (hash32 hf nodeKey)
      (fun _ acc => List.Sorted (fun a b => a < b) acc.vnodes ∧
        ∀ k ∈ acc.vnodes, (mapGet acc.index k).getD [] ≠ [])
      (fun i _ acc hp _ => removeVNode_inv hf node (hash32 hf nodeKey) acc i hp.1 hp.2)
      (List.range s.virtualNodeCount)
      { vnodes := s.vnodes, index := s.vNodeMapActNodes } ⟨hinv.1, hinv.2⟩
    have hvn1 : (RemoveNode hf s nodeKey).state.vnodes =
        (removeVNodes hf node (hash32 hf nodeKey) s).1.vnodes := by
      rcases hvn with hvn | hvn
      · exact hvn
      · rw [hvn]
        exact sortSlice_of_sorted h.1
    unfold RingInv ownersOf
    rw [hvn1, hidx]
    exact h

theorem addNode_ringInv (hf : List Nat → Nat) (s : ConsistentHash) (node : Node)
    (hinv : RingInv s) : RingInv (AddNode hf s node).state := by
  cases hm : mapGet s.nodeIDMapNode (hash32 hf node.Key) with
  | some n =>
    rw [addNode_of_registered hf s node (by simp [hm])]
    exact hinv
  | none =>
    rw [(addNode_of_fresh hf s node hm).1]
    exact addNodeState_ringInv hf s node hinv

/-- Every reachable ring satisfies the ring invariants of the lookup. -/
theorem reachable_ringInv (hf : List Nat → Nat) (s : ConsistentHash) (h : Reachable hf s) :
    RingInv s := by
  induction h with
  | new => exact ⟨List.sorted_nil, fun v hv => absurd hv (List.not_mem_nil v)⟩
  | add s node _ ih => exact addNode_ringInv hf s node ih
  | remove s nodeKey _ ih => exact removeNode_ringInv hf s nodeKey ih

/-- C10: in every ring reachable from `New` by calls of `AddNode` and `RemoveNode`
the slot table `vnodes` is strictly ascending. -/
theorem reachable_vnodes_strictly_ascending (hf : List Nat → Nat) (s : ConsistentHash)
    (h : Reachable hf s) : List.Sorted (fun a b => a < b) s.vnodes :=
  (reachable_ringInv hf s h).1

/-- The ring `ringAB` is reachable, and its table is strictly ascending. -/
theorem reachable_vnodes_strictly_ascending_witness :
    Reachable leValue ringAB ∧ List.Sorted (fun a b => a < b) ringAB.vnodes :=
  ⟨Reachable.add ringA cacheB (Reachable.add New cacheA Reachable.new),
    reachable_vnodes_strictly_ascending leValue ringAB
      (Reachable.add ringA cacheB (Reachable.add New cacheA Reachable.new))⟩

/-! ## Removal with colliding replicas -/

theorem pickOwner_replicate (x : Node) (c h : Nat) (hc : 0 < c) :
    pickOwner (List.replicate c x) h = Lookup.found x := by
  have hne : List.replicate c x ≠ [] := by
    intro hnil
    have := congrArg List.length hnil
    simp at this
    omega
  obtain ⟨n, hp, hmem, _⟩ := pickOwner_found hne h
  rw [hp, List.eq_of_mem_replicate hmem]

/-- Under `dupHash` the ten replicas of `nodeX` share the slot value 0. After
`AddNode(nodeX)` and `RemoveNode(nodeX.Key())` on a new ring, `GetNode` returns `nodeX` for
every key. -/
theorem getNode_after_duplicate_removal (nodeKey : List Nat) :
    GetNode dupHash (RemoveNode dupHash dupRingX nodeX.Key).state nodeKey =
      Lookup.found nodeX := by
  have hv : (RemoveNode dupHash dupRingX nodeX.Key).state.vnodes = [0] := by decide
  have hm : mapGet (RemoveNode dupHash dupRingX nodeX.Key).state.vNodeMapActNodes 0 =
      some (List.replicate 10 nodeX) := by decide
  have hidx : lookupIdx [0] (hash32 dupHash nodeKey) = 0 := by
    unfold lookupIdx sortSearch
    simp only [List.length_singleton, searchLoop]
    split <;> simp
  unfold GetNode
  simp only [hv, hidx, List.get?_cons_zero, hm]
  exact pickOwner_replicate nodeX 10 _ (by decide)

/-- C3 (as stated, at a concrete input): `dupHash` is a hash function under which two
replicas of one node have the same slot value. After `AddNode(nodeX)`, `AddNode(nodeY)` and
`RemoveNode(nodeX.Key())` on a new ring, `nodeY` is still registered but the slot table is
empty (the passes for the repeated slot 0 of `nodeX` deleted the slot that `nodeY` co-owned
and then cut the slot 28 of `nodeY` out of the table), and `GetNode` panics for every key. -/
theorem getNode_panics_with_registered_node :
    Reachable dupHash (RemoveNode dupHash dupRingXY nodeX.Key).state ∧
      mapGet (RemoveNode dupHash dupRingXY nodeX.Key).state.nodeIDMapNode
        (hash32 dupHash nodeY.Key) = some nodeY ∧
      dupRingXY.vnodes = [0, 28] ∧
      (RemoveNode dupHash dupRingXY nodeX.Key).state.vnodes = [] ∧
      ∀ nodeKey, GetNode dupHash (RemoveNode dupHash dupRingXY nodeX.Key).state nodeKey =
        Lookup.panics RuntimeError.indexOutOfRange := by
  refine ⟨Reachable.remove dupRingXY nodeX.Key
    (Reachable.add dupRingX nodeY (Reachable.add New nodeX Reachable.new)),
    by decide, by decide, by decide, ?_⟩
  intro nodeKey
  have hv : (RemoveNode dupHash dupRingXY nodeX.Key).state.vnodes = [] := by decide
  unfold GetNode
  rw [hv]
  rfl

/-! ## The postcondition of AddNode -/

theorem vNodeSlot_eq_specSlot (hf : List Nat → Nat) (nodeID i : Nat) (hi : i < 4294967296) :
    vNodeSlot hf nodeID i = specSlot hf nodeID i := by
  unfold vNodeSlot specSlot u32Hash
  rw [Nat.mod_eq_of_lt hi]

theorem count_map_eq_filter_length (f : Nat → Nat) (k : Nat) (l : List Nat) :
    List.count k (l.map f) = (l.filter (fun i => decide (f i = k))).length := by
  induction l with
  | nil => simp
  | cons a rest ih =>
    simp only [List.map_cons, List.filter_cons]
    by_cases h : f a = k
    · simp [h, ih]
    · have h' : ¬ k = f a := fun e => h e.symm
      rw [List.count_cons_of_ne h']
      simp [h, ih]

theorem map_vNodeSlot_range (hf : List Nat → Nat) (nodeID : Nat) :
    (List.range 10).map (vNodeSlot hf nodeID) = (List.range 10).map (specSlot hf nodeID) := by
  apply List.map_congr_left
  intro i hi
  have : i < 10 := List.mem_range.mp hi
  exact vNodeSlot_eq_specSlot hf nodeID i (by omega)

/-- C7: on a ring whose index keys are exactly the table values, for a node whose identity
`nodeID` is not registered and with `V = 10`: after `AddNode` the registry maps `nodeID` to
the node and is otherwise unchanged; the table values are the previous ones together with
the ten slot values `slot_i`; the owner list of a slot value `k` of the node is its previous
list (empty when absent) followed by one copy of the node for each `i` with `slot_i = k`;
the entries of all other slots are unchanged. -/
theorem addNode_postcondition (hf : List Nat → Nat) (s : ConsistentHash) (node : Node)
    (hkeys : ∀ k, (mapGet s.vNodeMapActNodes k).isSome = true ↔ k ∈ s.vnodes)
    (hfresh : mapGet s.nodeIDMapNode (hash32 hf node.Key) = none)
    (hV : s.virtualNodeCount = 10) :
    (∀ id, mapGet (AddNode hf s node).state.nodeIDMapNode id =
        if id = hash32 hf node.Key then some node else mapGet s.nodeIDMapNode id) ∧
      (∀ k, k ∈ (AddNode hf s node).state.vnodes ↔
        k ∈ s.vnodes ∨ ∃ i, i < 10 ∧ specSlot hf (hash32 hf node.Key) i = k) ∧
      (∀ k, (∃ i, i < 10 ∧ specSlot hf (hash32 hf node.Key) i = k) →
        mapGet (AddNode hf s node).state.vNodeMapActNodes k =
          some (ownersOf s k ++ List.replicate
            ((List.range 10).filter
              (fun i => decide (specSlot hf (hash32 hf node.Key) i = k))).length node)) ∧
      (∀ k, (¬ ∃ i, i < 10 ∧ specSlot hf (hash32 hf node.Key) i = k) →
        mapGet (AddNode hf s node).state.vNodeMapActNodes k = mapGet s.vNodeMapActNodes k) := by
  rw [(addNode_of_fresh hf s node hfresh).1]
  have hmem : ∀ k, k ∈ (List.range 10).map (vNodeSlot hf (hash32 hf node.Key)) ↔
      ∃ i, i < 10 ∧ specSlot hf (hash32 hf node.Key) i = k := by
    intro k
    rw [map_vNodeSlot_range]
    simp [List.mem_map, List.mem_range]
  have hcount : ∀ k, List.count k ((List.range 10).map (vNodeSlot hf (hash32 hf node.Key))) =
      ((List.range 10).filter
        (fun i => decide (specSlot hf (hash32 hf node.Key) i = k))).length := by
    intro k
    rw [map_vNodeSlot_range]
    exact count_map_eq_filter_length _ k _
  refine ⟨?_, ?_, ?_, ?_⟩
  · intro id
    simp only [addNodeState, mapGet_mapSet]
  · intro k
    simp only [addNodeState, addVNodes, hV]
    rw [mem_sortSlice, foldl_addVNode_mem_vnodes, hmem]
    constructor
    · rintro (h | ⟨h, _⟩)
      · exact Or.inl h
      · exact Or.inr h
    · rintro (h | h)
      · exact Or.inl h
      · by_cases hk : k ∈ s.vnodes
        · exact Or.inl hk
        · refine Or.inr ⟨h, ?_⟩
          have := (hkeys k).not.mpr hk
          simpa using this
  · intro k hk
    simp only [addNodeState, addVNodes, hV]
    rw [foldl_addVNode_index, hcount]
    have hpos : ((List.range 10).filter
        (fun i => decide (specSlot hf (hash32 hf node.Key) i = k))).length ≠ 0 := by
      rw [← hcount]
      exact Nat.pos_iff_ne_zero.mp (List.count_pos_iff.mpr ((hmem k).mpr hk))
    rw [if_neg hpos]
    rfl
  · intro k hk
    simp only [addNodeState, addVNodes, hV]
    rw [foldl_addVNode_index]
    have hzero : List.count k ((List.range 10).map (vNodeSlot hf (hash32 hf node.Key))) = 0 :=
      List.count_eq_zero.mpr (fun hc => hk ((hmem k).mp hc))
    rw [if_pos hzero]

/-- The hypotheses of `addNode_postcondition` hold for `AddNode(cacheA)` on `New`. -/
theorem addNode_postcondition_witness :
    (∀ k, (mapGet New.vNodeMapActNodes k).isSome = true ↔ k ∈ New.vnodes) ∧
      mapGet New.nodeIDMapNode (hash32 leValue cacheA.Key) = none ∧
      New.virtualNodeCount = 10 ∧
      ∀ k, k ∈ (AddNode leValue New cacheA).state.vnodes ↔
        k ∈ New.vnodes ∨ ∃ i, i < 10 ∧ specSlot leValue (hash32 leValue cacheA.Key) i = k :=
  ⟨fun k => by simp [New, mapGet], rfl, rfl,
    (addNode_postcondition leValue New cacheA (fun k => by simp [New, mapGet]) rfl rfl).2.1⟩

/-! ## Minimal movement on AddNode -/

theorem isRingSlot_of_subset {l l' : List Nat} {h v : Nat} (hv : IsRingSlot l' h v)
    (hvl : v ∈ l) (hsub : ∀ w ∈ l, w ∈ l') : IsRingSlot l h v := by
  obtain ⟨_, hcase⟩ := hv
  refine ⟨hvl, ?_⟩
  rcases hcase with ⟨h1, h2⟩ | ⟨h1, h2⟩
  · exact Or.inl ⟨h1, fun w hw => h2 w (hsub w hw)⟩
  · exact Or.inr ⟨fun w hw => h1 w (hsub w hw), fun w hw => h2 w (hsub w hw)⟩

theorem getNode_of_empty_table (hf : List Nat → Nat) (s : ConsistentHash) (nodeKey : List Nat)
    (h : s.vnodes = []) : GetNode hf s nodeKey = Lookup.panics RuntimeError.indexOutOfRange := by
  unfold GetNode
  rw [h]
  rfl

theorem addNodeState_mem_vnodes (hf : List Nat → Nat) (s : ConsistentHash) (node : Node)
    (k : Nat) :
    k ∈ (addNodeState hf s node).vnodes ↔
      k ∈ s.vnodes ∨
        (k ∈ nodeSlots hf (hash32 hf node.Key) s.virtualNodeCount ∧
          mapGet s.vNodeMapActNodes k = none) := by
  simp only [addNodeState, addVNodes, nodeSlots]
  rw [mem_sortSlice, foldl_addVNode_mem_vnodes]

theorem addNodeState_ownersOf (hf : List Nat → Nat) (s : ConsistentHash) (node : Node)
    (k : Nat) :
    ownersOf (addNodeState hf s node) k =
      ownersOf s k ++ List.replicate
        (List.count k (nodeSlots hf (hash32 hf node.Key) s.virtualNodeCount)) node := by
  simp only [ownersOf, addNodeState, addVNodes, nodeSlots]
  rw [foldl_addVNode_index]
  split
  · rename_i hc
    rw [hc]
    simp
  · simp

theorem pickOwner_singleton (a : Node) (h : Nat) : pickOwner [a] h = Lookup.found a := by
  simp [pickOwner]

theorem addNodeState_minimal_movement (hf : List Nat → Nat) (s : ConsistentHash) (node : Node)
    (nodeKey : List Nat) (hinv : RingInv s)
    (hsolo : ∀ v ∈ nodeSlots hf (hash32 hf node.Key) s.virtualNodeCount,
      (ownersOf s v).length ≤ 1) :
    GetNode hf (addNodeState hf s node) nodeKey = GetNode hf s nodeKey ∨
      GetNode hf (addNodeState hf s node) nodeKey = Lookup.found node := by
  have hinv' := addNodeState_ringInv hf s node hinv
  by_cases hne' : (addNodeState hf s node).vnodes = []
  · left
    have hne : s.vnodes = [] := by
      apply List.eq_nil_iff_forall_not_mem.mpr
      intro k hk
      have : k ∈ (addNodeState hf s node).vnodes :=
        (addNodeState_mem_vnodes hf s node k).mpr (Or.inl hk)
      rw [hne'] at this
      exact List.not_mem_nil k this
    rw [getNode_of_empty_table hf _ nodeKey hne', getNode_of_empty_table hf s nodeKey hne]
  · obtain ⟨v', hslot', hown', hget'⟩ :=
      getNode_eq_pickOwner hf (addNodeState hf s node) nodeKey hinv' hne'
    rw [hget', addNodeState_ownersOf]
    by_cases hv : v' ∈ s.vnodes
    · have hslot : IsRingSlot s.vnodes (hash32 hf nodeKey) v' :=
        isRingSlot_of_subset hslot' hv
          (fun w hw => (addNodeState_mem_vnodes hf s node w).mpr (Or.inl hw))
      obtain ⟨v, hslot2, hown, hget⟩ :=
        getNode_eq_pickOwner hf s nodeKey hinv (List.ne_nil_of_mem hv)
      have hvv : v = v' := isRingSlot_unique hslot2 hslot
      subst hvv
      rw [hget]
      by_cases hc : List.count v (nodeSlots hf (hash32 hf node.Key) s.virtualNodeCount) = 0
      · left
        rw [hc]
        simp
      · have hmem : v ∈ nodeSlots hf (hash32 hf node.Key) s.virtualNodeCount :=
          List.count_pos_iff.mp (Nat.pos_of_ne_zero hc)
        have hlen := hsolo v hmem
        match hl : ownersOf s v, hown, hlen with
        | [a], _, _ =>
          rw [pickOwner_singleton]
          have hne2 : [a] ++ List.replicate
              (List.count v (nodeSlots hf (hash32 hf node.Key) s.virtualNodeCount)) node ≠ [] := by
            simp
          obtain ⟨n, hp, hn, _⟩ := pickOwner_found hne2 (hash32 hf nodeKey)
          rw [hp]
          simp only [List.mem_append, List.mem_singleton] at hn
          rcases hn with hn | hn
          · left
            rw [hn]
          · right
            rw [List.eq_of_mem_replicate hn]
        | _ :: _ :: _, _, hlen => simp at hlen
    · right
      have hnew := (addNodeState_mem_vnodes hf s node v').mp hslot'.1
      rcases hnew with hnew | ⟨hmem, hnone⟩
      · exact absurd hnew hv
      · have hempty : ownersOf s v' = [] := by simp [ownersOf, hnone]
        rw [hempty, List.nil_append]
        exact pickOwner_replicate node _ _ (List.count_pos_iff.mpr hmem)

theorem addNode_ret_ok_fresh (hf : List Nat → Nat) (s : ConsistentHash) (node : Node)
    (h : (AddNode hf s node).ret = AddOutcome.ok) :
    mapGet s.nodeIDMapNode (hash32 hf node.Key) = none := by
  cases hm : mapGet s.nodeIDMapNode (hash32 hf node.Key) with
  | none => rfl
  | some n =>
    rw [addNode_of_registered hf s node (by simp [hm])] at h
    simp at h

/-- C5 (as stated, at a concrete input): under `leValue` the slot 105 of the reachable ring
`ringAB` is co-owned by `cacheA` and `cacheB`; `AddNode(cacheC)` succeeds and makes `cacheC` a
third owner, after which the key `[105]`, which `cacheB` had, belongs to `cacheA`: a key
moved from one previously registered node to another, not to the new node. -/
theorem addNode_moves_key_between_old_nodes :
    Reachable leValue ringAB ∧
      (AddNode leValue ringAB cacheC).ret = AddOutcome.ok ∧
      (mapGet ringAB.nodeIDMapNode (hash32 leValue cacheA.Key) = some cacheA ∧
        mapGet ringAB.nodeIDMapNode (hash32 leValue cacheB.Key) = some cacheB) ∧
      GetNode leValue ringAB [105] = Lookup.found cacheB ∧
      GetNode leValue (AddNode leValue ringAB cacheC).state [105] = Lookup.found cacheA ∧
      GetNode leValue (AddNode leValue ringAB cacheC).state [105] ≠
        GetNode leValue ringAB [105] ∧
      GetNode leValue (AddNode leValue ringAB cacheC).state [105] ≠ Lookup.found cacheC :=
  ⟨Reachable.add ringA cacheB (Reachable.add New cacheA Reachable.new),
    by decide, by decide, by decide, by decide, by decide, by decide⟩

/-- C5 (amended): for a reachable ring and a node whose `AddNode` succeeds and none of whose
slot values already has two or more owners, every key whose `GetNode` result differs between
the ring before and the ring after the call is mapped to the new node afterwards. -/
theorem addNode_minimal_movement (hf : List Nat → Nat) (s : ConsistentHash) (node : Node)
    (nodeKey : List Nat) (hreach : Reachable hf s)
    (hok : (AddNode hf s node).ret = AddOutcome.ok)
    (hsolo : ∀ v ∈ nodeSlots hf (hash32 hf node.Key) s.virtualNodeCount,
      (ownersOf s v).length ≤ 1)
    (hdiff : GetNode hf (AddNode hf s node).state nodeKey ≠ GetNode hf s nodeKey) :
    GetNode hf (AddNode hf s node).state nodeKey = Lookup.found node := by
  rw [(addNode_of_fresh hf s node (addNode_ret_ok_fresh hf s node hok)).1] at hdiff ⊢
  rcases addNodeState_minimal_movement hf s node nodeKey (reachable_ringInv hf s hreach) hsolo
    with h | h
  · exact absurd h hdiff
  · exact h

/-- The hypotheses of `addNode_minimal_movement` hold for `AddNode(cacheB)` on `ringA` and
the key `[110]`, which moves from `cacheA` to the new node. -/
theorem addNode_minimal_movement_witness :
    Reachable leValue ringA ∧ (AddNode leValue ringA cacheB).ret = AddOutcome.ok ∧
      (∀ v ∈ nodeSlots leValue (hash32 leValue cacheB.Key) ringA.virtualNodeCount,
        (ownersOf ringA v).length ≤ 1) ∧
      GetNode leValue (AddNode leValue ringA cacheB).state [110] ≠ GetNode leValue ringA [110] ∧
      GetNode leValue (AddNode leValue ringA cacheB).state [110] = Lookup.found cacheB :=
  ⟨Reachable.add New cacheA Reachable.new, by decide, by decide, by decide,
    addNode_minimal_movement leValue ringA cacheB [110]
      (Reachable.add New cacheA Reachable.new) (by decide) (by decide) (by decide)⟩

/-! ## RemoveNode on a ring without slot collisions -/

theorem collisionFree_ringInv (hf : List Nat → Nat) (s : ConsistentHash)
    (hcf : CollisionFree hf s) : RingInv s := by
  refine ⟨hcf.1, ?_⟩
  intro v hv
  obtain ⟨n, hn, hvn⟩ := hcf.2.2.2 v hv
  rw [(hcf.2.1 n hn v hvn).2]
  simp

theorem removeVNode_sole (hf : List Nat → Nat) (node : Node) (nodeID : Nat) (acc : RemoveAcc)
    (i : Nat) (h1 : List.Sorted (fun a b => a < b) acc.vnodes)
    (hmem : vNodeSlot hf nodeID i ∈ acc.vnodes)
    (hown : (mapGet acc.index (vNodeSlot hf nodeID i)).getD [] = [node]) :
    List.Sorted (fun a b => a < b) (removeVNodeOk hf node nodeID acc i).vnodes ∧
      (∀ k, k ∈ (removeVNodeOk hf node nodeID acc i).vnodes ↔
        k ∈ acc.vnodes ∧ k ≠ vNodeSlot hf nodeID i) ∧
      (removeVNodeOk hf node nodeID acc i).index = mapDel acc.index (vNodeSlot hf nodeID i) := by
  obtain ⟨hidx, hval⟩ := sortSearch_ge_of_mem h1 hmem
  unfold removeVNodeOk
  simp only [hown, List.length_singleton, gt_iff_lt, Nat.lt_irrefl, if_false, hidx, if_true]
  refine ⟨List.Pairwise.sublist (List.eraseIdx_sublist _ _) h1, ?_, trivial⟩
  intro k
  rw [mem_eraseIdx_of_nodup (List.Sorted.nodup h1) hidx, hval]
  exact And.comm

theorem foldl_removeVNode_sole (hf : List Nat → Nat) (node : Node) (nodeID : Nat) :
    ∀ (is : List Nat) (acc : RemoveAcc),
      List.Sorted (fun a b => a < b) acc.vnodes →
      (is.map (vNodeSlot hf nodeID)).Nodup →
      (∀ i ∈ is, vNodeSlot hf nodeID i ∈ acc.vnodes ∧
        (mapGet acc.index (vNodeSlot hf nodeID i)).getD [] = [node]) →
      (∀ k, k ∈ (is.foldl (removeVNodeOk hf node nodeID) acc).vnodes ↔
        k ∈ acc.vnodes ∧ k ∉ is.map (vNodeSlot hf nodeID)) ∧
      (∀ k, mapGet (is.foldl (removeVNodeOk hf node nodeID) acc).index k =
        if k ∈ is.map (vNodeSlot hf nodeID) then none else mapGet acc.index k) := by
  intro is
  induction is with
  | nil =>
    intro acc _ _ _
    simp
  | cons i rest ih =>
    intro acc h1 hnd hall
    simp only [List.map_cons, List.nodup_cons] at hnd
    obtain ⟨hmemi, howni⟩ := hall i (List.mem_cons_self i rest)
    obtain ⟨hs1, hv1, hi1⟩ := removeVNode_sole hf node nodeID acc i h1 hmemi howni
    have hall1 : ∀ j ∈ rest, vNodeSlot hf nodeID j ∈ (removeVNodeOk hf node nodeID acc i).vnodes ∧
        (mapGet (removeVNodeOk hf node nodeID acc i).index (vNodeSlot hf nodeID j)).getD [] =
          [node] := by
      intro j hj
      obtain ⟨hmemj, hownj⟩ := hall j (List.mem_cons_of_mem i hj)
      have hne : vNodeSlot hf nodeID j ≠ vNodeSlot hf nodeID i := by
        intro he
        exact hnd.1 (he ▸ List.mem_map_of_mem _ hj)
      refine ⟨(hv1 _).mpr ⟨hmemj, hne⟩, ?_⟩
      rw [hi1, mapGet_mapDel, if_neg hne]
      exact hownj
    obtain ⟨hv2, hi2⟩ := ih (removeVNodeOk hf node nodeID acc i) hs1 hnd.2 hall1
    simp only [List.foldl_cons, List.map_cons, List.mem_cons]
    refine ⟨?_, ?_⟩
    · intro k
      rw [hv2, hv1]
      constructor
      · rintro ⟨⟨ha, hb⟩, hc⟩
        exact ⟨ha, fun h => h.elim hb hc⟩
      · rintro ⟨ha, hb⟩
        exact ⟨⟨ha, fun h => hb (Or.inl h)⟩, fun h => hb (Or.inr h)⟩
    · intro k
      rw [hi2, hi1, mapGet_mapDel]
      by_cases hk1 : k = vNodeSlot hf nodeID i
      · simp [hk1]
      · by_cases hk2 : k ∈ List.map (vNodeSlot hf nodeID) rest
        · simp [hk1, hk2]
        · simp [hk1, hk2]

/-- On a ring without collisions the loop of `RemoveNode` compares no owners, so
it does not panic. -/
theorem removeVNodes_of_collisionFree (hf : List Nat → Nat) (s : ConsistentHash) (x : Node)
    (hcf : CollisionFree hf s) (hx : Registered hf s x) :
    removeVNodes hf x (hash32 hf x.Key) s = (removeVNodesOk hf x (hash32 hf x.Key) s, none) := by
  apply removeVNodes_of_short
  intro k hk
  rw [(hcf.2.1 x hx k hk).2]
  simp

/-- The ring after `RemoveNode` of a registered node of a ring without collisions: the
ring invariants hold, the table lost exactly the slots of the node, and the index lost
exactly their entries. -/
theorem removeNode_collisionFree (hf : List Nat → Nat) (s : ConsistentHash) (x : Node)
    (hcf : CollisionFree hf s) (hx : Registered hf s x) :
    RingInv (RemoveNode hf s x.Key).state ∧
      (∀ k, k ∈ (RemoveNode hf s x.Key).state.vnodes ↔
        k ∈ s.vnodes ∧ k ∉ nodeSlots hf (hash32 hf x.Key) s.virtualNodeCount) ∧
      (∀ k, ownersOf (RemoveNode hf s x.Key).state k =
        if k ∈ nodeSlots hf (hash32 hf x.Key) s.virtualNodeCount then [] else ownersOf s k) ∧
      (RemoveNode hf s x.Key).state.nodeIDMapNode =
        mapDel s.nodeIDMapNode (hash32 hf x.Key) := by
  have hinv := removeNode_ringInv hf s x.Key (collisionFree_ringInv hf s hcf)
  refine ⟨hinv, ?_⟩
  rw [removeNode_state hf s x.Key x hx (removeVNodes_of_collisionFree hf s x hcf hx)]
  have hall : ∀ i ∈ List.range s.virtualNodeCount,
      vNodeSlot hf (hash32 hf x.Key) i ∈ s.vnodes ∧
        (mapGet s.vNodeMapActNodes (vNodeSlot hf (hash32 hf x.Key) i)).getD [] = [x] := by
    intro i hi
    exact hcf.2.1 x hx _ (List.mem_map_of_mem _ hi)
  obtain ⟨hv, hi⟩ := foldl_removeVNode_sole hf x (hash32 hf x.Key)
    (List.range s.virtualNodeCount) { vnodes := s.vnodes, index := s.vNodeMapActNodes }
    hcf.1 (hcf.2.2.1 x hx) hall
  refine ⟨?_, ?_, rfl⟩
  · intro k
    simp only [removeVNodesOk]
    rw [mem_sortSlice, hv]
    rfl
  · intro k
    simp only [ownersOf, removeVNodesOk]
    rw [hi]
    simp only [nodeSlots]
    split <;> simp

/-! ## Lookups before and after RemoveNode -/

theorem getNode_collisionFree (hf : List Nat → Nat) (s : ConsistentHash) (nodeKey : List Nat)
    (hcf : CollisionFree hf s) (y : Node) (hget : GetNode hf s nodeKey = Lookup.found y) :
    ∃ v, IsRingSlot s.vnodes (hash32 hf nodeKey) v ∧ ownersOf s v = [y] ∧ Registered hf s y := by
  have hne : s.vnodes ≠ [] := by
    intro he
    rw [getNode_of_empty_table hf s nodeKey he] at hget
    simp at hget
  obtain ⟨v, hslot, _, hpick⟩ :=
    getNode_eq_pickOwner hf s nodeKey (collisionFree_ringInv hf s hcf) hne
  obtain ⟨n, hn, hvn⟩ := hcf.2.2.2 v hslot.1
  have hown := (hcf.2.1 n hn v hvn).2
  rw [hget, hown, pickOwner_singleton] at hpick
  have hyn : y = n := by
    injection hpick
  subst hyn
  exact ⟨v, hslot, hown, hn⟩

/-- A key that belonged to a node other than the removed one keeps its owner. -/
theorem removeNode_keeps_other_owner (hf : List Nat → Nat) (s : ConsistentHash) (x y : Node)
    (nodeKey : List Nat) (hcf : CollisionFree hf s) (hx : Registered hf s x)
    (hget : GetNode hf s nodeKey = Lookup.found y) (hyx : y ≠ x) :
    GetNode hf (RemoveNode hf s x.Key).state nodeKey = Lookup.found y := by
  obtain ⟨hinv', hv', ho', _⟩ := removeNode_collisionFree hf s x hcf hx
  obtain ⟨v, hslot, hown, _⟩ := getNode_collisionFree hf s nodeKey hcf y hget
  have hvx : v ∉ nodeSlots hf (hash32 hf x.Key) s.virtualNodeCount := by
    intro hmem
    have := (hcf.2.1 x hx v hmem).2
    rw [hown] at this
    exact hyx (by injection this)
  have hvmem : v ∈ (RemoveNode hf s x.Key).state.vnodes := (hv' v).mpr ⟨hslot.1, hvx⟩
  have hslot' : IsRingSlot (RemoveNode hf s x.Key).state.vnodes (hash32 hf nodeKey) v :=
    isRingSlot_of_subset hslot hvmem (fun w hw => ((hv' w).mp hw).1)
  obtain ⟨v2, hslot2, _, hpick2⟩ :=
    getNode_eq_pickOwner hf _ nodeKey hinv' (List.ne_nil_of_mem hvmem)
  have hvv : v2 = v := isRingSlot_unique hslot2 hslot'
  subst hvv
  rw [hpick2, ho', if_neg hvx, hown, pickOwner_singleton]

/-- When another node stays registered, every key has an owner after the removal, and
the owner is a registered node other than the removed one. -/
theorem removeNode_new_owner (hf : List Nat → Nat) (s : ConsistentHash) (x y : Node)
    (nodeKey : List Nat) (hcf : CollisionFree hf s) (hV : 0 < s.virtualNodeCount)
    (hx : Registered hf s x) (hy : Registered hf s y) (hyx : y ≠ x) :
    ∃ z, GetNode hf (RemoveNode hf s x.Key).state nodeKey = Lookup.found z ∧
      z ≠ x ∧ Registered hf s z := by
  obtain ⟨hinv', hv', ho', _⟩ := removeNode_collisionFree hf s x hcf hx
  have h0 : vNodeSlot hf (hash32 hf y.Key) 0 ∈
      nodeSlots hf (hash32 hf y.Key) s.virtualNodeCount :=
    List.mem_map_of_mem _ (List.mem_range.mpr hV)
  have hy0 := hcf.2.1 y hy _ h0
  have hy0x : vNodeSlot hf (hash32 hf y.Key) 0 ∉
      nodeSlots hf (hash32 hf x.Key) s.virtualNodeCount := by
    intro hmem
    have := (hcf.2.1 x hx _ hmem).2
    rw [hy0.2] at this
    exact hyx (by injection this)
  have hne : (RemoveNode hf s x.Key).state.vnodes ≠ [] :=
    List.ne_nil_of_mem ((hv' _).mpr ⟨hy0.1, hy0x⟩)
  obtain ⟨v, hslot, _, hpick⟩ := getNode_eq_pickOwner hf _ nodeKey hinv' hne
  obtain ⟨hvs, hvx⟩ := (hv' v).mp hslot.1
  obtain ⟨n, hn, hvn⟩ := hcf.2.2.2 v hvs
  refine ⟨n, ?_, ?_, hn⟩
  · rw [hpick, ho', if_neg hvx, (hcf.2.1 n hn v hvn).2, pickOwner_singleton]
  · intro hnx
    subst hnx
    exact hvx hvn

/-! ## The stores of the caches -/

theorem storeGet_storeDel (st : CacheStore) (k k' : Int) :
    storeGet (storeDel st k) k' = if k' = k then none else storeGet st k' := by
  induction st with
  | nil => simp [storeDel, storeGet]
  | cons p rest ih =>
    obtain ⟨a, v⟩ := p
    unfold storeDel at ih ⊢
    by_cases ha : a = k
    · subst ha
      simp only [List.filter, ne_eq, not_true_eq_false, decide_False]
      rw [ih]
      by_cases hk : k' = a
      · simp [hk]
      · have : ¬ a = k' := fun h => hk h.symm
        simp [hk, storeGet, this]
    · simp only [List.filter, ne_eq, ha, not_false_eq_true, decide_True, storeGet]
      rw [ih]
      by_cases hk : k' = k
      · subst hk
        simp [ha]
      · simp [hk]

theorem storeGet_storeSet (st : CacheStore) (k k' v : Int) :
    storeGet (storeSet st k v) k' = if k' = k then some v else storeGet st k' := by
  unfold storeSet
  simp only [storeGet, storeGet_storeDel]
  by_cases hk : k' = k
  · simp [hk]
  · have : ¬ k = k' := fun h => hk h.symm
    simp [hk, this]

theorem storeGet_mem {st : CacheStore} {k v : Int} (h : storeGet st k = some v) :
    (k, v) ∈ st := by
  induction st with
  | nil => simp [storeGet] at h
  | cons p rest ih =>
    obtain ⟨a, w⟩ := p
    simp only [storeGet] at h
    by_cases ha : a = k
    · simp only [ha, if_true, Option.some.injEq] at h
      simp [ha, h]
    · simp only [ha, if_false] at h
      exact List.mem_cons_of_mem _ (ih h)

theorem storeGet_isSome_of_mem_keys {st : CacheStore} {k : Int}
    (h : k ∈ st.map Prod.fst) : ∃ v, storeGet st k = some v := by
  induction st with
  | nil => simp at h
  | cons p rest ih =>
    obtain ⟨a, w⟩ := p
    simp only [storeGet]
    by_cases ha : a = k
    · exact ⟨w, by simp [ha]⟩
    · simp only [ha, if_false]
      simp only [List.map_cons, List.mem_cons] at h
      rcases h with h | h
      · exact absurd h.symm ha
      · exact ih h

/-! ## The Transfer hook of a cache -/

theorem transferLoop_spec (hf : List Nat → Nat) (s : ConsistentHash) (x : Node) :
    ∀ (es : List (Int × Int)) (c : Caches),
      (es.map Prod.fst).Nodup →
      (∀ kv ∈ es, ∃ z, GetNode hf s (int2Bytes kv.1) = Lookup.found z ∧
        z.rehash = true ∧ z ≠ x) →
      ∃ c', transferLoop hf s x es c = Except.ok c' ∧
        (∀ kv ∈ es, ∀ z, GetNode hf s (int2Bytes kv.1) = Lookup.found z →
          storeGet (c' z) kv.1 = some kv.2) ∧
        (∀ n k, n ≠ x → k ∉ es.map Prod.fst → storeGet (c' n) k = storeGet (c n) k) := by
  intro es
  induction es with
  | nil =>
    intro c _ _
    exact ⟨c, rfl, fun kv hkv => absurd hkv (List.not_mem_nil kv), fun _ _ _ _ => rfl⟩
  | cons e rest ih =>
    intro c hnd hall
    simp only [List.map_cons, List.nodup_cons] at hnd
    obtain ⟨z0, hz0, hz0r, hz0x⟩ := hall e (List.mem_cons_self e rest)
    have hstep : transferEntry hf s x c e =
        Except.ok (cacheDel (cacheSet c z0 e.1 e.2) x e.1) := by
      simp [transferEntry, hz0, hz0r]
    obtain ⟨c', hc', hF1, hF2⟩ := ih (cacheDel (cacheSet c z0 e.1 e.2) x e.1) hnd.2
      (fun kv hkv => hall kv (List.mem_cons_of_mem e hkv))
    refine ⟨c', ?_, ?_, ?_⟩
    · simp only [transferLoop, hstep]
      exact hc'
    · intro kv hkv z hz
      rcases List.mem_cons.mp hkv with hkv | hkv
      · subst hkv
        rw [hz0] at hz
        have hzz : z0 = z := by injection hz
        subst hzz
        rw [hF2 z0 kv.1 hz0x hnd.1]
        simp [cacheDel, cacheSet, hz0x, storeGet_storeSet]
      · exact hF1 kv hkv z hz
    · intro n k hn hk
      simp only [List.map_cons, List.mem_cons, not_or] at hk
      rw [hF2 n k hn hk.2]
      simp only [cacheDel, cacheSet, if_neg hn]
      by_cases hnz : n = z0
      · simp [hnz, storeGet_storeSet, hk.1]
      · simp [hnz]

/-! ## No loss on churn -/

theorem removeNode_transfer (hf : List Nat → Nat) (s : ConsistentHash) (x y : Node)
    (hx : Registered hf s x) (hy : Registered hf s y) (hyx : y ≠ x)
    (hxr : x.rehash = true)
    (hok : removeVNodes hf x (hash32 hf x.Key) s = (removeVNodesOk hf x (hash32 hf x.Key) s, none)) :
    (RemoveNode hf s x.Key).transfer = some x := by
  have hid : hash32 hf y.Key ≠ hash32 hf x.Key := by
    intro he
    unfold Registered at hx hy
    rw [he, hx] at hy
    exact hyx (by injection hy with h; exact h.symm)
  have hlen : mapLen (mapDel s.nodeIDMapNode (hash32 hf x.Key)) ≠ 0 := by
    intro h0
    have hnil : mapDel s.nodeIDMapNode (hash32 hf x.Key) = [] := List.length_eq_zero.mp h0
    have hget : mapGet (mapDel s.nodeIDMapNode (hash32 hf x.Key)) (hash32 hf y.Key) = some y := by
      rw [mapGet_mapDel, if_neg hid]
      exact hy
    rw [hnil] at hget
    simp [mapGet] at hget
  unfold Registered at hx
  unfold RemoveNode
  simp only [hx, hok, hxr, Bool.not_true, Bool.false_eq_true, if_false, hlen]

/-- On a ring of caches on which no slot is shared (`CollisionFree`, with at least one
replica per node) and two nodes are registered, and whose stores hold every entry at the
node `GetNode` gives its key to, `RemoveNode` of a registered cache runs its `Transfer` to
the end, and afterwards every previously stored key is found with its original value at the
node `GetNode` returns on the ring after the removal. -/
theorem removeNode_no_loss (hf : List Nat → Nat) (s : ConsistentHash) (caches : Caches)
    (x y : Node) (hcf : CollisionFree hf s) (hV : 0 < s.virtualNodeCount)
    (hcache : ∀ n, Registered hf s n → n.rehash = true)
    (hx : Registered hf s x) (hy : Registered hf s y) (hyx : y ≠ x)
    (hmap : ((caches x).map Prod.fst).Nodup)
    (hstored : ∀ n k v, storeGet (caches n) k = some v →
      GetNode hf s (int2Bytes k) = Lookup.found n) :
    ∃ caches', removeNodeCaches hf s caches x.Key =
        Except.ok ((RemoveNode hf s x.Key).state, caches') ∧
      ∀ n k v, storeGet (caches n) k = some v →
        ∃ m, GetNode hf (RemoveNode hf s x.Key).state (int2Bytes k) = Lookup.found m ∧
          storeGet (caches' m) k = some v := by
  have hok := removeVNodes_of_collisionFree hf s x hcf hx
  have htr := removeNode_transfer hf s x y hx hy hyx (hcache x hx) hok
  have hpanic := removeNode_panic_none hf s x.Key x hx hok
  have hall : ∀ kv ∈ caches x, ∃ z,
      GetNode hf (RemoveNode hf s x.Key).state (int2Bytes kv.1) = Lookup.found z ∧
        z.rehash = true ∧ z ≠ x := by
    intro kv _
    obtain ⟨z, hz, hzx, hzr⟩ := removeNode_new_owner hf s x y (int2Bytes kv.1) hcf hV hx hy hyx
    exact ⟨z, hz, hcache z hzr, hzx⟩
  obtain ⟨c', hc', hF1, hF2⟩ :=
    transferLoop_spec hf (RemoveNode hf s x.Key).state x (caches x) caches hmap hall
  refine ⟨c', ?_, ?_⟩
  · simp only [removeNodeCaches, hpanic, htr, cacheTransfer, hc']
  · intro n k v hkv
    by_cases hn : n = x
    · subst hn
      obtain ⟨z, hz, _, _⟩ := hall (k, v) (storeGet_mem hkv)
      exact ⟨z, hz, hF1 (k, v) (storeGet_mem hkv) z hz⟩
    · refine ⟨n, removeNode_keeps_other_owner hf s x n (int2Bytes k) hcf hx
        (hstored n k v hkv) hn, ?_⟩
      have hk : k ∉ (caches x).map Prod.fst := by
        intro hmem
        obtain ⟨w, hw⟩ := storeGet_isSome_of_mem_keys hmem
        have h1 := hstored x k w hw
        rw [hstored n k v hkv] at h1
        exact hn (by injection h1)
      rw [hF2 n k hn hk]
      exact hkv

/-! ## The ownership index on reachable rings -/

/-- C11 (as stated, at a concrete input): `dupHash` is a hash function under which two
replicas of one node have the same slot value. After `AddNode(nodeX)`, `AddNode(nodeY)` and
`RemoveNode(nodeX.Key())` on a new ring, the ownership index still has an entry for the slot
28 (owned by `nodeY`), but the slot table is empty: the key set of the index is not the
value set of the table. -/
theorem index_keys_differ_from_table :
    Reachable dupHash (RemoveNode dupHash dupRingXY nodeX.Key).state ∧
      (RemoveNode dupHash dupRingXY nodeX.Key).state.vnodes = [] ∧
      mapGet (RemoveNode dupHash dupRingXY nodeX.Key).state.vNodeMapActNodes 28 =
        some (List.replicate 9 nodeY) ∧
      28 ∉ (RemoveNode dupHash dupRingXY nodeX.Key).state.vnodes :=
  ⟨Reachable.remove dupRingXY nodeX.Key
    (Reachable.add dupRingX nodeY (Reachable.add New nodeX Reachable.new)),
    by decide, by decide, by decide⟩

/-! ## The hooks -/

/-- C12 (the code at the failing input): under `leValue`, `cacheA` (slots 100..109) is added
to the ring that holds `cacheD` (slots 120..129). The successor slot of the new slot 100 is
120, owned by `cacheD`; the code computes the position 10 of that slot in the table, uses the
position as if it were a slot value, finds no owners for "slot 10", and makes no `Migrate`
call at all. -/
theorem addNode_migrates_at_search_index :
    Reachable leValue ringD ∧ Registered leValue ringD cacheD ∧ cacheA.rehash = true ∧
      (AddNode leValue ringD cacheA).ret = AddOutcome.ok ∧
      (120 ∈ (AddNode leValue ringD cacheA).state.vnodes ∧ 100 < 120 ∧
        120 ∉ nodeSlots leValue (hash32 leValue cacheA.Key) 10 ∧
        ∀ w ∈ (AddNode leValue ringD cacheA).state.vnodes,
          100 < w → w ∉ nodeSlots leValue (hash32 leValue cacheA.Key) 10 → 120 ≤ w) ∧
      ownersOf (AddNode leValue ringD cacheA).state 120 = [cacheD] ∧
      nextVNodeSlotID (AddNode leValue ringD cacheA).state.vnodes
        (nodeSlots leValue (hash32 leValue cacheA.Key) 10) 100 = Except.ok 10 ∧
      ownersOf (AddNode leValue ringD cacheA).state 10 = [] ∧
      (AddNode leValue ringD cacheA).migrations = [] :=
  ⟨Reachable.add New cacheD Reachable.new, by decide, rfl, by decide,
    by decide, by decide, rfl, by decide, by decide⟩

/-- C18 (the code at the failing input): under `leValue`, the cache `cacheD` is added to the
ring that holds the plain node `plainP`. The identity of `cacheD` is not registered, but the
call does not return `nil`: the migration loop reaches the owner `plainP` of the slot 100
and the assertion `nextNode.(RehashNode)` panics. -/
theorem addNode_panics_on_plain_owner :
    Reachable leValue ringP ∧ plainP.rehash = false ∧ cacheD.rehash = true ∧
      mapGet ringP.nodeIDMapNode (hash32 leValue cacheD.Key) = none ∧
      ownersOf (AddNode leValue ringP cacheD).state 100 = [plainP] ∧
      (AddNode leValue ringP cacheD).ret = AddOutcome.panic RuntimeError.typeAssertion :=
  ⟨Reachable.add New plainP Reachable.new, rfl, rfl, by decide, by decide, by decide⟩

/-- C14: when the hash of the key is not a key of the registry, `RemoveNode` returns the
ring as it was (slot table, ownership index and registry) and invokes no `Transfer`. -/
theorem removeNode_unknown_key_noop (hf : List Nat → Nat) (s : ConsistentHash)
    (nodeKey : List Nat) (h : mapGet s.nodeIDMapNode (hash32 hf nodeKey) = none) :
    (RemoveNode hf s nodeKey).state = s ∧ (RemoveNode hf s nodeKey).transfer = none := by
  rw [removeNode_of_unregistered hf s nodeKey h]
  exact ⟨rfl, rfl⟩

/-- The hypothesis of `removeNode_unknown_key_noop` holds on `ringAB` for the key `[7]`. -/
theorem removeNode_unknown_key_noop_witness :
    mapGet ringAB.nodeIDMapNode (hash32 leValue [7]) = none ∧
      (RemoveNode leValue ringAB [7]).state = ringAB ∧
      (RemoveNode leValue ringAB [7]).transfer = none :=
  ⟨by decide, removeNode_unknown_key_noop leValue ringAB [7] (by decide)⟩

theorem goMap_ne_nil_iff {α : Type} (m : GoMap α) :
    m ≠ [] ↔ ∃ k v, mapGet m k = some v := by
  constructor
  · intro h
    match m, h with
    | (k, v) :: rest, _ => exact ⟨k, v, by simp [mapGet]⟩
  · rintro ⟨k, v, hkv⟩ hnil
    rw [hnil] at hkv
    simp [mapGet] at hkv

/-! ## The default hash function -/

theorem fnv1aWrite_eq_fnvSpecFrom (data : List Nat) :
    ∀ h, fnv1aWrite h data = fnvSpecFrom h data := by
  induction data with
  | nil => intro h; rfl
  | cons b rest ih =>
    intro h
    simp only [fnv1aWrite, List.foldl_cons, fnvSpecFrom, prime32]
    exact ih _

/-- Every accumulator of a reachable pool holds the offset basis. -/
theorem poolReachable_reset (pool : Pool) (h : PoolReachable pool) :
    ∀ a ∈ pool, a = offset32 := by
  induction h with
  | init => intro a ha; exact absurd ha (List.not_mem_nil a)
  | call pool pick data _ ih =>
    intro a ha
    simp only [fnv1aCall, List.mem_cons] at ha
    rcases ha with ha | ha
    · exact ha
    · apply ih
      unfold poolGet at ha
      split at ha
      · exact List.mem_of_mem_eraseIdx ha
      · exact ha
  | drop pool i _ ih =>
    intro a ha
    exact ih a (List.mem_of_mem_eraseIdx ha)

theorem poolGet_reachable (pool : Pool) (h : PoolReachable pool) (pick : Nat) :
    (poolGet pool pick).1 = offset32 := by
  unfold poolGet
  split
  · rename_i a ha
    exact poolReachable_reset pool h a (List.mem_iff_get?.mpr ⟨pick, ha⟩)
  · rfl

/-- C15: on every pool that can arise, whichever accumulator the pool hands out, a call of
`Fnv1a` returns the 32-bit FNV-1a hash of the data as the specification words it; the hash
of the empty input is 2166136261, and two calls with the same data return the same value
whatever the pools and the accumulators picked. -/
theorem fnv1a_is_fnv1a32 (pool : Pool) (hpool : PoolReachable pool) (pick : Nat)
    (data : List Nat) :
    (fnv1aCall pool pick data).1 = fnvSpec data ∧
      (fnv1aCall pool pick []).1 = 2166136261 ∧
      Fnv1a data = fnvSpec data ∧
      ∀ pool2 pick2, PoolReachable pool2 →
        (fnv1aCall pool2 pick2 data).1 = (fnv1aCall pool pick data).1 := by
  have hcall : ∀ (p : Pool) (k : Nat) (d : List Nat), PoolReachable p →
      (fnv1aCall p k d).1 = fnvSpec d := by
    intro p k d hp
    simp only [fnv1aCall, fnv1aSum32]
    rw [poolGet_reachable p hp k, fnv1aWrite_eq_fnvSpecFrom]
    rfl
  refine ⟨hcall pool pick data hpool, ?_, hcall [] 0 data PoolReachable.init, ?_⟩
  · rw [hcall pool pick [] hpool]
    rfl
  · intro pool2 pick2 hp2
    rw [hcall pool2 pick2 data hp2, hcall pool pick data hpool]

/-- The hypothesis of `fnv1a_is_fnv1a32` holds on the pool left by a first call. -/
theorem fnv1a_is_fnv1a32_witness :
    PoolReachable (fnv1aCall [] 0 [1, 2]).2 ∧
      (fnv1aCall (fnv1aCall [] 0 [1, 2]).2 0 [97]).1 = fnvSpec [97] :=
  ⟨PoolReachable.call [] 0 [1, 2] PoolReachable.init,
    (fnv1a_is_fnv1a32 (fnv1aCall [] 0 [1, 2]).2
      (PoolReachable.call [] 0 [1, 2] PoolReachable.init) 0 [97]).1⟩

/-! ## Rings built by AddNode alone -/

theorem addNodeState_index (hf : List Nat → Nat) (s : ConsistentHash) (node : Node) (k : Nat) :
    mapGet (addNodeState hf s node).vNodeMapActNodes k =
      if List.count k (nodeSlots hf (hash32 hf node.Key) s.virtualNodeCount) = 0 then
        mapGet s.vNodeMapActNodes k
      else some (ownersOf s k ++ List.replicate
        (List.count k (nodeSlots hf (hash32 hf node.Key) s.virtualNodeCount)) node) := by
  simp only [addNodeState, addVNodes, nodeSlots, ownersOf]
  rw [foldl_addVNode_index]

theorem addNodeState_keysInTable (hf : List Nat → Nat) (s : ConsistentHash) (node : Node)
    (hk : KeysInTable s) : KeysInTable (addNodeState hf s node) := by
  intro k hne
  rw [addNodeState_mem_vnodes]
  by_cases hold : mapGet s.vNodeMapActNodes k = none
  · right
    refine ⟨?_, hold⟩
    by_contra hnot
    apply hne
    rw [addNodeState_index, if_pos (List.count_eq_zero.mpr hnot)]
    exact hold
  · exact Or.inl (hk k hold)

theorem addNodeState_virtualNodeCount (hf : List Nat → Nat) (s : ConsistentHash) (node : Node) :
    (addNodeState hf s node).virtualNodeCount = s.virtualNodeCount := rfl

theorem addNodeState_mem_vnodes_of_keysInTable (hf : List Nat → Nat) (s : ConsistentHash)
    (node : Node) (hk : KeysInTable s) (k : Nat) :
    k ∈ (addNodeState hf s node).vnodes ↔
      k ∈ s.vnodes ∨ k ∈ nodeSlots hf (hash32 hf node.Key) s.virtualNodeCount := by
  rw [addNodeState_mem_vnodes]
  constructor
  · rintro (h | ⟨h, _⟩)
    · exact Or.inl h
    · exact Or.inr h
  · rintro (h | h)
    · exact Or.inl h
    · by_cases hold : mapGet s.vNodeMapActNodes k = none
      · exact Or.inr ⟨h, hold⟩
      · exact Or.inl (hk k hold)

theorem addNodes_cons (hf : List Nat → Nat) (s : ConsistentHash) (n : Node) (rest : List Node) :
    addNodes hf s (n :: rest) = addNodes hf (AddNode hf s n).state rest := rfl

/-- The table and the owner lists of a ring built by adding nodes with fresh, pairwise
distinct identities. -/
theorem addNodes_spec (hf : List Nat → Nat) :
    ∀ (ns : List Node) (s : ConsistentHash),
      RingInv s → KeysInTable s →
      (ns.map (fun n => hash32 hf n.Key)).Nodup →
      (∀ n ∈ ns, mapGet s.nodeIDMapNode (hash32 hf n.Key) = none) →
      RingInv (addNodes hf s ns) ∧ KeysInTable (addNodes hf s ns) ∧
        (addNodes hf s ns).virtualNodeCount = s.virtualNodeCount ∧
        (∀ k, k ∈ (addNodes hf s ns).vnodes ↔
          k ∈ s.vnodes ∨ ∃ n ∈ ns, k ∈ nodeSlots hf (hash32 hf n.Key) s.virtualNodeCount) ∧
        (∀ k m, m ∈ ownersOf (addNodes hf s ns) k →
          m ∈ ownersOf s k ∨
            (m ∈ ns ∧ k ∈ nodeSlots hf (hash32 hf m.Key) s.virtualNodeCount)) := by
  intro ns
  induction ns with
  | nil =>
    intro s hinv hk _ _
    refine ⟨hinv, hk, rfl, ?_, ?_⟩
    · intro k
      simp [addNodes]
    · intro k m hm
      exact Or.inl hm
  | cons n rest ih =>
    intro s hinv hk hnd hfresh
    simp only [List.map_cons, List.nodup_cons] at hnd
    have hn := hfresh n (List.mem_cons_self n rest)
    have hstate := (addNode_of_fresh hf s n hn).1
    rw [addNodes_cons, hstate]
    have hfresh1 : ∀ m ∈ rest,
        mapGet (addNodeState hf s n).nodeIDMapNode (hash32 hf m.Key) = none := by
      intro m hm
      have hne : hash32 hf m.Key ≠ hash32 hf n.Key := by
        intro he
        apply hnd.1
        rw [← he]
        exact List.mem_map_of_mem (fun n => hash32 hf n.Key) hm
      simp only [addNodeState, mapGet_mapSet, if_neg hne]
      exact hfresh m (List.mem_cons_of_mem n hm)
    obtain ⟨h1, h2, h3, h4, h5⟩ := ih (addNodeState hf s n) (addNodeState_ringInv hf s n hinv)
      (addNodeState_keysInTable hf s n hk) hnd.2 hfresh1
    rw [addNodeState_virtualNodeCount] at h3 h4 h5
    refine ⟨h1, h2, h3, ?_, ?_⟩
    · intro k
      rw [h4, addNodeState_mem_vnodes_of_keysInTable hf s n hk]
      constructor
      · rintro ((h | h) | ⟨m, hm, h⟩)
        · exact Or.inl h
        · exact Or.inr ⟨n, List.mem_cons_self n rest, h⟩
        · exact Or.inr ⟨m, List.mem_cons_of_mem n hm, h⟩
      · rintro (h | ⟨m, hm, h⟩)
        · exact Or.inl (Or.inl h)
        · rcases List.mem_cons.mp hm with rfl | hm
          · exact Or.inl (Or.inr h)
          · exact Or.inr ⟨m, hm, h⟩
    · intro k m hm
      rcases h5 k m hm with h | ⟨h, hs⟩
      · rw [addNodeState_ownersOf] at h
        rcases List.mem_append.mp h with h | h
        · exact Or.inl h
        · right
          have hmn : m = n := List.eq_of_mem_replicate h
          subst hmn
          refine ⟨List.mem_cons_self m rest, ?_⟩
          by_contra hnot
          rw [List.count_eq_zero.mpr hnot] at h
          simp at h
      · exact Or.inr ⟨List.mem_cons_of_mem n h, hs⟩

theorem ringInv_new : RingInv New :=
  ⟨List.sorted_nil, fun v hv => absurd hv (List.not_mem_nil v)⟩

theorem keysInTable_new : KeysInTable New := by
  intro k hne
  simp [New, mapGet] at hne

/-- C13 (as stated, at a concrete input): under `leValue` the caches `cacheA` and `cacheB`
have the distinct identities 100 and 101 and share the slot 105. Added in the order A, B the
owner list of that slot is `[cacheA, cacheB]` and the key `[105]` goes to `cacheB`; added in
the order B, A the list is `[cacheB, cacheA]` and the same key goes to `cacheA`. -/
theorem getNode_depends_on_insertion_order :
    ([cacheA, cacheB].map (fun n => hash32 leValue n.Key)).Nodup ∧
      List.Perm [cacheA, cacheB] [cacheB, cacheA] ∧
      ownersOf (addNodes leValue New [cacheA, cacheB]) 105 = [cacheA, cacheB] ∧
      ownersOf (addNodes leValue New [cacheB, cacheA]) 105 = [cacheB, cacheA] ∧
      GetNode leValue (addNodes leValue New [cacheA, cacheB]) [105] = Lookup.found cacheB ∧
      GetNode leValue (addNodes leValue New [cacheB, cacheA]) [105] = Lookup.found cacheA ∧
      GetNode leValue (addNodes leValue New [cacheA, cacheB]) [105] ≠
        GetNode leValue (addNodes leValue New [cacheB, cacheA]) [105] :=
  ⟨by decide, List.Perm.swap cacheB cacheA [], by decide, by decide, by decide, by decide,
    by decide⟩

/-- C13 (amended): for nodes with pairwise distinct identities no two of which share a slot
value, the rings built from `New` by adding them in two different orders return the same
result from `GetNode` for every key. -/
theorem getNode_order_independent (hf : List Nat → Nat) (ns ms : List Node)
    (nodeKey : List Nat) (hperm : List.Perm ns ms)
    (hids : (ns.map (fun n => hash32 hf n.Key)).Nodup)
    (hdisj : ∀ n ∈ ns, ∀ m ∈ ns, n ≠ m →
      ∀ v ∈ nodeSlots hf (hash32 hf n.Key) 10, v ∉ nodeSlots hf (hash32 hf m.Key) 10) :
    GetNode hf (addNodes hf New ns) nodeKey = GetNode hf (addNodes hf New ms) nodeKey := by
  have hids2 : (ms.map (fun n => hash32 hf n.Key)).Nodup :=
    (List.Perm.nodup_iff (List.Perm.map _ hperm)).mp hids
  obtain ⟨hi1, _, _, hv1, ho1⟩ := addNodes_spec hf ns New ringInv_new keysInTable_new hids
    (fun _ _ => rfl)
  obtain ⟨hi2, _, _, hv2, ho2⟩ := addNodes_spec hf ms New ringInv_new keysInTable_new hids2
    (fun _ _ => rfl)
  have hsame : ∀ k, k ∈ (addNodes hf New ns).vnodes ↔ k ∈ (addNodes hf New ms).vnodes := by
    intro k
    rw [hv1, hv2]
    constructor
    · rintro (h | ⟨n, hn, h⟩)
      · exact Or.inl h
      · exact Or.inr ⟨n, (List.Perm.mem_iff hperm).mp hn, h⟩
    · rintro (h | ⟨n, hn, h⟩)
      · exact Or.inl h
      · exact Or.inr ⟨n, (List.Perm.mem_iff hperm).mpr hn, h⟩
  by_cases hne : (addNodes hf New ns).vnodes = []
  · have hne2 : (addNodes hf New ms).vnodes = [] := by
      apply List.eq_nil_iff_forall_not_mem.mpr
      intro k hk
      have := (hsame k).mpr hk
      rw [hne] at this
      exact List.not_mem_nil k this
    rw [getNode_of_empty_table hf _ nodeKey hne, getNode_of_empty_table hf _ nodeKey hne2]
  · obtain ⟨v, hslot, hown, hget⟩ := getNode_eq_pickOwner hf _ nodeKey hi1 hne
    have hvm : v ∈ (addNodes hf New ms).vnodes := (hsame v).mp hslot.1
    obtain ⟨w, hslot2, hown2, hget2⟩ :=
      getNode_eq_pickOwner hf _ nodeKey hi2 (List.ne_nil_of_mem hvm)
    have hslot2' : IsRingSlot (addNodes hf New ns).vnodes (hash32 hf nodeKey) w :=
      isRingSlot_of_subset hslot2 ((hsame w).mpr hslot2.1) (fun u hu => (hsame u).mp hu)
    have hwv : w = v := isRingSlot_unique hslot2' hslot
    subst hwv
    obtain ⟨a, hpa, hma, _⟩ := pickOwner_found hown (hash32 hf nodeKey)
    obtain ⟨b, hpb, hmb, _⟩ := pickOwner_found hown2 (hash32 hf nodeKey)
    rw [hget, hget2, hpa, hpb]
    have ha : a ∈ ns ∧ w ∈ nodeSlots hf (hash32 hf a.Key) 10 := by
      rcases ho1 w a hma with h | h
      · simp [ownersOf, New, mapGet] at h
      · exact h
    have hb : b ∈ ns ∧ w ∈ nodeSlots hf (hash32 hf b.Key) 10 := by
      rcases ho2 w b hmb with h | h
      · simp [ownersOf, New, mapGet] at h
      · exact ⟨(List.Perm.mem_iff hperm).mpr h.1, h.2⟩
    by_cases hab : a = b
    · rw [hab]
    · exact absurd hb.2 (hdisj a ha.1 b hb.1 hab w ha.2)

/-- The hypotheses of `getNode_order_independent` hold for `cacheA` and `cacheD`, whose
slots `100..109` and `120..129` are apart. -/
theorem getNode_order_independent_witness :
    List.Perm [cacheA, cacheD] [cacheD, cacheA] ∧
      ([cacheA, cacheD].map (fun n => hash32 leValue n.Key)).Nodup ∧
      (∀ n ∈ [cacheA, cacheD], ∀ m ∈ [cacheA, cacheD], n ≠ m →
        ∀ v ∈ nodeSlots leValue (hash32 leValue n.Key) 10,
          v ∉ nodeSlots leValue (hash32 leValue m.Key) 10) ∧
      GetNode leValue (addNodes leValue New [cacheA, cacheD]) [115] =
        GetNode leValue (addNodes leValue New [cacheD, cacheA]) [115] :=
  ⟨List.Perm.swap cacheD cacheA [], by decide, by decide,
    getNode_order_independent leValue [cacheA, cacheD] [cacheD, cacheA] [115]
      (List.Perm.swap cacheD cacheA []) (by decide) (by decide)⟩

/-! ## Rings of nodes whose replicas never collide -/

theorem removeNode_congr (hf : List Nat → Nat) (s : ConsistentHash) (k1 k2 : List Nat)
    (h : hash32 hf k1 = hash32 hf k2) : RemoveNode hf s k1 = RemoveNode hf s k2 := by
  unfold RemoveNode
  rw [h]

theorem removeNode_collisionFree_index (hf : List Nat → Nat) (s : ConsistentHash) (x : Node)
    (hcf : CollisionFree hf s) (hx : Registered hf s x) (k : Nat) :
    mapGet (RemoveNode hf s x.Key).state.vNodeMapActNodes k =
      if k ∈ nodeSlots hf (hash32 hf x.Key) s.virtualNodeCount then none
      else mapGet s.vNodeMapActNodes k := by
  rw [removeNode_state hf s x.Key x hx (removeVNodes_of_collisionFree hf s x hcf hx)]
  have hall : ∀ i ∈ List.range s.virtualNodeCount,
      vNodeSlot hf (hash32 hf x.Key) i ∈ s.vnodes ∧
        (mapGet s.vNodeMapActNodes (vNodeSlot hf (hash32 hf x.Key) i)).getD [] = [x] := by
    intro i hi
    exact hcf.2.1 x hx _ (List.mem_map_of_mem _ hi)
  obtain ⟨_, hi⟩ := foldl_removeVNode_sole hf x (hash32 hf x.Key)
    (List.range s.virtualNodeCount) { vnodes := s.vnodes, index := s.vNodeMapActNodes }
    hcf.1 (hcf.2.2.1 x hx) hall
  simp only [removeVNodesOk]
  rw [hi]
  rfl

theorem nodeSlots_nodup_of_distinct (hf : List Nat → Nat) (P : Node → Prop)
    (hd : DistinctReplicas hf P) (n : Node) (hn : P n) :
    (nodeSlots hf (hash32 hf n.Key) 10).Nodup := by
  unfold nodeSlots
  apply List.Nodup.map_on _ (List.nodup_range 10)
  intro i hi j hj hij
  exact (hd n n hn hn i (List.mem_range.mp hi) j (List.mem_range.mp hj) hij).2

theorem nodeSlots_disjoint_of_distinct (hf : List Nat → Nat) (P : Node → Prop)
    (hd : DistinctReplicas hf P) (n m : Node) (hn : P n) (hm : P m) (v : Nat)
    (hvn : v ∈ nodeSlots hf (hash32 hf n.Key) 10)
    (hvm : v ∈ nodeSlots hf (hash32 hf m.Key) 10) :
    hash32 hf n.Key = hash32 hf m.Key := by
  unfold nodeSlots at hvn hvm
  obtain ⟨i, hi, hiv⟩ := List.mem_map.mp hvn
  obtain ⟨j, hj, hjv⟩ := List.mem_map.mp hvm
  exact (hd n m hn hm i (List.mem_range.mp hi) j (List.mem_range.mp hj) (hiv.trans hjv.symm)).1

/-- The invariant of rings whose nodes have pairwise distinct replicas. -/
theorem addNodeState_collisionFree (hf : List Nat → Nat) (P : Node → Prop)
    (hd : DistinctReplicas hf P) (s : ConsistentHash) (node : Node) (hP : P node)
    (hV : s.virtualNodeCount = 10) (hcf : CollisionFree hf s) (hk : KeysInTable s)
    (hPs : ∀ n, Registered hf s n → P n)
    (hfresh : mapGet s.nodeIDMapNode (hash32 hf node.Key) = none) :
    CollisionFree hf (addNodeState hf s node) ∧
      ∀ n, Registered hf (addNodeState hf s node) n → P n := by
  have hreg : ∀ n, Registered hf (addNodeState hf s node) n ↔ (n = node ∨ Registered hf s n) := by
    intro n
    unfold Registered
    simp only [addNodeState, mapGet_mapSet]
    by_cases hid : hash32 hf n.Key = hash32 hf node.Key
    · rw [if_pos hid]
      constructor
      · intro h
        left
        injection h with h
        exact h.symm
      · rintro (h | h)
        · rw [h]
        · rw [hid, hfresh] at h
          exact absurd h (by simp)
    · rw [if_neg hid]
      constructor
      · intro h
        exact Or.inr h
      · rintro (h | h)
        · exact absurd (by rw [h]) hid
        · exact h
  have hdisj : ∀ m, Registered hf s m → ∀ v ∈ nodeSlots hf (hash32 hf m.Key) 10,
      v ∉ nodeSlots hf (hash32 hf node.Key) 10 := by
    intro m hm v hvm hvn
    have hid := nodeSlots_disjoint_of_distinct hf P hd m node (hPs m hm) hP v hvm hvn
    unfold Registered at hm
    rw [hid, hfresh] at hm
    exact absurd hm (by simp)
  have hnone : ∀ v ∈ nodeSlots hf (hash32 hf node.Key) 10, mapGet s.vNodeMapActNodes v = none := by
    intro v hv
    by_contra hne
    obtain ⟨m, hm, hvm⟩ := hcf.2.2.2 v (hk v hne)
    rw [hV] at hvm
    exact hdisj m hm v hvm hv
  have hnd := nodeSlots_nodup_of_distinct hf P hd node hP
  have hinv := addNodeState_ringInv hf s node (collisionFree_ringInv hf s hcf)
  refine ⟨⟨hinv.1, ?_, ?_, ?_⟩, ?_⟩
  · intro n hn v hv
    rw [addNodeState_virtualNodeCount, hV] at hv
    rw [addNodeState_mem_vnodes_of_keysInTable hf s node hk, addNodeState_ownersOf, hV]
    rcases (hreg n).mp hn with rfl | hold
    · refine ⟨Or.inr hv, ?_⟩
      have hempty : ownersOf s v = [] := by simp [ownersOf, hnone v hv]
      rw [hempty, List.count_eq_one_of_mem hnd hv]
      rfl
    · have hs := hcf.2.1 n hold v (by rw [hV]; exact hv)
      refine ⟨Or.inl hs.1, ?_⟩
      rw [hs.2, List.count_eq_zero.mpr (hdisj n hold v hv)]
      rfl
  · intro n hn
    rw [addNodeState_virtualNodeCount, hV]
    rcases (hreg n).mp hn with rfl | hold
    · exact hnd
    · have := hcf.2.2.1 n hold
      rwa [hV] at this
  · intro v hv
    rw [addNodeState_virtualNodeCount]
    rcases (addNodeState_mem_vnodes_of_keysInTable hf s node hk v).mp hv with h | h
    · obtain ⟨m, hm, hvm⟩ := hcf.2.2.2 v h
      exact ⟨m, (hreg m).mpr (Or.inr hm), hvm⟩
    · exact ⟨node, (hreg node).mpr (Or.inl rfl), h⟩
  · intro n hn
    rcases (hreg n).mp hn with rfl | hold
    · exact hP
    · exact hPs n hold

theorem addNodeState_registryConsistent (hf : List Nat → Nat) (s : ConsistentHash)
    (node : Node) (hrc : RegistryConsistent hf s) :
    RegistryConsistent hf (addNodeState hf s node) := by
  intro id n h
  simp only [addNodeState, mapGet_mapSet] at h
  by_cases hid : id = hash32 hf node.Key
  · rw [if_pos hid] at h
    injection h with h
    rw [← h, hid]
  · rw [if_neg hid] at h
    exact hrc id n h

theorem removeNode_collisionFree_preserved (hf : List Nat → Nat) (s : ConsistentHash)
    (x : Node) (hcf : CollisionFree hf s) (hk : KeysInTable s)
    (hx : Registered hf s x) :
    CollisionFree hf (RemoveNode hf s x.Key).state ∧
      KeysInTable (RemoveNode hf s x.Key).state ∧
      (∀ n, Registered hf (RemoveNode hf s x.Key).state n → Registered hf s n) := by
  obtain ⟨hinv, hv, ho, hr⟩ := removeNode_collisionFree hf s x hcf hx
  have hVeq : (RemoveNode hf s x.Key).state.virtualNodeCount = s.virtualNodeCount :=
    (removeNode_state_parts hf s x.Key x hx).1
  have hreg : ∀ n, Registered hf (RemoveNode hf s x.Key).state n →
      Registered hf s n ∧ n ≠ x := by
    intro n hn
    unfold Registered at hn hx ⊢
    rw [hr, mapGet_mapDel] at hn
    by_cases hid : hash32 hf n.Key = hash32 hf x.Key
    · rw [if_pos hid] at hn
      exact absurd hn (by simp)
    · rw [if_neg hid] at hn
      exact ⟨hn, fun h => hid (by rw [h])⟩
  have hreg2 : ∀ n, Registered hf s n → n ≠ x → Registered hf (RemoveNode hf s x.Key).state n := by
    intro n hn hne
    unfold Registered at hn hx ⊢
    rw [hr, mapGet_mapDel]
    have hid : hash32 hf n.Key ≠ hash32 hf x.Key := by
      intro hid
      rw [hid, hx] at hn
      injection hn with hn
      exact hne hn.symm
    rw [if_neg hid]
    exact hn
  have hnotx : ∀ n, Registered hf s n → n ≠ x →
      ∀ v ∈ nodeSlots hf (hash32 hf n.Key) s.virtualNodeCount,
        v ∉ nodeSlots hf (hash32 hf x.Key) s.virtualNodeCount := by
    intro n hn hne v hvn hvx
    have h1 := (hcf.2.1 n hn v hvn).2
    have h2 := (hcf.2.1 x hx v hvx).2
    rw [h1] at h2
    injection h2 with h2
    exact hne h2
  refine ⟨⟨hinv.1, ?_, ?_, ?_⟩, ?_, fun n hn => (hreg n hn).1⟩
  · intro n hn v hvn
    rw [hVeq] at hvn
    obtain ⟨hns, hne⟩ := hreg n hn
    have hvx := hnotx n hns hne v hvn
    have hs := hcf.2.1 n hns v hvn
    exact ⟨(hv v).mpr ⟨hs.1, hvx⟩, by rw [ho, if_neg hvx]; exact hs.2⟩
  · intro n hn
    rw [hVeq]
    exact hcf.2.2.1 n (hreg n hn).1
  · intro v hvmem
    rw [hVeq]
    obtain ⟨hvs, hvx⟩ := (hv v).mp hvmem
    obtain ⟨m, hm, hvm⟩ := hcf.2.2.2 v hvs
    have hmx : m ≠ x := by
      intro h
      rw [h] at hvm
      exact hvx hvm
    exact ⟨m, hreg2 m hm hmx, hvm⟩
  · intro k hne
    rw [removeNode_collisionFree_index hf s x hcf hx] at hne
    by_cases hkx : k ∈ nodeSlots hf (hash32 hf x.Key) s.virtualNodeCount
    · rw [if_pos hkx] at hne
      exact absurd rfl hne
    · rw [if_neg hkx] at hne
      exact (hv k).mpr ⟨hk k hne, hkx⟩

theorem removeNode_registryConsistent (hf : List Nat → Nat) (s : ConsistentHash)
    (nodeKey : List Nat) (hrc : RegistryConsistent hf s) :
    RegistryConsistent hf (RemoveNode hf s nodeKey).state := by
  cases hm : mapGet s.nodeIDMapNode (hash32 hf nodeKey) with
  | none =>
    rw [removeNode_of_unregistered hf s nodeKey hm]
    exact hrc
  | some node =>
    intro id n h
    rw [(removeNode_state_parts hf s nodeKey node hm).2.2.2.1] at h
    simp only [mapGet_mapDel] at h
    by_cases hid : id = hash32 hf nodeKey
    · rw [if_pos hid] at h
      exact absurd h (by simp)
    · rw [if_neg hid] at h
      exact hrc id n h

theorem removeNode_virtualNodeCount (hf : List Nat → Nat) (s : ConsistentHash)
    (nodeKey : List Nat) :
    (RemoveNode hf s nodeKey).state.virtualNodeCount = s.virtualNodeCount := by
  cases hm : mapGet s.nodeIDMapNode (hash32 hf nodeKey) with
  | none => rw [removeNode_of_unregistered hf s nodeKey hm]
  | some node => exact (removeNode_state_parts hf s nodeKey node hm).1

/-- On the rings of nodes whose replicas never collide: ten replicas per node, no slot
collisions, every index key in the table, a consistent registry of nodes from `P`. -/
theorem reachableWith_collisionFree (hf : List Nat → Nat) (P : Node → Prop)
    (hd : DistinctReplicas hf P) (s : ConsistentHash) (h : ReachableWith hf P s) :
    s.virtualNodeCount = 10 ∧ CollisionFree hf s ∧ KeysInTable s ∧
      RegistryConsistent hf s ∧ ∀ n, Registered hf s n → P n := by
  induction h with
  | new =>
    refine ⟨rfl, ⟨List.sorted_nil, ?_, ?_, ?_⟩, keysInTable_new, ?_, ?_⟩
    · intro n hn
      simp [Registered, New, mapGet] at hn
    · intro n hn
      simp [Registered, New, mapGet] at hn
    · intro v hv
      exact absurd hv (List.not_mem_nil v)
    · intro id n hn
      simp [New, mapGet] at hn
    · intro n hn
      simp [Registered, New, mapGet] at hn
  | add s node hP _ ih =>
    obtain ⟨hV, hcf, hk, hrc, hPs⟩ := ih
    cases hm : mapGet s.nodeIDMapNode (hash32 hf node.Key) with
    | some n =>
      rw [addNode_of_registered hf s node (by simp [hm])]
      exact ⟨hV, hcf, hk, hrc, hPs⟩
    | none =>
      rw [(addNode_of_fresh hf s node hm).1]
      obtain ⟨h1, h2⟩ := addNodeState_collisionFree hf P hd s node hP hV hcf hk hPs hm
      exact ⟨hV, h1, addNodeState_keysInTable hf s node hk,
        addNodeState_registryConsistent hf s node hrc, h2⟩
  | remove s nodeKey _ ih =>
    obtain ⟨hV, hcf, hk, hrc, hPs⟩ := ih
    refine ⟨by rw [removeNode_virtualNodeCount]; exact hV, ?_⟩
    cases hm : mapGet s.nodeIDMapNode (hash32 hf nodeKey) with
    | none =>
      rw [removeNode_of_unregistered hf s nodeKey hm]
      exact ⟨hcf, hk, hrc, hPs⟩
    | some x =>
      have hid := hrc _ x hm
      have hx : Registered hf s x := by
        unfold Registered
        rw [hid]
        exact hm
      rw [removeNode_congr hf s nodeKey x.Key hid.symm]
      obtain ⟨h1, h2, h3⟩ := removeNode_collisionFree_preserved hf s x hcf hk hx
      exact ⟨h1, h2, removeNode_registryConsistent hf s x.Key hrc, fun n hn => hPs n (h3 n hn)⟩

/-- C19: when the hash function gives pairwise distinct slot values to all the replicas of
all the nodes ever added, then on every ring reachable by `AddNode` and `RemoveNode` calls,
after `RemoveNode` of a registered node `x` every key that `GetNode` gave to a node other
than `x` is still given to that node. -/
theorem removeNode_minimal_movement (hf : List Nat → Nat) (P : Node → Prop)
    (s : ConsistentHash) (x y : Node) (nodeKey : List Nat)
    (hd : DistinctReplicas hf P) (hreach : ReachableWith hf P s)
    (hx : Registered hf s x) (hget : GetNode hf s nodeKey = Lookup.found y) (hyx : y ≠ x) :
    GetNode hf (RemoveNode hf s x.Key).state nodeKey = Lookup.found y :=
  removeNode_keeps_other_owner hf s x y nodeKey
    (reachableWith_collisionFree hf P hd s hreach).2.1 hx hget hyx

theorem distinctReplicas_cacheA_cacheD : DistinctReplicas leValue IsCacheAOrD := by
  intro n m hn hm
  rcases hn with rfl | rfl <;> rcases hm with rfl | rfl <;> decide

/-- The hypotheses of `removeNode_minimal_movement` hold on `ringAD`, built from `cacheA`
and `cacheD`, for the removal of `cacheD` and the key `[105]` of `cacheA`. -/
theorem removeNode_minimal_movement_witness :
    DistinctReplicas leValue IsCacheAOrD ∧ ReachableWith leValue IsCacheAOrD ringAD ∧
      Registered leValue ringAD cacheD ∧
      GetNode leValue ringAD [105] = Lookup.found cacheA ∧ cacheA ≠ cacheD ∧
      GetNode leValue (RemoveNode leValue ringAD cacheD.Key).state [105] = Lookup.found cacheA :=
  ⟨distinctReplicas_cacheA_cacheD,
    ReachableWith.add ringA cacheD (Or.inr rfl)
      (ReachableWith.add New cacheA (Or.inl rfl) ReachableWith.new),
    by decide, by decide, by decide,
    removeNode_minimal_movement leValue IsCacheAOrD ringAD cacheD cacheA [105]
      distinctReplicas_cacheA_cacheD
      (ReachableWith.add ringA cacheD (Or.inr rfl)
        (ReachableWith.add New cacheA (Or.inl rfl) ReachableWith.new))
      (by decide) (by decide) (by decide)⟩

/-! ## What the slot loop of RemoveNode does to the owner lists, in general -/

theorem removeVNode_index_other (hf : List Nat → Nat) (node : Node) (nodeID : Nat)
    (acc : RemoveAcc) (i k : Nat) (hk : k ≠ vNodeSlot hf nodeID i) :
    mapGet (removeVNodeOk hf node nodeID acc i).index k = mapGet acc.index k := by
  unfold removeVNodeOk
  simp only
  split
  · split
    · simp only [mapGet_mapSet, if_neg hk]
    · rfl
  · split
    · simp only [mapGet_mapDel, if_neg hk]
    · simp only [mapGet_mapDel, if_neg hk]

theorem removeVNode_sublist (hf : List Nat → Nat) (node : Node) (nodeID : Nat)
    (acc : RemoveAcc) (i k : Nat) :
    List.Sublist ((mapGet (removeVNodeOk hf node nodeID acc i).index k).getD [])
      ((mapGet acc.index k).getD []) := by
  by_cases hk : k = vNodeSlot hf nodeID i
  · subst hk
    unfold removeVNodeOk
    simp only
    split
    · split
      · simp only [mapGet_mapSet, if_true, Option.getD_some]
        exact List.filter_sublist _
      · exact List.Sublist.refl _
    · split
      · simp only [mapGet_mapDel, if_true, Option.getD_none]
        exact List.nil_sublist _
      · simp only [mapGet_mapDel, if_true, Option.getD_none]
        exact List.nil_sublist _
  · rw [removeVNode_index_other hf node nodeID acc i k hk]

theorem removeVNode_clears (hf : List Nat → Nat) (node : Node) (nodeID : Nat)
    (acc : RemoveAcc) (i : Nat)
    (hc : List.count node ((mapGet acc.index (vNodeSlot hf nodeID i)).getD []) ≤ 1) :
    node ∉ (mapGet (removeVNodeOk hf node nodeID acc i).index (vNodeSlot hf nodeID i)).getD [] := by
  unfold removeVNodeOk
  simp only
  split
  · rename_i hlen
    split
    · simp only [mapGet_mapSet, if_true, Option.getD_some]
      intro hmem
      have := (List.mem_filter.mp hmem).2
      simp at this
    · rename_i hnew
      exfalso
      have hnil : List.filter (fun v => decide (v ≠ node))
          ((mapGet acc.index (vNodeSlot hf nodeID i)).getD []) = [] := by
        apply List.eq_nil_of_length_eq_zero
        omega
      have hall : ∀ a ∈ (mapGet acc.index (vNodeSlot hf nodeID i)).getD [], a = node := by
        intro a ha
        have := (List.filter_eq_nil_iff.mp hnil) a ha
        simpa using this
      have hcount : List.count node ((mapGet acc.index (vNodeSlot hf nodeID i)).getD []) =
          ((mapGet acc.index (vNodeSlot hf nodeID i)).getD []).length :=
        List.count_eq_length.mpr (fun a ha => (hall a ha).symm)
      omega
  · split
    · simp only [mapGet_mapDel, if_true, Option.getD_none]
      exact List.not_mem_nil node
    · simp only [mapGet_mapDel, if_true, Option.getD_none]
      exact List.not_mem_nil node

theorem removeVNode_nonEmpty (hf : List Nat → Nat) (node : Node) (nodeID : Nat)
    (acc : RemoveAcc) (i : Nat)
    (h : ∀ k nodes, mapGet acc.index k = some nodes → nodes ≠ []) :
    ∀ k nodes, mapGet (removeVNodeOk hf node nodeID acc i).index k = some nodes → nodes ≠ [] := by
  intro k nodes
  unfold removeVNodeOk
  simp only
  split
  · split
    · rename_i hnew
      simp only [mapGet_mapSet]
      by_cases hk : k = vNodeSlot hf nodeID i
      · rw [if_pos hk]
        intro he
        injection he with he
        rw [← he]
        exact List.ne_nil_of_length_pos hnew
      · rw [if_neg hk]
        exact h k nodes
    · exact h k nodes
  · split
    · simp only [mapGet_mapDel]
      by_cases hk : k = vNodeSlot hf nodeID i
      · rw [if_pos hk]
        intro he
        exact absurd he (by simp)
      · rw [if_neg hk]
        exact h k nodes
    · simp only [mapGet_mapDel]
      by_cases hk : k = vNodeSlot hf nodeID i
      · rw [if_pos hk]
        intro he
        exact absurd he (by simp)
      · rw [if_neg hk]
        exact h k nodes

theorem foldl_removeVNode_sublist (hf : List Nat → Nat) (node : Node) (nodeID : Nat) :
    ∀ (is : List Nat) (acc : RemoveAcc) (k : Nat),
      List.Sublist ((mapGet (is.foldl (removeVNodeOk hf node nodeID) acc).index k).getD [])
        ((mapGet acc.index k).getD []) := by
  intro is
  induction is with
  | nil => intro acc k; exact List.Sublist.refl _
  | cons i rest ih =>
    intro acc k
    simp only [List.foldl_cons]
    exact List.Sublist.trans (ih _ k) (removeVNode_sublist hf node nodeID acc i k)

theorem foldl_removeVNode_clears (hf : List Nat → Nat) (node : Node) (nodeID : Nat) :
    ∀ (is : List Nat) (acc : RemoveAcc) (k : Nat),
      k ∈ is.map (vNodeSlot hf nodeID) →
      List.count node ((mapGet acc.index k).getD []) ≤ 1 →
      node ∉ (mapGet (is.foldl (removeVNodeOk hf node nodeID) acc).index k).getD [] := by
  intro is
  induction is with
  | nil => intro acc k hk; simp at hk
  | cons i rest ih =>
    intro acc k hk hc
    simp only [List.foldl_cons]
    by_cases hki : k = vNodeSlot hf nodeID i
    · subst hki
      intro hmem
      have hsub := foldl_removeVNode_sublist hf node nodeID rest
        (removeVNodeOk hf node nodeID acc i) (vNodeSlot hf nodeID i)
      exact removeVNode_clears hf node nodeID acc i hc (List.Sublist.subset hsub hmem)
    · simp only [List.map_cons, List.mem_cons] at hk
      rcases hk with hk | hk
      · exact absurd hk hki
      · apply ih _ k hk
        rw [removeVNode_index_other hf node nodeID acc i k hki]
        exact hc

/-- `RemoveNode` only shortens owner lists. -/
theorem removeNode_ownersOf_sublist (hf : List Nat → Nat) (s : ConsistentHash)
    (nodeKey : List Nat) (k : Nat) :
    List.Sublist (ownersOf (RemoveNode hf s nodeKey).state k) (ownersOf s k) := by
  cases hm : mapGet s.nodeIDMapNode (hash32 hf nodeKey) with
  | none =>
    rw [removeNode_of_unregistered hf s nodeKey hm]
  | some node =>
    obtain ⟨_, h, _⟩ := removeVNodesFrom_induct hf node (hash32 hf nodeKey)
      (fun _ acc => List.Sublist ((mapGet acc.index k).getD []) (ownersOf s k))
      (fun i _ acc hp _ =>
        List.Sublist.trans (removeVNode_sublist hf node (hash32 hf nodeKey) acc i k) hp)
      (List.range s.virtualNodeCount)
      { vnodes := s.vnodes, index := s.vNodeMapActNodes } (List.Sublist.refl _)
    unfold ownersOf
    rw [(removeNode_state_parts hf s nodeKey node hm).2.2.1]
    exact h

theorem removeNode_nonEmptyLists (hf : List Nat → Nat) (s : ConsistentHash)
    (nodeKey : List Nat) (h : NonEmptyLists s) : NonEmptyLists (RemoveNode hf s nodeKey).state := by
  cases hm : mapGet s.nodeIDMapNode (hash32 hf nodeKey) with
  | none =>
    rw [removeNode_of_unregistered hf s nodeKey hm]
    exact h
  | some node =>
    obtain ⟨_, h1, _⟩ := removeVNodesFrom_induct hf node (hash32 hf nodeKey)
      (fun _ acc => ∀ k nodes, mapGet acc.index k = some nodes → nodes ≠ [])
      (fun i _ acc hp _ => removeVNode_nonEmpty hf node (hash32 hf nodeKey) acc i hp)
      (List.range s.virtualNodeCount)
      { vnodes := s.vnodes, index := s.vNodeMapActNodes } h
    unfold NonEmptyLists
    rw [(removeNode_state_parts hf s nodeKey node hm).2.2.1]
    exact h1

theorem removeNode_clears_node (hf : List Nat → Nat) (s : ConsistentHash) (nodeKey : List Nat)
    (node : Node) (hm : mapGet s.nodeIDMapNode (hash32 hf nodeKey) = some node)
    (hcmp : node.dynType.comparable = true) (k : Nat)
    (hk : k ∈ nodeSlots hf (hash32 hf nodeKey) s.virtualNodeCount)
    (hc : List.count node (ownersOf s k) ≤ 1) :
    node ∉ ownersOf (RemoveNode hf s nodeKey).state k := by
  rw [removeNode_state hf s nodeKey node hm
    (removeVNodes_of_comparable hf node (hash32 hf nodeKey) s hcmp)]
  exact foldl_removeVNode_clears hf node (hash32 hf nodeKey) (List.range s.virtualNodeCount)
    { vnodes := s.vnodes, index := s.vNodeMapActNodes } k hk hc

/-! ## Owner lists on reachable rings -/

theorem registered_addNodeState (hf : List Nat → Nat) (s : ConsistentHash) (node n : Node)
    (hfresh : mapGet s.nodeIDMapNode (hash32 hf node.Key) = none) :
    Registered hf (addNodeState hf s node) n ↔ (n = node ∨ Registered hf s n) := by
  unfold Registered
  simp only [addNodeState, mapGet_mapSet]
  by_cases hid : hash32 hf n.Key = hash32 hf node.Key
  · rw [if_pos hid]
    constructor
    · intro h
      left
      injection h with h
      exact h.symm
    · rintro (h | h)
      · rw [h]
      · rw [hid, hfresh] at h
        exact absurd h (by simp)
  · rw [if_neg hid]
    constructor
    · intro h
      exact Or.inr h
    · rintro (h | h)
      · exact absurd (by rw [h]) hid
      · exact h

theorem addNodeState_nonEmptyLists (hf : List Nat → Nat) (s : ConsistentHash) (node : Node)
    (h : NonEmptyLists s) : NonEmptyLists (addNodeState hf s node) := by
  intro k nodes hk
  rw [addNodeState_index] at hk
  split at hk
  · exact h k nodes hk
  · rename_i hc
    injection hk with hk
    rw [← hk]
    intro hnil
    have := congrArg List.length hnil
    simp only [List.length_append, List.length_replicate, List.length_nil] at this
    omega

theorem addNodeState_ownersHaveSlot (hf : List Nat → Nat) (s : ConsistentHash) (node : Node)
    (hV : s.virtualNodeCount = 10) (h : OwnersHaveSlot hf s) :
    OwnersHaveSlot hf (addNodeState hf s node) := by
  intro k m hm
  rw [addNodeState_ownersOf, hV] at hm
  rcases List.mem_append.mp hm with hm | hm
  · exact h k m hm
  · have hmn : m = node := List.eq_of_mem_replicate hm
    subst hmn
    by_contra hnot
    rw [List.count_eq_zero.mpr hnot] at hm
    simp at hm

theorem addNodeState_cleanOwners (hf : List Nat → Nat) (s : ConsistentHash) (node : Node)
    (hV : s.virtualNodeCount = 10)
    (hfresh : mapGet s.nodeIDMapNode (hash32 hf node.Key) = none)
    (h : CleanOwners hf s) : CleanOwners hf (addNodeState hf s node) := by
  have hunreg : ¬ Registered hf s node := by
    unfold Registered
    rw [hfresh]
    simp
  intro m hcmp hnd
  obtain ⟨hcount, habsent⟩ := h m hcmp hnd
  refine ⟨?_, ?_⟩
  · intro k
    rw [addNodeState_ownersOf, hV, List.count_append]
    by_cases hmn : m = node
    · subst hmn
      have h0 : List.count m (ownersOf s k) = 0 :=
        List.count_eq_zero.mpr (habsent hunreg k)
      rw [h0, List.count_replicate_self, Nat.zero_add]
      exact List.nodup_iff_count_le_one.mp hnd k
    · have h0 : List.count m (List.replicate
          (List.count k (nodeSlots hf (hash32 hf node.Key) 10)) node) = 0 := by
        apply List.count_eq_zero.mpr
        intro hmem
        exact hmn (List.eq_of_mem_replicate hmem)
      rw [h0, Nat.add_zero]
      exact hcount k
  · intro hnr k hmem
    rw [registered_addNodeState hf s node m hfresh] at hnr
    rw [addNodeState_ownersOf] at hmem
    rcases List.mem_append.mp hmem with hmem | hmem
    · exact habsent (fun hr => hnr (Or.inr hr)) k hmem
    · exact hnr (Or.inl (List.eq_of_mem_replicate hmem))

theorem removeNode_registered (hf : List Nat → Nat) (s : ConsistentHash) (nodeKey : List Nat)
    (x : Node) (hm : mapGet s.nodeIDMapNode (hash32 hf nodeKey) = some x) (n : Node) :
    Registered hf (RemoveNode hf s nodeKey).state n ↔
      (Registered hf s n ∧ hash32 hf n.Key ≠ hash32 hf nodeKey) := by
  unfold Registered
  rw [(removeNode_state_parts hf s nodeKey x hm).2.2.2.1]
  simp only [mapGet_mapDel]
  by_cases hid : hash32 hf n.Key = hash32 hf nodeKey
  · simp [hid]
  · simp [hid]

theorem removeNode_ownersHaveSlot (hf : List Nat → Nat) (s : ConsistentHash)
    (nodeKey : List Nat) (h : OwnersHaveSlot hf s) :
    OwnersHaveSlot hf (RemoveNode hf s nodeKey).state := by
  intro k m hm
  exact h k m (List.Sublist.subset (removeNode_ownersOf_sublist hf s nodeKey k) hm)

theorem removeNode_cleanOwners (hf : List Nat → Nat) (s : ConsistentHash) (nodeKey : List Nat)
    (hV : s.virtualNodeCount = 10) (hoh : OwnersHaveSlot hf s)
    (h : CleanOwners hf s) : CleanOwners hf (RemoveNode hf s nodeKey).state := by
  intro m hcmp hnd
  obtain ⟨hcount, habsent⟩ := h m hcmp hnd
  refine ⟨?_, ?_⟩
  · intro k
    exact le_trans (List.Sublist.count_le (removeNode_ownersOf_sublist hf s nodeKey k) m)
      (hcount k)
  · intro hnr k hmem
    have hmem0 : m ∈ ownersOf s k :=
      List.Sublist.subset (removeNode_ownersOf_sublist hf s nodeKey k) hmem
    cases hm : mapGet s.nodeIDMapNode (hash32 hf nodeKey) with
    | none =>
      rw [removeNode_of_unregistered hf s nodeKey hm] at hnr
      exact habsent hnr k hmem0
    | some x =>
      by_cases hreg : Registered hf s m
      · rw [removeNode_registered hf s nodeKey x hm m] at hnr
        have hid : hash32 hf m.Key = hash32 hf nodeKey := by
          by_contra hne
          exact hnr ⟨hreg, hne⟩
        have hmx : m = x := by
          unfold Registered at hreg
          rw [hid, hm] at hreg
          injection hreg with hreg
          exact hreg.symm
        subst hmx
        have hk : k ∈ nodeSlots hf (hash32 hf nodeKey) s.virtualNodeCount := by
          rw [hV, ← hid]
          exact hoh k m hmem0
        exact removeNode_clears_node hf s nodeKey m hm hcmp k hk (hcount k) hmem
      · exact habsent hreg k hmem0

/-- The facts about owner lists that hold on every reachable ring. -/
theorem reachable_owner_invariants (hf : List Nat → Nat) (s : ConsistentHash)
    (h : Reachable hf s) :
    s.virtualNodeCount = 10 ∧ NonEmptyLists s ∧ OwnersHaveSlot hf s ∧ CleanOwners hf s := by
  induction h with
  | new =>
    refine ⟨rfl, ?_, ?_, ?_⟩
    · intro k nodes hk
      simp [New, mapGet] at hk
    · intro k m hm
      simp [ownersOf, New, mapGet] at hm
    · intro m _ _
      refine ⟨fun k => ?_, fun _ k hm => ?_⟩
      · simp [ownersOf, New, mapGet]
      · simp [ownersOf, New, mapGet] at hm
  | add s node _ ih =>
    obtain ⟨hV, hne, hoh, hc⟩ := ih
    cases hm : mapGet s.nodeIDMapNode (hash32 hf node.Key) with
    | some n =>
      rw [addNode_of_registered hf s node (by simp [hm])]
      exact ⟨hV, hne, hoh, hc⟩
    | none =>
      rw [(addNode_of_fresh hf s node hm).1]
      exact ⟨hV, addNodeState_nonEmptyLists hf s node hne,
        addNodeState_ownersHaveSlot hf s node hV hoh,
        addNodeState_cleanOwners hf s node hV hm hc⟩
  | remove s nodeKey _ ih =>
    obtain ⟨hV, hne, hoh, hc⟩ := ih
    exact ⟨by rw [removeNode_virtualNodeCount]; exact hV,
      removeNode_nonEmptyLists hf s nodeKey hne,
      removeNode_ownersHaveSlot hf s nodeKey hoh,
      removeNode_cleanOwners hf s nodeKey hV hoh hc⟩

/-! ## AddNode followed by RemoveNode -/

theorem mapDel_of_mapGet_none {α : Type} (m : GoMap α) (k : Nat) (h : mapGet m k = none) :
    mapDel m k = m := by
  induction m with
  | nil => rfl
  | cons p rest ih =>
    obtain ⟨a, v⟩ := p
    simp only [mapGet] at h
    by_cases ha : a = k
    · simp [ha] at h
    · simp only [ha, if_false] at h
      unfold mapDel at ih ⊢
      simp only [List.filter, ne_eq, ha, not_false_eq_true, decide_True]
      rw [ih h]

theorem mapDel_mapSet {α : Type} (m : GoMap α) (k : Nat) (v : α) :
    mapDel (mapSet m k v) k = mapDel m k := by
  have hnone : mapGet (mapDel m k) k = none := by simp [mapGet_mapDel]
  unfold mapSet
  show List.filter _ ((k, v) :: mapDel m k) = mapDel m k
  simp only [List.filter, ne_eq, not_true_eq_false, decide_False]
  exact mapDel_of_mapGet_none (mapDel m k) k hnone

theorem sorted_ext {l1 l2 : List Nat} (h1 : List.Sorted (fun a b => a < b) l1)
    (h2 : List.Sorted (fun a b => a < b) l2) (h : ∀ k, k ∈ l1 ↔ k ∈ l2) : l1 = l2 := by
  have hp : List.Perm l1 l2 :=
    (List.perm_ext_iff_of_nodup (List.Sorted.nodup h1) (List.Sorted.nodup h2)).mpr h
  exact List.eq_of_perm_of_sorted hp (List.Sorted.le_of_lt h1) (List.Sorted.le_of_lt h2)

theorem removeVNode_undo_step (hf : List Nat → Nat) (node : Node) (nodeID : Nat)
    (base : List Node) (acc : RemoveAcc) (i : Nat)
    (h1 : List.Sorted (fun a b => a < b) acc.vnodes)
    (hown : (mapGet acc.index (vNodeSlot hf nodeID i)).getD [] = base ++ [node])
    (hnot : node ∉ base)
    (hmem : base = [] → vNodeSlot hf nodeID i ∈ acc.vnodes) :
    List.Sorted (fun a b => a < b) (removeVNodeOk hf node nodeID acc i).vnodes ∧
      (∀ k, k ∈ (removeVNodeOk hf node nodeID acc i).vnodes ↔
        k ∈ acc.vnodes ∧ ¬ (k = vNodeSlot hf nodeID i ∧ base = [])) ∧
      (∀ k, mapGet (removeVNodeOk hf node nodeID acc i).index k =
        if k = vNodeSlot hf nodeID i then (if base = [] then none else some base)
        else mapGet acc.index k) := by
  by_cases hb : base = []
  · subst hb
    obtain ⟨hs, hv, hi⟩ := removeVNode_sole hf node nodeID acc i h1 (hmem rfl) (by simpa using hown)
    refine ⟨hs, ?_, ?_⟩
    · intro k
      rw [hv]
      simp
    · intro k
      rw [hi, mapGet_mapDel]
      simp
  · have hlen : (base ++ [node]).length > 1 := by
      have := List.length_pos.mpr hb
      simp only [List.length_append, List.length_singleton]
      omega
    have hfilter : List.filter (fun v => decide (v ≠ node)) (base ++ [node]) = base := by
      rw [List.filter_append]
      have hbase : List.filter (fun v => decide (v ≠ node)) base = base := by
        apply List.filter_eq_self.mpr
        intro a ha
        have : a ≠ node := fun he => hnot (he ▸ ha)
        simpa using this
      rw [hbase]
      simp
    have hpos : base.length > 0 := List.length_pos.mpr hb
    have hres : removeVNodeOk hf node nodeID acc i =
        { vnodes := acc.vnodes, index := mapSet acc.index (vNodeSlot hf nodeID i) base } := by
      unfold removeVNodeOk
      simp only [hown, hlen, if_true, hfilter, hpos]
    rw [hres]
    refine ⟨h1, ?_, ?_⟩
    · intro k
      simp [hb]
    · intro k
      simp only [mapGet_mapSet, hb, if_false]

theorem foldl_removeVNode_undo (hf : List Nat → Nat) (node : Node) (nodeID : Nat)
    (base : Nat → List Node) :
    ∀ (is : List Nat) (acc : RemoveAcc),
      List.Sorted (fun a b => a < b) acc.vnodes →
      (is.map (vNodeSlot hf nodeID)).Nodup →
      (∀ i ∈ is,
        (mapGet acc.index (vNodeSlot hf nodeID i)).getD [] =
            base (vNodeSlot hf nodeID i) ++ [node] ∧
          node ∉ base (vNodeSlot hf nodeID i) ∧
          (base (vNodeSlot hf nodeID i) = [] → vNodeSlot hf nodeID i ∈ acc.vnodes)) →
      List.Sorted (fun a b => a < b) (is.foldl (removeVNodeOk hf node nodeID) acc).vnodes ∧
        (∀ k, k ∈ (is.foldl (removeVNodeOk hf node nodeID) acc).vnodes ↔
          k ∈ acc.vnodes ∧ ¬ (k ∈ is.map (vNodeSlot hf nodeID) ∧ base k = [])) ∧
        (∀ k, mapGet (is.foldl (removeVNodeOk hf node nodeID) acc).index k =
          if k ∈ is.map (vNodeSlot hf nodeID) then (if base k = [] then none else some (base k))
          else mapGet acc.index k) := by
  intro is
  induction is with
  | nil =>
    intro acc h1 _ _
    refine ⟨h1, ?_, ?_⟩
    · intro k
      simp
    · intro k
      simp
  | cons i rest ih =>
    intro acc h1 hnd hall
    simp only [List.map_cons, List.nodup_cons] at hnd
    obtain ⟨howni, hnoti, hmemi⟩ := hall i (List.mem_cons_self i rest)
    obtain ⟨hs1, hv1, hi1⟩ := removeVNode_undo_step hf node nodeID
      (base (vNodeSlot hf nodeID i)) acc i h1 howni hnoti hmemi
    have hall1 : ∀ j ∈ rest,
        (mapGet (removeVNodeOk hf node nodeID acc i).index (vNodeSlot hf nodeID j)).getD [] =
            base (vNodeSlot hf nodeID j) ++ [node] ∧
          node ∉ base (vNodeSlot hf nodeID j) ∧
          (base (vNodeSlot hf nodeID j) = [] →
            vNodeSlot hf nodeID j ∈ (removeVNodeOk hf node nodeID acc i).vnodes) := by
      intro j hj
      obtain ⟨hownj, hnotj, hmemj⟩ := hall j (List.mem_cons_of_mem i hj)
      have hne : vNodeSlot hf nodeID j ≠ vNodeSlot hf nodeID i := by
        intro he
        exact hnd.1 (he ▸ List.mem_map_of_mem _ hj)
      refine ⟨?_, hnotj, ?_⟩
      · rw [hi1, if_neg hne]
        exact hownj
      · intro hb
        exact (hv1 _).mpr ⟨hmemj hb, fun h => hne h.1⟩
    obtain ⟨hs2, hv2, hi2⟩ := ih (removeVNodeOk hf node nodeID acc i) hs1 hnd.2 hall1
    simp only [List.foldl_cons, List.map_cons, List.mem_cons]
    refine ⟨hs2, ?_, ?_⟩
    · intro k
      rw [hv2, hv1]
      constructor
      · rintro ⟨⟨ha, hb⟩, hc⟩
        refine ⟨ha, ?_⟩
        rintro ⟨hk | hk, hbase⟩
        · exact hb ⟨hk, hk ▸ hbase⟩
        · exact hc ⟨hk, hbase⟩
      · rintro ⟨ha, hb⟩
        refine ⟨⟨ha, ?_⟩, ?_⟩
        · rintro ⟨hk, hbase⟩
          exact hb ⟨Or.inl hk, hk ▸ hbase⟩
        · rintro ⟨hk, hbase⟩
          exact hb ⟨Or.inr hk, hbase⟩
    · intro k
      rw [hi2, hi1]
      by_cases hk1 : k = vNodeSlot hf nodeID i
      · subst hk1
        by_cases hk2 : vNodeSlot hf nodeID i ∈ List.map (vNodeSlot hf nodeID) rest
        · exact absurd hk2 hnd.1
        · simp [hk2]
      · by_cases hk2 : k ∈ List.map (vNodeSlot hf nodeID) rest
        · simp [hk1, hk2]
        · simp [hk1, hk2]

/-- C20 (amended): on a reachable ring, for a node whose identity is not registered, whose
ten slot values are pairwise distinct, and whose dynamic type is comparable or none of
whose slot values is a key of the ownership index, `AddNode` followed by `RemoveNode` of its
key does not panic and gives back the original slot table, the original entries of the
ownership index (the same owner lists in the same order) and the original registry. -/
theorem addNode_removeNode_roundtrip (hf : List Nat → Nat) (s : ConsistentHash) (node : Node)
    (hreach : Reachable hf s)
    (hfresh : mapGet s.nodeIDMapNode (hash32 hf node.Key) = none)
    (hnd : (nodeSlots hf (hash32 hf node.Key) 10).Nodup)
    (hsafe : node.dynType.comparable = true ∨
      ∀ k ∈ nodeSlots hf (hash32 hf node.Key) 10, mapGet s.vNodeMapActNodes k = none) :
    (RemoveNode hf (AddNode hf s node).state node.Key).panic = none ∧
      (RemoveNode hf (AddNode hf s node).state node.Key).state.vnodes = s.vnodes ∧
      (∀ k, mapGet (RemoveNode hf (AddNode hf s node).state node.Key).state.vNodeMapActNodes k =
        mapGet s.vNodeMapActNodes k) ∧
      (RemoveNode hf (AddNode hf s node).state node.Key).state.nodeIDMapNode =
        s.nodeIDMapNode ∧
      (RemoveNode hf (AddNode hf s node).state node.Key).state.virtualNodeCount =
        s.virtualNodeCount := by
  obtain ⟨hV, hne, hoh, hclean⟩ := reachable_owner_invariants hf s hreach
  have hinv := reachable_ringInv hf s hreach
  have hunreg : ¬ Registered hf s node := by
    unfold Registered
    rw [hfresh]
    simp
  have habsent : ∀ k, node ∉ ownersOf s k := by
    rcases hsafe with hc | hu
    · exact (hclean node hc hnd).2 hunreg
    · intro k hmem
      have hnone := hu k (hoh k node hmem)
      simp [ownersOf, hnone] at hmem
  rw [(addNode_of_fresh hf s node hfresh).1]
  have hreg1 : mapGet (addNodeState hf s node).nodeIDMapNode (hash32 hf node.Key) = some node := by
    simp [addNodeState, mapGet_mapSet]
  have hinv1 := addNodeState_ringInv hf s node hinv
  have hbase_nil : ∀ k, ownersOf s k = [] → mapGet s.vNodeMapActNodes k = none := by
    intro k hk
    cases hm : mapGet s.vNodeMapActNodes k with
    | none => rfl
    | some nodes =>
      exfalso
      apply hne k nodes hm
      simpa [ownersOf, hm] using hk
  have hall : ∀ i ∈ List.range (addNodeState hf s node).virtualNodeCount,
      (mapGet (addNodeState hf s node).vNodeMapActNodes
          (vNodeSlot hf (hash32 hf node.Key) i)).getD [] =
          ownersOf s (vNodeSlot hf (hash32 hf node.Key) i) ++ [node] ∧
        node ∉ ownersOf s (vNodeSlot hf (hash32 hf node.Key) i) ∧
        (ownersOf s (vNodeSlot hf (hash32 hf node.Key) i) = [] →
          vNodeSlot hf (hash32 hf node.Key) i ∈ (addNodeState hf s node).vnodes) := by
    intro i hi
    rw [addNodeState_virtualNodeCount, hV] at hi
    have hmem : vNodeSlot hf (hash32 hf node.Key) i ∈ nodeSlots hf (hash32 hf node.Key) 10 :=
      List.mem_map_of_mem _ hi
    refine ⟨?_, habsent _, ?_⟩
    · have := addNodeState_ownersOf hf s node (vNodeSlot hf (hash32 hf node.Key) i)
      rw [hV, List.count_eq_one_of_mem hnd hmem] at this
      exact this
    · intro hb
      rw [addNodeState_mem_vnodes, hV]
      exact Or.inr ⟨hmem, hbase_nil _ hb⟩
  have hnd1 : (List.map (vNodeSlot hf (hash32 hf node.Key))
      (List.range (addNodeState hf s node).virtualNodeCount)).Nodup := by
    rw [addNodeState_virtualNodeCount, hV]
    exact hnd
  have hok : removeVNodes hf node (hash32 hf node.Key) (addNodeState hf s node) =
      (removeVNodesOk hf node (hash32 hf node.Key) (addNodeState hf s node), none) := by
    rcases hsafe with hc | hu
    · exact removeVNodes_of_comparable hf node (hash32 hf node.Key) _ hc
    · apply removeVNodes_of_short
      intro k hk
      obtain ⟨i, hi, hik⟩ := List.mem_map.mp hk
      subst hik
      have hk10 : vNodeSlot hf (hash32 hf node.Key) i ∈ nodeSlots hf (hash32 hf node.Key) 10 := by
        rw [addNodeState_virtualNodeCount, hV] at hk
        exact hk
      have h1 := (hall i hi).1
      have h0 : ownersOf s (vNodeSlot hf (hash32 hf node.Key) i) = [] := by
        simp [ownersOf, hu _ hk10]
      unfold ownersOf
      rw [h1, h0]
      simp
  refine ⟨removeNode_panic_none hf (addNodeState hf s node) node.Key node hreg1 hok, ?_⟩
  rw [removeNode_state hf (addNodeState hf s node) node.Key node hreg1 hok]
  obtain ⟨hs2, hv2, hi2⟩ := foldl_removeVNode_undo hf node (hash32 hf node.Key) (ownersOf s)
    (List.range (addNodeState hf s node).virtualNodeCount)
    { vnodes := (addNodeState hf s node).vnodes
      index := (addNodeState hf s node).vNodeMapActNodes } hinv1.1 hnd1 hall
  have hslots : List.map (vNodeSlot hf (hash32 hf node.Key))
      (List.range (addNodeState hf s node).virtualNodeCount) =
      nodeSlots hf (hash32 hf node.Key) 10 := by
    rw [addNodeState_virtualNodeCount, hV]
    rfl
  rw [hslots] at hv2 hi2
  refine ⟨?_, ?_, ?_, rfl⟩
  · show sortSlice (removeVNodesOk hf node (hash32 hf node.Key) (addNodeState hf s node)).vnodes =
      s.vnodes
    simp only [removeVNodesOk]
    rw [sortSlice_of_sorted hs2]
    apply sorted_ext hs2 hinv.1
    intro k
    rw [hv2]
    show k ∈ (addNodeState hf s node).vnodes ∧ _ ↔ _
    rw [addNodeState_mem_vnodes, hV]
    constructor
    · rintro ⟨h | ⟨hk, hnone⟩, hnot⟩
      · exact h
      · exfalso
        apply hnot
        exact ⟨hk, by simp [ownersOf, hnone]⟩
    · intro hk
      exact ⟨Or.inl hk, fun h => hinv.2 k hk h.2⟩
  · intro k
    show mapGet (removeVNodesOk hf node (hash32 hf node.Key) (addNodeState hf s node)).index k = _
    simp only [removeVNodesOk]
    rw [hi2]
    by_cases hk : k ∈ nodeSlots hf (hash32 hf node.Key) 10
    · rw [if_pos hk]
      by_cases hb : ownersOf s k = []
      · rw [if_pos hb, hbase_nil k hb]
      · rw [if_neg hb]
        cases hm : mapGet s.vNodeMapActNodes k with
        | none => simp [ownersOf, hm] at hb
        | some nodes => simp [ownersOf, hm]
    · rw [if_neg hk]
      show mapGet (addNodeState hf s node).vNodeMapActNodes k = _
      rw [addNodeState_index, hV, if_pos (List.count_eq_zero.mpr hk)]
  · show mapDel (addNodeState hf s node).nodeIDMapNode (hash32 hf node.Key) = s.nodeIDMapNode
    simp only [addNodeState]
    rw [mapDel_mapSet, mapDel_of_mapGet_none _ _ hfresh]

/-- The hypotheses of `addNode_removeNode_roundtrip` hold for `AddNode(cacheB)` on
`ringA`: the cache has a comparable dynamic type and shares the slots `101..109` with
`cacheA`. -/
theorem addNode_removeNode_roundtrip_witness :
    Reachable leValue ringA ∧
      mapGet ringA.nodeIDMapNode (hash32 leValue cacheB.Key) = none ∧
      (nodeSlots leValue (hash32 leValue cacheB.Key) 10).Nodup ∧
      cacheB.dynType.comparable = true ∧
      (RemoveNode leValue (AddNode leValue ringA cacheB).state cacheB.Key).panic = none ∧
      (RemoveNode leValue (AddNode leValue ringA cacheB).state cacheB.Key).state.vnodes =
        ringA.vnodes :=
  ⟨Reachable.add New cacheA Reachable.new, by decide, by decide, rfl,
    (addNode_removeNode_roundtrip leValue ringA cacheB
      (Reachable.add New cacheA Reachable.new) (by decide) (by decide) (Or.inl rfl)).1,
    (addNode_removeNode_roundtrip leValue ringA cacheB
      (Reachable.add New cacheA Reachable.new) (by decide) (by decide) (Or.inl rfl)).2.1⟩

/-! ## Index keys and table values on reachable rings -/

theorem removeVNode_loopInv (hf : List Nat → Nat) (node : Node) (nodeID : Nat)
    (owners0 : Nat → List Node) (i : Nat) (rest : List Nat) (acc : RemoveAcc)
    (h : RemoveLoopInv hf node nodeID owners0 (i :: rest) acc) :
    RemoveLoopInv hf node nodeID owners0 rest (removeVNodeOk hf node nodeID acc i) := by
  obtain ⟨h1, hk, hx, hnd, hkeep⟩ := h
  simp only [List.map_cons, List.nodup_cons] at hnd
  have hxi := hx i (List.mem_cons_self i rest)
  have hne : ∀ j ∈ rest, vNodeSlot hf nodeID j ≠ vNodeSlot hf nodeID i := by
    intro j hj he
    exact hnd.1 (he ▸ List.mem_map_of_mem _ hj)
  by_cases hlen : ((mapGet acc.index (vNodeSlot hf nodeID i)).getD []).length > 1
  · by_cases hnew : (List.filter (fun v => decide (v ≠ node))
        ((mapGet acc.index (vNodeSlot hf nodeID i)).getD [])).length > 0
    · have hres : removeVNodeOk hf node nodeID acc i =
          { vnodes := acc.vnodes
            index := mapSet acc.index (vNodeSlot hf nodeID i)
              (List.filter (fun v => decide (v ≠ node))
                ((mapGet acc.index (vNodeSlot hf nodeID i)).getD [])) } := by
        unfold removeVNodeOk
        simp only [hlen, if_true, hnew]
      rw [hres]
      refine ⟨h1, ?_, ?_, hnd.2, ?_⟩
      · intro k hkk
        by_cases hki : k = vNodeSlot hf nodeID i
        · subst hki
          apply hk
          intro hnone
          rw [hnone] at hlen
          simp at hlen
        · simp only [mapGet_mapSet, if_neg hki] at hkk
          exact hk k hkk
      · intro j hj
        simp only [mapGet_mapSet, if_neg (hne j hj)]
        exact hx j (List.mem_cons_of_mem i hj)
      · intro m v hm hmv
        by_cases hvi : v = vNodeSlot hf nodeID i
        · subst hvi
          simp only [mapGet_mapSet, if_true, Option.getD_some]
          exact List.mem_filter.mpr ⟨hkeep m _ hm hmv, by simpa using hm⟩
        · simp only [mapGet_mapSet, if_neg hvi]
          exact hkeep m v hm hmv
    · have hres : removeVNodeOk hf node nodeID acc i = acc := by
        unfold removeVNodeOk
        simp only [hlen, if_true, hnew, if_false]
      rw [hres]
      exact ⟨h1, hk, fun j hj => hx j (List.mem_cons_of_mem i hj), hnd.2, hkeep⟩
  · have hown : (mapGet acc.index (vNodeSlot hf nodeID i)).getD [] = [node] := by
      match hl : (mapGet acc.index (vNodeSlot hf nodeID i)).getD [] with
      | [] => rw [hl] at hxi; simp at hxi
      | [a] =>
        rw [hl] at hxi
        simp only [List.mem_singleton] at hxi
        rw [hxi]
      | a :: b :: t => rw [hl] at hlen; simp at hlen
    have hmem : vNodeSlot hf nodeID i ∈ acc.vnodes := by
      apply hk
      intro hnone
      rw [hnone] at hown
      simp at hown
    obtain ⟨hs, hv, hi⟩ := removeVNode_sole hf node nodeID acc i h1 hmem hown
    refine ⟨hs, ?_, ?_, hnd.2, ?_⟩
    · intro k hkk
      rw [hi, mapGet_mapDel] at hkk
      by_cases hki : k = vNodeSlot hf nodeID i
      · rw [if_pos hki] at hkk
        exact absurd rfl hkk
      · rw [if_neg hki] at hkk
        exact (hv k).mpr ⟨hk k hkk, hki⟩
    · intro j hj
      rw [hi, mapGet_mapDel, if_neg (hne j hj)]
      exact hx j (List.mem_cons_of_mem i hj)
    · intro m v hm hmv
      have hvi : v ≠ vNodeSlot hf nodeID i := by
        intro he
        have := hkeep m v hm hmv
        rw [he, hown] at this
        exact hm (List.mem_singleton.mp this)
      rw [hi, mapGet_mapDel, if_neg hvi]
      exact hkeep m v hm hmv

theorem reachable_registryConsistent (hf : List Nat → Nat) (s : ConsistentHash)
    (h : Reachable hf s) : RegistryConsistent hf s := by
  induction h with
  | new =>
    intro id n hn
    simp [New, mapGet] at hn
  | add s node _ ih =>
    cases hm : mapGet s.nodeIDMapNode (hash32 hf node.Key) with
    | some n =>
      rw [addNode_of_registered hf s node (by simp [hm])]
      exact ih
    | none =>
      rw [(addNode_of_fresh hf s node hm).1]
      exact addNodeState_registryConsistent hf s node ih
  | remove s nodeKey _ ih => exact removeNode_registryConsistent hf s nodeKey ih

theorem addNodeState_ownsSlots (hf : List Nat → Nat) (s : ConsistentHash) (node : Node)
    (hV : s.virtualNodeCount = 10)
    (hfresh : mapGet s.nodeIDMapNode (hash32 hf node.Key) = none)
    (h : OwnsSlots hf s) : OwnsSlots hf (addNodeState hf s node) := by
  intro n hn v hv
  rw [addNodeState_ownersOf, hV]
  rcases (registered_addNodeState hf s node n hfresh).mp hn with hnn | hreg
  · subst hnn
    apply List.mem_append_right
    have hpos : 0 < List.count v (nodeSlots hf (hash32 hf n.Key) 10) := List.count_pos_iff.mpr hv
    rw [List.mem_replicate]
    exact ⟨by omega, rfl⟩
  · exact List.mem_append_left _ (h n hreg v hv)

/-- When the registered nodes have pairwise distinct slot values each, `RemoveNode`
keeps every key of the index in the table and every registered node listed at its
slots. -/
theorem removeNode_slot_invariants (hf : List Nat → Nat)
    (s : ConsistentHash) (nodeKey : List Nat) (hV : s.virtualNodeCount = 10)
    (hinv : RingInv s) (hrc : RegistryConsistent hf s) (hk : KeysInTable s)
    (ho : OwnsSlots hf s) (hd : ∀ n, Registered hf s n → OwnReplicasDistinct hf n) :
    KeysInTable (RemoveNode hf s nodeKey).state ∧ OwnsSlots hf (RemoveNode hf s nodeKey).state := by
  cases hm : mapGet s.nodeIDMapNode (hash32 hf nodeKey) with
  | none =>
    rw [removeNode_of_unregistered hf s nodeKey hm]
    exact ⟨hk, ho⟩
  | some x =>
    have hid : hash32 hf x.Key = hash32 hf nodeKey := hrc _ x hm
    have hxreg : Registered hf s x := by
      unfold Registered
      rw [hid]
      exact hm
    have hinit : RemoveLoopInv hf x (hash32 hf nodeKey) (ownersOf s)
        (List.range s.virtualNodeCount) { vnodes := s.vnodes, index := s.vNodeMapActNodes } := by
      refine ⟨hinv.1, hk, ?_, ?_, fun m v _ hmv => hmv⟩
      · intro j hj
        rw [hV] at hj
        have := ho x hxreg (vNodeSlot hf (hash32 hf nodeKey) j)
          (by rw [hid]; exact List.mem_map_of_mem _ hj)
        exact this
      · rw [hV, ← hid]
        exact hd x hxreg
    obtain ⟨rest, hfin, _⟩ := removeVNodesFrom_induct hf x (hash32 hf nodeKey)
      (RemoveLoopInv hf x (hash32 hf nodeKey) (ownersOf s))
      (fun i rest acc hp _ => removeVNode_loopInv hf x (hash32 hf nodeKey) (ownersOf s) i rest acc hp)
      (List.range s.virtualNodeCount) { vnodes := s.vnodes, index := s.vNodeMapActNodes } hinit
    obtain ⟨hs1, hk1, _, _, hkeep⟩ := hfin
    obtain ⟨_, hvn, hidx, _, _⟩ := removeNode_state_parts hf s nodeKey x hm
    have hvn1 : (RemoveNode hf s nodeKey).state.vnodes =
        (removeVNodes hf x (hash32 hf nodeKey) s).1.vnodes := by
      rcases hvn with hvn | hvn
      · exact hvn
      · rw [hvn]
        exact sortSlice_of_sorted hs1
    refine ⟨?_, ?_⟩
    · intro k hkk
      rw [hidx] at hkk
      rw [hvn1]
      exact hk1 k hkk
    · intro n hn v hv
      obtain ⟨hreg, hne⟩ := (removeNode_registered hf s nodeKey x hm n).mp hn
      have hnx : n ≠ x := by
        intro he
        rw [he] at hne
        exact hne hid
      unfold ownersOf
      rw [hidx]
      exact hkeep n v hnx (ho n hreg v hv)

theorem reachableWith_reachable (hf : List Nat → Nat) (P : Node → Prop) (s : ConsistentHash)
    (h : ReachableWith hf P s) : Reachable hf s := by
  induction h with
  | new => exact Reachable.new
  | add s node _ _ ih => exact Reachable.add s node ih
  | remove s nodeKey _ ih => exact Reachable.remove s nodeKey ih

theorem reachable_reachableWith (hf : List Nat → Nat) (P : Node → Prop) (hP : ∀ n, P n)
    (s : ConsistentHash) (h : Reachable hf s) : ReachableWith hf P s := by
  induction h with
  | new => exact ReachableWith.new
  | add s node _ ih => exact ReachableWith.add s node (hP node) ih
  | remove s nodeKey _ ih => exact ReachableWith.remove s nodeKey ih

/-- On the rings to which only nodes with pairwise distinct slot values were ever
added: every key of the index is in the table, every registered node is listed at
its slots, and the registered nodes have pairwise distinct slot values. -/
theorem reachable_slot_invariants (hf : List Nat → Nat) (s : ConsistentHash)
    (h : ReachableWith hf (OwnReplicasDistinct hf) s) :
    KeysInTable s ∧ OwnsSlots hf s ∧ ∀ n, Registered hf s n → OwnReplicasDistinct hf n := by
  induction h with
  | new =>
    refine ⟨keysInTable_new, ?_, ?_⟩
    · intro n hn
      simp [Registered, New, mapGet] at hn
    · intro n hn
      simp [Registered, New, mapGet] at hn
  | add s node hP hr ih =>
    have hreach := reachableWith_reachable hf _ s hr
    cases hm : mapGet s.nodeIDMapNode (hash32 hf node.Key) with
    | some n =>
      rw [addNode_of_registered hf s node (by simp [hm])]
      exact ih
    | none =>
      rw [(addNode_of_fresh hf s node hm).1]
      refine ⟨addNodeState_keysInTable hf s node ih.1,
        addNodeState_ownsSlots hf s node (reachable_owner_invariants hf s hreach).1 hm ih.2.1, ?_⟩
      intro n hn
      rcases (registered_addNodeState hf s node n hm).mp hn with hnn | hreg
      · rw [hnn]
        exact hP
      · exact ih.2.2 n hreg
  | remove s nodeKey hr ih =>
    have hreach := reachableWith_reachable hf _ s hr
    obtain ⟨h1, h2⟩ := removeNode_slot_invariants hf s nodeKey
      (reachable_owner_invariants hf s hreach).1 (reachable_ringInv hf s hreach)
      (reachable_registryConsistent hf s hreach) ih.1 ih.2.1 ih.2.2
    refine ⟨h1, h2, ?_⟩
    intro n hn
    cases hm : mapGet s.nodeIDMapNode (hash32 hf nodeKey) with
    | none =>
      rw [removeNode_of_unregistered hf s nodeKey hm] at hn
      exact ih.2.2 n hn
    | some x => exact ih.2.2 n ((removeNode_registered hf s nodeKey x hm n).mp hn).1

/-- `GetNode` returns only nodes that an owner list of the index holds. -/
theorem getNode_found_mem (hf : List Nat → Nat) (s : ConsistentHash) (key : List Nat)
    (hinv : RingInv s) (n : Node) (h : GetNode hf s key = Lookup.found n) :
    ∃ v, v ∈ s.vnodes ∧ n ∈ ownersOf s v := by
  have hne : s.vnodes ≠ [] := by
    intro he
    rw [getNode_of_empty_table hf s key he] at h
    simp at h
  obtain ⟨v, hslot, hown_ne, hget⟩ := getNode_eq_pickOwner hf s key hinv hne
  obtain ⟨m, hpick, hmem, _⟩ := pickOwner_found hown_ne (hash32 hf key)
  rw [hget, hpick] at h
  injection h with h
  subst h
  exact ⟨v, hslot.1, hmem⟩

/-! ## The default hash function gives a node ten distinct slots -/

theorem fnv1aWrite_cons (h c : Nat) (rest : List Nat) :
    fnv1aWrite h (c :: rest) = fnv1aWrite (Nat.xor h c * prime32 % 4294967296) rest := rfl

theorem fnv1aStep_lt (h c : Nat) : Nat.xor h c * prime32 % 4294967296 < 4294967296 :=
  Nat.mod_lt _ (by decide)

/-- One step of the hash is injective in the value it multiplies. -/
theorem fnv1aStep_inj (h1 h2 c1 c2 : Nat) (hh1 : h1 < 4294967296) (hh2 : h2 < 4294967296)
    (hc1 : c1 < 256) (hc2 : c2 < 256)
    (h : Nat.xor h1 c1 * prime32 % 4294967296 = Nat.xor h2 c2 * prime32 % 4294967296) :
    Nat.xor h1 c1 = Nat.xor h2 c2 := by
  have hx1 : Nat.xor h1 c1 < 2 ^ 32 :=
    Nat.xor_lt_two_pow (by omega) (by omega)
  have hx2 : Nat.xor h2 c2 < 2 ^ 32 :=
    Nat.xor_lt_two_pow (by omega) (by omega)
  have hco : Nat.gcd 4294967296 prime32 = 1 := by decide
  have hmod : Nat.xor h1 c1 ≡ Nat.xor h2 c2 [MOD 4294967296] :=
    Nat.ModEq.cancel_right_of_coprime hco h
  unfold Nat.ModEq at hmod
  rw [Nat.mod_eq_of_lt (by omega), Nat.mod_eq_of_lt (by omega)] at hmod
  exact hmod

theorem xor_byte_div (h c : Nat) (hc : c < 256) : Nat.xor h c / 256 = h / 256 := by
  show (h ^^^ c) / 2 ^ 8 = h / 2 ^ 8
  rw [← Nat.shiftRight_eq_div_pow, ← Nat.shiftRight_eq_div_pow]
  apply Nat.eq_of_testBit_eq
  intro j
  rw [Nat.testBit_shiftRight, Nat.testBit_shiftRight, Nat.testBit_xor]
  have hlt : c < 2 ^ (8 + j) :=
    lt_of_lt_of_le hc (by
      show 2 ^ 8 ≤ 2 ^ (8 + j)
      exact Nat.pow_le_pow_right (by decide) (Nat.le_add_right 8 j))
  rw [Nat.testBit_lt_two_pow hlt]
  simp

theorem xor_cancel_byte (h1 h2 c : Nat) (h : Nat.xor h1 c = Nat.xor h2 c) : h1 = h2 :=
  Nat.xor_left_inj.mp h

/-- The upper 24 bits after the first byte differ when the first bytes are `247..255` and
`0..8`. -/
theorem fnv1a_carry_one : ∀ x < 9, ∀ y < 9,
    fnv1aWrite offset32 [247 + x] / 256 ≠ fnv1aWrite offset32 [y] / 256 := by
  decide

theorem fnv1a_carry_two : ∀ x < 9, ∀ y < 9,
    fnv1aWrite offset32 [247 + x, 255] / 256 ≠ fnv1aWrite offset32 [y, 0] / 256 := by
  decide

theorem fnv1a_carry_three : ∀ x < 9, ∀ y < 9,
    fnv1aWrite offset32 [247 + x, 255, 255] / 256 ≠ fnv1aWrite offset32 [y, 0, 0] / 256 := by
  decide


theorem fnv1aWrite_lt (data : List Nat) : ∀ h, h < 4294967296 → fnv1aWrite h data < 4294967296 := by
  induction data with
  | nil => intro h hh; exact hh
  | cons c rest ih =>
    intro h _
    rw [fnv1aWrite_cons]
    exact ih _ (fnv1aStep_lt h c)

theorem fnv1aWrite_snoc (h : Nat) (data : List Nat) (c : Nat) :
    fnv1aWrite h (data ++ [c]) = Nat.xor (fnv1aWrite h data) c * prime32 % 4294967296 := by
  unfold fnv1aWrite
  rw [List.foldl_append]
  rfl

/-- Two inputs that end in the same byte and have the same hash have prefixes
with the same hash. -/
theorem fnv1a_peel_same (l1 l2 : List Nat) (c : Nat) (hc : c < 256)
    (h : fnv1aWrite offset32 (l1 ++ [c]) = fnv1aWrite offset32 (l2 ++ [c])) :
    fnv1aWrite offset32 l1 = fnv1aWrite offset32 l2 := by
  rw [fnv1aWrite_snoc, fnv1aWrite_snoc] at h
  exact xor_cancel_byte _ _ c (fnv1aStep_inj _ _ c c
    (fnv1aWrite_lt l1 _ (by decide)) (fnv1aWrite_lt l2 _ (by decide)) hc hc h)

/-- Two inputs with the same hash have prefixes whose hashes agree above the
low byte. -/
theorem fnv1a_peel_upper (l1 l2 : List Nat) (c1 c2 : Nat) (hc1 : c1 < 256) (hc2 : c2 < 256)
    (h : fnv1aWrite offset32 (l1 ++ [c1]) = fnv1aWrite offset32 (l2 ++ [c2])) :
    fnv1aWrite offset32 l1 / 256 = fnv1aWrite offset32 l2 / 256 := by
  rw [fnv1aWrite_snoc, fnv1aWrite_snoc] at h
  have hx := fnv1aStep_inj _ _ c1 c2
    (fnv1aWrite_lt l1 _ (by decide)) (fnv1aWrite_lt l2 _ (by decide)) hc1 hc2 h
  have e1 := xor_byte_div (fnv1aWrite offset32 l1) c1 hc1
  have e2 := xor_byte_div (fnv1aWrite offset32 l2) c2 hc2
  rw [hx] at e1
  exact e1.symm.trans e2

/-- The hashes of two 4-byte inputs differ when the inputs encode two numbers
that are between 1 and 9 apart (modulo `2 ^ 32`), case by case on the carries. -/
theorem fnv1a_bytes_ne (a0 a1 a2 a3 b0 b1 b2 b3 : Nat)
    (ha1 : a1 < 256) (ha2 : a2 < 256) (ha3 : a3 < 256)
    (hb1 : b1 < 256) (hb2 : b2 < 256) (hb3 : b3 < 256)
    (hcase : (a0 < b0 ∧ b0 < 256 ∧ a1 = b1 ∧ a2 = b2 ∧ a3 = b3) ∨
      (247 ≤ a0 ∧ a0 < 256 ∧ b0 ≤ 8 ∧
        ((a1 ≠ b1 ∧ b2 = a2 ∧ b3 = a3) ∨
          (a1 = 255 ∧ b1 = 0 ∧ ((a2 ≠ b2 ∧ b3 = a3) ∨ (a2 = 255 ∧ b2 = 0)))))) :
    fnv1aWrite offset32 [a0, a1, a2, a3] ≠ fnv1aWrite offset32 [b0, b1, b2, b3] := by
  intro he
  rcases hcase with ⟨h0, hb0, h1, h2, h3⟩ | ⟨ha0, ha0', hb0, hrest⟩
  · subst h1 h2 h3
    have e3 := fnv1a_peel_same [a0, a1, a2] [b0, a1, a2] a3 ha3 he
    have e2 := fnv1a_peel_same [a0, a1] [b0, a1] a2 ha2 e3
    have e1 := fnv1a_peel_same [a0] [b0] a1 ha1 e2
    have e0 := fnv1aStep_inj offset32 offset32 a0 b0 (by decide) (by decide)
      (by omega) hb0 e1
    have : a0 = b0 := Nat.xor_right_inj.mp e0
    omega
  · have c1 := fnv1a_carry_one (a0 - 247) (by omega) b0 (by omega)
    have c2 := fnv1a_carry_two (a0 - 247) (by omega) b0 (by omega)
    have c3 := fnv1a_carry_three (a0 - 247) (by omega) b0 (by omega)
    have hx : 247 + (a0 - 247) = a0 := by omega
    rw [hx] at c1 c2 c3
    rcases hrest with ⟨_, h2, h3⟩ | ⟨h1, h1', hrest⟩
    · subst h2 h3
      have e3 := fnv1a_peel_same [a0, a1, b2] [b0, b1, b2] b3 hb3 he
      have e2 := fnv1a_peel_same [a0, a1] [b0, b1] b2 hb2 e3
      exact c1 (fnv1a_peel_upper [a0] [b0] a1 b1 ha1 hb1 e2)
    · subst h1 h1'
      rcases hrest with ⟨_, h3⟩ | ⟨h2, h2'⟩
      · subst h3
        have e3 := fnv1a_peel_same [a0, 255, a2] [b0, 0, b2] b3 hb3 he
        exact c2 (fnv1a_peel_upper [a0, 255] [b0, 0] a2 b2 ha2 hb2 e3)
      · subst h2 h2'
        exact c3 (fnv1a_peel_upper [a0, 255, 255] [b0, 0, 0] a3 b3 ha3 hb3 he)

theorem leBytes32_carry_cases (a d : Nat) (ha : a < 4294967296) (hd1 : 1 ≤ d) (hd9 : d ≤ 9) :
    (a % 256 < (a + d) % 4294967296 % 256 ∧ (a + d) % 4294967296 % 256 < 256 ∧
        a / 256 % 256 = (a + d) % 4294967296 / 256 % 256 ∧
        a / 65536 % 256 = (a + d) % 4294967296 / 65536 % 256 ∧
        a / 16777216 % 256 = (a + d) % 4294967296 / 16777216 % 256) ∨
      (247 ≤ a % 256 ∧ a % 256 < 256 ∧ (a + d) % 4294967296 % 256 ≤ 8 ∧
        ((a / 256 % 256 ≠ (a + d) % 4294967296 / 256 % 256 ∧
            (a + d) % 4294967296 / 65536 % 256 = a / 65536 % 256 ∧
            (a + d) % 4294967296 / 16777216 % 256 = a / 16777216 % 256) ∨
          (a / 256 % 256 = 255 ∧ (a + d) % 4294967296 / 256 % 256 = 0 ∧
            ((a / 65536 % 256 ≠ (a + d) % 4294967296 / 65536 % 256 ∧
                (a + d) % 4294967296 / 16777216 % 256 = a / 16777216 % 256) ∨
              (a / 65536 % 256 = 255 ∧ (a + d) % 4294967296 / 65536 % 256 = 0))))) := by
  omega

/-- The default hash function gives every node identity ten pairwise distinct
slot values. -/
theorem distinctOwnReplicas_fnv1a : DistinctOwnReplicas Fnv1a := by
  intro nodeID hid
  unfold nodeSlots
  apply List.Nodup.map_on _ (List.nodup_range 10)
  have key : ∀ i j, i < j → j < 10 →
      vNodeSlot Fnv1a nodeID i ≠ vNodeSlot Fnv1a nodeID j := by
    intro i j hij hj
    have hi : i % 4294967296 = i := Nat.mod_eq_of_lt (by omega)
    have hj' : j % 4294967296 = j := Nat.mod_eq_of_lt (by omega)
    have hb : (nodeID + j) % 4294967296 =
        ((nodeID + i) % 4294967296 + (j - i)) % 4294967296 := by omega
    have hcase := leBytes32_carry_cases ((nodeID + i) % 4294967296) (j - i)
      (Nat.mod_lt _ (by decide)) (by omega) (by omega)
    rw [← hb] at hcase
    have hne := fnv1a_bytes_ne _ _ _ _ _ _ _ _
      (Nat.mod_lt _ (by decide)) (Nat.mod_lt _ (by decide)) (Nat.mod_lt _ (by decide))
      (Nat.mod_lt _ (by decide)) (Nat.mod_lt _ (by decide)) (Nat.mod_lt _ (by decide)) hcase
    intro he
    apply hne
    simp only [vNodeSlot, u32Hash, hash32, hi, hj'] at he
    have hw : ∀ data, Fnv1a data = fnv1aWrite offset32 data := fun _ => rfl
    rw [hw, hw] at he
    rw [Nat.mod_eq_of_lt (fnv1aWrite_lt _ _ (by decide)),
      Nat.mod_eq_of_lt (fnv1aWrite_lt _ _ (by decide))] at he
    exact he
  intro i hi j hj he
  rw [List.mem_range] at hi hj
  rcases Nat.lt_trichotomy i j with h | h | h
  · exact absurd he (key i j h hj)
  · exact h
  · exact absurd he.symm (key j i h hi)

/-! ## A removed node leaves the ring -/

theorem removeVNode_vnodes_sublist (hf : List Nat → Nat) (node : Node) (nodeID : Nat)
    (acc : RemoveAcc) (i : Nat) :
    List.Sublist (removeVNodeOk hf node nodeID acc i).vnodes acc.vnodes := by
  unfold removeVNodeOk
  simp only
  split
  · split
    · exact List.Sublist.refl _
    · exact List.Sublist.refl _
  · split
    · exact List.eraseIdx_sublist _ _
    · exact List.Sublist.refl _

/-- The pass for a slot with at most one owner takes the slot out of the table and
out of the index. -/
theorem removeVNode_short_clears (hf : List Nat → Nat) (node : Node) (nodeID : Nat)
    (acc : RemoveAcc) (i : Nat) (h1 : List.Sorted (fun a b => a < b) acc.vnodes)
    (hlen : ((mapGet acc.index (vNodeSlot hf nodeID i)).getD []).length ≤ 1) :
    vNodeSlot hf nodeID i ∉ (removeVNodeOk hf node nodeID acc i).vnodes ∧
      mapGet (removeVNodeOk hf node nodeID acc i).index (vNodeSlot hf nodeID i) = none := by
  have hn : ¬ ((mapGet acc.index (vNodeSlot hf nodeID i)).getD []).length > 1 := by omega
  unfold removeVNodeOk
  simp only [if_neg hn]
  split
  · rename_i hidx
    refine ⟨?_, by simp [mapGet_mapDel]⟩
    intro hmem
    have hin : vNodeSlot hf nodeID i ∈ acc.vnodes :=
      List.Sublist.subset (List.eraseIdx_sublist _ _) hmem
    rw [mem_eraseIdx_of_nodup (List.Sorted.nodup h1) hidx] at hmem
    exact hmem.1 (sortSearch_ge_of_mem h1 hin).2.symm
  · rename_i hidx
    refine ⟨?_, by simp [mapGet_mapDel]⟩
    intro hmem
    exact hidx (sortSearch_ge_of_mem h1 hmem).1

/-- A slot that is neither in the table nor in the index stays so. -/
theorem removeVNode_absent (hf : List Nat → Nat) (node : Node) (nodeID : Nat)
    (acc : RemoveAcc) (i k : Nat) (hv : k ∉ acc.vnodes) (hi : mapGet acc.index k = none) :
    k ∉ (removeVNodeOk hf node nodeID acc i).vnodes ∧
      mapGet (removeVNodeOk hf node nodeID acc i).index k = none := by
  refine ⟨fun hmem => hv (List.Sublist.subset (removeVNode_vnodes_sublist hf node nodeID acc i) hmem),
    ?_⟩
  by_cases hk : k = vNodeSlot hf nodeID i
  · subst hk
    have hn : ¬ ((mapGet acc.index (vNodeSlot hf nodeID i)).getD []).length > 1 := by
      rw [hi]
      simp
    unfold removeVNodeOk
    simp only [if_neg hn]
    split <;> simp [mapGet_mapDel]
  · rw [removeVNode_index_other hf node nodeID acc i k hk]
    exact hi

theorem foldl_removeVNode_absent (hf : List Nat → Nat) (node : Node) (nodeID : Nat) (k : Nat) :
    ∀ (is : List Nat) (acc : RemoveAcc), k ∉ acc.vnodes → mapGet acc.index k = none →
      k ∉ (is.foldl (removeVNodeOk hf node nodeID) acc).vnodes ∧
        mapGet (is.foldl (removeVNodeOk hf node nodeID) acc).index k = none := by
  intro is
  induction is with
  | nil => intro acc hv hi; exact ⟨hv, hi⟩
  | cons i rest ih =>
    intro acc hv hi
    simp only [List.foldl_cons]
    obtain ⟨hv1, hi1⟩ := removeVNode_absent hf node nodeID acc i k hv hi
    exact ih _ hv1 hi1

/-- After the loop, a slot of the node that had at most one owner is neither in
the table nor in the index. -/
theorem foldl_removeVNode_sole_gone (hf : List Nat → Nat) (node : Node) (nodeID : Nat) (k : Nat) :
    ∀ (is : List Nat) (acc : RemoveAcc),
      List.Sorted (fun a b => a < b) acc.vnodes →
      (∀ v ∈ acc.vnodes, (mapGet acc.index v).getD [] ≠ []) →
      k ∈ is.map (vNodeSlot hf nodeID) →
      ((mapGet acc.index k).getD []).length ≤ 1 →
      k ∉ (is.foldl (removeVNodeOk hf node nodeID) acc).vnodes ∧
        mapGet (is.foldl (removeVNodeOk hf node nodeID) acc).index k = none := by
  intro is
  induction is with
  | nil => intro acc _ _ hk; simp at hk
  | cons i rest ih =>
    intro acc h1 h2 hk hlen
    simp only [List.foldl_cons]
    by_cases hki : k = vNodeSlot hf nodeID i
    · subst hki
      obtain ⟨hv1, hi1⟩ := removeVNode_short_clears hf node nodeID acc i h1 hlen
      exact foldl_removeVNode_absent hf node nodeID _ rest _ hv1 hi1
    · simp only [List.map_cons, List.mem_cons] at hk
      rcases hk with hk | hk
      · exact absurd hk hki
      · obtain ⟨hs1, hne1⟩ := removeVNode_inv hf node nodeID acc i h1 h2
        apply ih _ hs1 hne1 hk
        rw [removeVNode_index_other hf node nodeID acc i k hki]
        exact hlen

/-- The loop of `RemoveNode` does not panic for a node of a comparable dynamic type,
nor for a node that is the only owner of each of its slots. -/
theorem removeVNodes_of_safe (hf : List Nat → Nat) (s : ConsistentHash) (x : Node)
    (nodeID : Nat)
    (hsafe : x.dynType.comparable = true ∨
      ∀ k ∈ nodeSlots hf nodeID s.virtualNodeCount, ownersOf s k = [x]) :
    removeVNodes hf x nodeID s = (removeVNodesOk hf x nodeID s, none) := by
  rcases hsafe with hc | hu
  · exact removeVNodes_of_comparable hf x nodeID s hc
  · apply removeVNodes_of_short
    intro k hk
    rw [hu k hk]
    simp

/-- On a reachable ring, after a `RemoveNode` of a registered node that did not
panic, a slot whose only owner was the node is neither in the table nor in the
index. -/
theorem removeNode_sole_slot_gone (hf : List Nat → Nat) (s : ConsistentHash) (x : Node)
    (hreach : Reachable hf s) (hx : Registered hf s x)
    (hok : removeVNodes hf x (hash32 hf x.Key) s = (removeVNodesOk hf x (hash32 hf x.Key) s, none))
    (k : Nat) (hown : ownersOf s k = [x]) :
    k ∉ (RemoveNode hf s x.Key).state.vnodes ∧
      mapGet (RemoveNode hf s x.Key).state.vNodeMapActNodes k = none := by
  obtain ⟨hV, _, hoh, _⟩ := reachable_owner_invariants hf s hreach
  have hinv := reachable_ringInv hf s hreach
  have hk : k ∈ List.map (vNodeSlot hf (hash32 hf x.Key)) (List.range s.virtualNodeCount) := by
    rw [hV]
    exact hoh k x (by rw [hown]; exact List.mem_singleton_self x)
  have hlen : ((mapGet s.vNodeMapActNodes k).getD []).length ≤ 1 := by
    have : (mapGet s.vNodeMapActNodes k).getD [] = [x] := hown
    rw [this]
    simp
  obtain ⟨hv1, hi1⟩ := foldl_removeVNode_sole_gone hf x (hash32 hf x.Key) k
    (List.range s.virtualNodeCount) { vnodes := s.vnodes, index := s.vNodeMapActNodes }
    hinv.1 hinv.2 hk hlen
  rw [removeNode_state hf s x.Key x hx hok]
  exact ⟨fun hmem => hv1 (mem_sortSlice.mp hmem), hi1⟩

/-- On a reachable ring, `RemoveNode` of a registered node whose ten slot values are
pairwise distinct, and which has a comparable dynamic type or is the only owner of
each of its slots, takes the node out of every owner list. -/
theorem removeNode_unlists (hf : List Nat → Nat) (s : ConsistentHash) (x : Node)
    (hreach : Reachable hf s) (hx : Registered hf s x)
    (hnd : (nodeSlots hf (hash32 hf x.Key) 10).Nodup)
    (hsafe : x.dynType.comparable = true ∨
      ∀ k ∈ nodeSlots hf (hash32 hf x.Key) 10, ownersOf s k = [x]) (k : Nat) :
    x ∉ ownersOf (RemoveNode hf s x.Key).state k := by
  obtain ⟨hV, _, hoh, hclean⟩ := reachable_owner_invariants hf s hreach
  intro hmem
  have hmem0 : x ∈ ownersOf s k :=
    List.Sublist.subset (removeNode_ownersOf_sublist hf s x.Key k) hmem
  rcases hsafe with hcmp | hu
  · have hk : k ∈ nodeSlots hf (hash32 hf x.Key) s.virtualNodeCount := by
      rw [hV]
      exact hoh k x hmem0
    exact removeNode_clears_node hf s x.Key x hx hcmp k hk ((hclean x hcmp hnd).1 k) hmem
  · have hok := removeVNodes_of_safe hf s x (hash32 hf x.Key) (Or.inr (by rw [hV]; exact hu))
    have hnone := (removeNode_sole_slot_gone hf s x hreach hx hok k (hu k (hoh k x hmem0))).2
    simp [ownersOf, hnone] at hmem

theorem reachable_ringF1 : Reachable Fnv1a ringF1 := Reachable.add New cacheF1 Reachable.new

theorem reachable_ringF : Reachable Fnv1a ringF :=
  Reachable.add _ cacheF3 (Reachable.add _ cacheF2 reachable_ringF1)

theorem reachable_ringFU : Reachable Fnv1a ringFU := Reachable.add ringF1 sliceF2 reachable_ringF1

/-- C8 (as stated, at concrete inputs). With the default hash function, the nodes
`cacheF1` and `sliceF2` share slots; `sliceF2` has an uncomparable dynamic type, and
`RemoveNode(sliceF2.Key())` panics in its first pass, at the comparison `v != node`: the
registry entry is gone, but `sliceF2` is still listed at its slots and `GetNode` still
returns it. Under `dupHash` the ten replicas of `nodeX` share the slot value 0: after
`AddNode(nodeX)` and `RemoveNode(nodeX.Key())` on a new ring the registry is empty, but the
slot 0 is still in the table, its owner list still holds `nodeX`, and `GetNode` returns
`nodeX` for every key. -/
theorem removeNode_keeps_owner :
    (Reachable Fnv1a ringFU ∧ Registered Fnv1a ringFU sliceF2 ∧
      (RemoveNode Fnv1a ringFU sliceF2.Key).panic = some RuntimeError.uncomparable ∧
      mapGet (RemoveNode Fnv1a ringFU sliceF2.Key).state.nodeIDMapNode
        (hash32 Fnv1a sliceF2.Key) = none ∧
      ownersOf (RemoveNode Fnv1a ringFU sliceF2.Key).state
        (vNodeSlot Fnv1a (hash32 Fnv1a sliceF2.Key) 9) = [sliceF2] ∧
      GetNode Fnv1a (RemoveNode Fnv1a ringFU sliceF2.Key).state (int2Bytes 23) =
        Lookup.found sliceF2) ∧
    (Reachable dupHash dupRingX ∧ Registered dupHash dupRingX nodeX ∧
      (RemoveNode dupHash dupRingX nodeX.Key).panic = none ∧
      (RemoveNode dupHash dupRingX nodeX.Key).state.nodeIDMapNode = [] ∧
      (RemoveNode dupHash dupRingX nodeX.Key).state.vnodes = [0] ∧
      ownersOf (RemoveNode dupHash dupRingX nodeX.Key).state 0 = List.replicate 10 nodeX ∧
      ∀ nodeKey, GetNode dupHash (RemoveNode dupHash dupRingX nodeX.Key).state nodeKey =
        Lookup.found nodeX) :=
  ⟨⟨reachable_ringFU, by decide, by decide, by decide, by decide, by decide⟩,
    ⟨Reachable.add New nodeX Reachable.new, by decide, by decide, by decide, by decide,
      by decide, getNode_after_duplicate_removal⟩⟩

/-- C8 (amended): on a reachable ring, for every hash function and every registered node `x`
whose ten slot values are pairwise distinct, and which has a comparable dynamic type or is
the only owner of each of its slots, `RemoveNode(x.Key())` does not panic, and afterwards
the registry has no entry for `x`, `x` is in no owner list of the ownership index, every
slot whose only owner was `x` is absent from both the slot table and the ownership index,
and `GetNode` never returns `x`. -/
theorem removeNode_leaves_ring (hf : List Nat → Nat) (s : ConsistentHash) (x : Node)
    (hreach : Reachable hf s) (hx : Registered hf s x)
    (hnd : (nodeSlots hf (hash32 hf x.Key) 10).Nodup)
    (hsafe : x.dynType.comparable = true ∨
      ∀ k ∈ nodeSlots hf (hash32 hf x.Key) 10, ownersOf s k = [x]) :
    (RemoveNode hf s x.Key).panic = none ∧
      mapGet (RemoveNode hf s x.Key).state.nodeIDMapNode (hash32 hf x.Key) = none ∧
      (∀ k, x ∉ ownersOf (RemoveNode hf s x.Key).state k) ∧
      (∀ k, ownersOf s k = [x] →
        k ∉ (RemoveNode hf s x.Key).state.vnodes ∧
          mapGet (RemoveNode hf s x.Key).state.vNodeMapActNodes k = none) ∧
      (∀ key, GetNode hf (RemoveNode hf s x.Key).state key ≠ Lookup.found x) := by
  have hV := (reachable_owner_invariants hf s hreach).1
  have hok := removeVNodes_of_safe hf s x (hash32 hf x.Key) (by rw [hV]; exact hsafe)
  refine ⟨removeNode_panic_none hf s x.Key x hx hok, ?_,
    removeNode_unlists hf s x hreach hx hnd hsafe,
    removeNode_sole_slot_gone hf s x hreach hx hok, ?_⟩
  · rw [removeNode_state hf s x.Key x hx hok]
    simp [mapGet_mapDel]
  · intro key hget
    obtain ⟨v, _, hmem⟩ := getNode_found_mem hf (RemoveNode hf s x.Key).state key
      (removeNode_ringInv hf s x.Key (reachable_ringInv hf s hreach)) x hget
    exact removeNode_unlists hf s x hreach hx hnd hsafe v hmem

/-- The hypotheses of `removeNode_leaves_ring` hold with the default hash function for
the cache `cacheF2` on `ringF`, where it shares slots with `cacheF1` and `cacheF3`. -/
theorem removeNode_leaves_ring_witness :
    Reachable Fnv1a ringF ∧ Registered Fnv1a ringF cacheF2 ∧
      (nodeSlots Fnv1a (hash32 Fnv1a cacheF2.Key) 10).Nodup ∧
      cacheF2.dynType.comparable = true ∧
      (RemoveNode Fnv1a ringF cacheF2.Key).panic = none ∧
      (∀ k, cacheF2 ∉ ownersOf (RemoveNode Fnv1a ringF cacheF2.Key).state k) :=
  ⟨reachable_ringF, by decide,
    distinctOwnReplicas_fnv1a _ (Nat.mod_lt _ (by decide)), rfl,
    (removeNode_leaves_ring Fnv1a ringF cacheF2 reachable_ringF (by decide)
      (distinctOwnReplicas_fnv1a _ (Nat.mod_lt _ (by decide))) (Or.inl rfl)).1,
    (removeNode_leaves_ring Fnv1a ringF cacheF2 reachable_ringF (by decide)
      (distinctOwnReplicas_fnv1a _ (Nat.mod_lt _ (by decide))) (Or.inl rfl)).2.2.1⟩

/-- C17 (as stated, at a concrete input). With the default hash function, `sliceF2`
implements `RehashNode` and is registered on `ringFU` together with `cacheF1`.
`RemoveNode(sliceF2.Key())` panics at the comparison `v != node` of its first pass:
`cacheF1` is still registered, but no `Transfer` is invoked. -/
theorem removeNode_panics_before_transfer :
    Reachable Fnv1a ringFU ∧
      mapGet ringFU.nodeIDMapNode (hash32 Fnv1a sliceF2.Key) = some sliceF2 ∧
      sliceF2.rehash = true ∧ sliceF2.dynType.comparable = false ∧
      ownersOf ringFU (vNodeSlot Fnv1a (hash32 Fnv1a sliceF2.Key) 0) = [cacheF1, sliceF2] ∧
      Registered Fnv1a (RemoveNode Fnv1a ringFU sliceF2.Key).state cacheF1 ∧
      (RemoveNode Fnv1a ringFU sliceF2.Key).panic = some RuntimeError.uncomparable ∧
      (RemoveNode Fnv1a ringFU sliceF2.Key).transfer = none :=
  ⟨reachable_ringFU, by decide, rfl, rfl, by decide, by decide, by decide, by decide⟩

/-- C17 (amended): on a reachable ring, `RemoveNode` of a registered node whose ten slot
values are pairwise distinct, and which has a comparable dynamic type or is the only owner
of each of its slots, does not panic and leaves a ring with no registry entry for the node,
no owner list that holds it and, of the slots whose only owner it was, none in the table or
the index; the `Transfer` hook of the node is invoked, once and on that ring, exactly when
the node implements `RehashNode` and some node is still registered; otherwise no `Transfer`
is invoked. -/
theorem removeNode_transfer_gating (hf : List Nat → Nat) (s : ConsistentHash)
    (nodeKey : List Nat) (node : Node) (hreach : Reachable hf s)
    (hreg : mapGet s.nodeIDMapNode (hash32 hf nodeKey) = some node)
    (hnd : (nodeSlots hf (hash32 hf nodeKey) 10).Nodup)
    (hsafe : node.dynType.comparable = true ∨
      ∀ k ∈ nodeSlots hf (hash32 hf nodeKey) 10, ownersOf s k = [node]) :
    (RemoveNode hf s nodeKey).panic = none ∧
      mapGet (RemoveNode hf s nodeKey).state.nodeIDMapNode (hash32 hf nodeKey) = none ∧
      (∀ k, node ∉ ownersOf (RemoveNode hf s nodeKey).state k) ∧
      (∀ k, ownersOf s k = [node] →
        k ∉ (RemoveNode hf s nodeKey).state.vnodes ∧
          mapGet (RemoveNode hf s nodeKey).state.vNodeMapActNodes k = none) ∧
      ((node.rehash = true ∧
          ∃ id m, mapGet (RemoveNode hf s nodeKey).state.nodeIDMapNode id = some m) →
        (RemoveNode hf s nodeKey).transfer = some node) ∧
      (node.rehash = false → (RemoveNode hf s nodeKey).transfer = none) ∧
      ((∀ id, mapGet (RemoveNode hf s nodeKey).state.nodeIDMapNode id = none) →
        (RemoveNode hf s nodeKey).transfer = none) := by
  have hV := (reachable_owner_invariants hf s hreach).1
  have hid : hash32 hf node.Key = hash32 hf nodeKey :=
    reachable_registryConsistent hf s hreach _ node hreg
  have hx : Registered hf s node := by
    unfold Registered
    rw [hid]
    exact hreg
  have hcongr : RemoveNode hf s nodeKey = RemoveNode hf s node.Key :=
    removeNode_congr hf s nodeKey node.Key hid.symm
  have hok := removeVNodes_of_safe hf s node (hash32 hf nodeKey) (by rw [hV]; exact hsafe)
  have hregistry : (RemoveNode hf s nodeKey).state.nodeIDMapNode =
      mapDel s.nodeIDMapNode (hash32 hf nodeKey) :=
    (removeNode_state_parts hf s nodeKey node hreg).2.2.2.1
  refine ⟨removeNode_panic_none hf s nodeKey node hreg hok, ?_, ?_, ?_, ?_, ?_, ?_⟩
  · rw [hregistry]
    simp [mapGet_mapDel]
  · rw [hcongr]
    exact removeNode_unlists hf s node hreach hx (by rw [hid]; exact hnd)
      (by rw [hid]; exact hsafe)
  · rw [hcongr]
    exact removeNode_sole_slot_gone hf s node hreach hx (by rw [hid]; exact hok)
  · rw [hregistry]
    rintro ⟨hr, hsome⟩
    have hne : mapDel s.nodeIDMapNode (hash32 hf nodeKey) ≠ [] :=
      (goMap_ne_nil_iff _).mpr hsome
    have hlen : mapLen (mapDel s.nodeIDMapNode (hash32 hf nodeKey)) ≠ 0 := by
      intro h0
      exact hne (List.length_eq_zero.mp h0)
    unfold RemoveNode
    simp only [hreg, hok, hr, Bool.not_true, Bool.false_eq_true, if_false, hlen]
  · intro hr
    unfold RemoveNode
    simp only [hreg, hok, hr, Bool.not_false, if_true]
  · rw [hregistry]
    intro hnone
    have hnil : mapDel s.nodeIDMapNode (hash32 hf nodeKey) = [] := by
      by_contra hne
      obtain ⟨k, v, hkv⟩ := (goMap_ne_nil_iff _).mp hne
      rw [hnone k] at hkv
      simp at hkv
    have hlen : mapLen (mapDel s.nodeIDMapNode (hash32 hf nodeKey)) = 0 := by
      rw [hnil]
      rfl
    unfold RemoveNode
    simp only [hreg, hok, hlen]
    split <;> rfl

/-- The hypotheses of `removeNode_transfer_gating` hold with the default hash function on
`ringF` for the key of `cacheF3`; its `Transfer` is invoked, since `cacheF1` stays
registered. -/
theorem removeNode_transfer_gating_witness :
    Reachable Fnv1a ringF ∧
      mapGet ringF.nodeIDMapNode (hash32 Fnv1a cacheF3.Key) = some cacheF3 ∧
      (nodeSlots Fnv1a (hash32 Fnv1a cacheF3.Key) 10).Nodup ∧
      cacheF3.dynType.comparable = true ∧
      (RemoveNode Fnv1a ringF cacheF3.Key).panic = none ∧
      (RemoveNode Fnv1a ringF cacheF3.Key).transfer = some cacheF3 :=
  ⟨reachable_ringF, by decide,
    distinctOwnReplicas_fnv1a _ (Nat.mod_lt _ (by decide)), rfl,
    (removeNode_transfer_gating Fnv1a ringF cacheF3.Key cacheF3 reachable_ringF (by decide)
      (distinctOwnReplicas_fnv1a _ (Nat.mod_lt _ (by decide))) (Or.inl rfl)).1,
    (removeNode_transfer_gating Fnv1a ringF cacheF3.Key cacheF3 reachable_ringF (by decide)
      (distinctOwnReplicas_fnv1a _ (Nat.mod_lt _ (by decide))) (Or.inl rfl)).2.2.2.2.1
      ⟨rfl, hash32 Fnv1a cacheF1.Key, cacheF1, by decide⟩⟩

/-- C20 (as stated, at a concrete input). With the default hash function, the identity of
`sliceF2` is not registered on `ringF1` and its ten slot values are pairwise distinct, but
eight of them are slots of `cacheF1` and the dynamic type of `sliceF2` is not comparable:
`AddNode(sliceF2)` followed by `RemoveNode(sliceF2.Key())` panics at the comparison
`v != node` and leaves a ring whose slot table and ownership index are not those of
`ringF1`. -/
theorem addNode_removeNode_panics :
    Reachable Fnv1a ringF1 ∧
      mapGet ringF1.nodeIDMapNode (hash32 Fnv1a sliceF2.Key) = none ∧
      (nodeSlots Fnv1a (hash32 Fnv1a sliceF2.Key) 10).Nodup ∧
      (RemoveNode Fnv1a (AddNode Fnv1a ringF1 sliceF2).state sliceF2.Key).panic =
        some RuntimeError.uncomparable ∧
      (RemoveNode Fnv1a (AddNode Fnv1a ringF1 sliceF2).state sliceF2.Key).state.vnodes ≠
        ringF1.vnodes ∧
      ownersOf ringF1 (vNodeSlot Fnv1a (hash32 Fnv1a sliceF2.Key) 0) = [cacheF1] ∧
      ownersOf (RemoveNode Fnv1a (AddNode Fnv1a ringF1 sliceF2).state sliceF2.Key).state
        (vNodeSlot Fnv1a (hash32 Fnv1a sliceF2.Key) 0) = [cacheF1, sliceF2] :=
  ⟨reachable_ringF1, by decide, by decide, by decide, by decide, by decide, by decide⟩

/-- C6 (the code at the failing input). With the default hash function, the caches with
the keys `"446500"`, `"2021659"` and `"1382757"` are registered on `ringF` and share slots.
The key 0 is stored where `GetNode` puts it, at `cacheF1`. `RemoveNode("2021659")` runs the
`Transfer` of `cacheF2`, which moves nothing (its store is empty), but `GetNode` now gives
the key 0 to `cacheF3`, which does not hold it: the entry is lost to lookups. -/
theorem removeNode_loses_key_default_hash :
    Reachable Fnv1a ringF ∧
      (Registered Fnv1a ringF cacheF1 ∧ Registered Fnv1a ringF cacheF2 ∧
        Registered Fnv1a ringF cacheF3) ∧
      (∀ n k v, storeGet (storesF n) k = some v →
        GetNode Fnv1a ringF (int2Bytes k) = Lookup.found n) ∧
      storeGet (storesF cacheF1) 0 = some 0 ∧
      (RemoveNode Fnv1a ringF cacheF2.Key).transfer = some cacheF2 ∧
      removeNodeCaches Fnv1a ringF storesF cacheF2.Key =
        Except.ok ((RemoveNode Fnv1a ringF cacheF2.Key).state, storesF) ∧
      GetNode Fnv1a (RemoveNode Fnv1a ringF cacheF2.Key).state (int2Bytes 0) =
        Lookup.found cacheF3 ∧
      storeGet (storesF cacheF3) 0 = none := by
  refine ⟨reachable_ringF, by decide, ?_, by decide, by decide, rfl, by decide, by decide⟩
  intro n k v h
  unfold storesF at h
  by_cases hn : n = cacheF1
  · subst hn
    simp only [if_true, storeGet] at h
    by_cases hk : (0 : Int) = k
    · subst hk
      decide
    · simp [hk] at h
  · simp [hn, storeGet] at h

/-! ## Totality of GetNode and the keys of the index -/

theorem reachableWith_ringF : ReachableWith Fnv1a (OwnReplicasDistinct Fnv1a) ringF :=
  reachable_reachableWith Fnv1a _
    (fun n => distinctOwnReplicas_fnv1a _ (Nat.mod_lt _ (by decide))) ringF reachable_ringF

theorem reachableWith_ringFU : ReachableWith Fnv1a (OwnReplicasDistinct Fnv1a) ringFU :=
  reachable_reachableWith Fnv1a _
    (fun n => distinctOwnReplicas_fnv1a _ (Nat.mod_lt _ (by decide))) ringFU reachable_ringFU

/-- C3 (amended): for every hash function and every ring reachable from `New` by calls of
`RemoveNode` and by calls of `AddNode` for nodes whose ten slot values are pairwise
distinct, on which some node is registered, `GetNode` returns a node for every key: it does
not return `nil` and does not panic. -/
theorem getNode_total (hf : List Nat → Nat) (s : ConsistentHash)
    (hreach : ReachableWith hf (OwnReplicasDistinct hf) s) (n : Node)
    (hreg : Registered hf s n) (key : List Nat) :
    ∃ m, GetNode hf s key = Lookup.found m := by
  have hinv := reachable_ringInv hf s (reachableWith_reachable hf _ s hreach)
  obtain ⟨hk, ho, _⟩ := reachable_slot_invariants hf s hreach
  have hmem : n ∈ ownersOf s (vNodeSlot hf (hash32 hf n.Key) 0) :=
    ho n hreg _ (List.mem_map_of_mem _ (by decide))
  have hne : s.vnodes ≠ [] := by
    intro he
    have hin : vNodeSlot hf (hash32 hf n.Key) 0 ∈ s.vnodes := by
      apply hk
      intro hnone
      simp [ownersOf, hnone] at hmem
    rw [he] at hin
    simp at hin
  obtain ⟨v, _, hown_ne, hget⟩ := getNode_eq_pickOwner hf s key hinv hne
  obtain ⟨m, hpick, _, _⟩ := pickOwner_found hown_ne (hash32 hf key)
  exact ⟨m, by rw [hget, hpick]⟩

/-- The hypotheses of `getNode_total` hold for the default hash function, which gives
every node ten pairwise distinct slot values, on `ringF` with the registered cache
`cacheF1`. -/
theorem getNode_total_witness :
    ReachableWith Fnv1a (OwnReplicasDistinct Fnv1a) ringF ∧ Registered Fnv1a ringF cacheF1 ∧
      ∃ m, GetNode Fnv1a ringF (int2Bytes 0) = Lookup.found m :=
  ⟨reachableWith_ringF, by decide,
    getNode_total Fnv1a ringF reachableWith_ringF cacheF1 (by decide) (int2Bytes 0)⟩

/-- C11 (amended): for every hash function, on every ring reachable from `New` by calls of
`RemoveNode` and by calls of `AddNode` for nodes whose ten slot values are pairwise
distinct, the keys of the ownership index are exactly the values of the slot table, and no
owner list of the index is empty. -/
theorem index_keys_eq_table_values (hf : List Nat → Nat) (s : ConsistentHash)
    (hreach : ReachableWith hf (OwnReplicasDistinct hf) s) :
    (∀ k, mapGet s.vNodeMapActNodes k ≠ none ↔ k ∈ s.vnodes) ∧
      (∀ k nodes, mapGet s.vNodeMapActNodes k = some nodes → nodes ≠ []) := by
  have hr := reachableWith_reachable hf _ s hreach
  have hinv := reachable_ringInv hf s hr
  obtain ⟨hk, _, _⟩ := reachable_slot_invariants hf s hreach
  obtain ⟨_, hne, _, _⟩ := reachable_owner_invariants hf s hr
  refine ⟨fun k => ⟨hk k, ?_⟩, hne⟩
  intro hmem hnone
  have := hinv.2 k hmem
  simp [ownersOf, hnone] at this

/-- The hypothesis of `index_keys_eq_table_values` holds for the default hash function,
which gives every node ten pairwise distinct slot values, on `ringFU`. -/
theorem index_keys_eq_table_values_witness :
    ReachableWith Fnv1a (OwnReplicasDistinct Fnv1a) ringFU ∧
      (∀ k, mapGet ringFU.vNodeMapActNodes k ≠ none ↔ k ∈ ringFU.vnodes) ∧
      (∀ k nodes, mapGet ringFU.vNodeMapActNodes k = some nodes → nodes ≠ []) :=
  ⟨reachableWith_ringFU, index_keys_eq_table_values Fnv1a ringFU reachableWith_ringFU⟩

end ConsistentHashRing
